import Mathlib

/-!
# hashmap_c: a string-keyed open-addressing hash map

Shallow embedding of `src/hashmap.h` and `src/hashmap.c`.

* A C string (`const char *`) is the list of its bytes before the terminator; a
  pointer that may be `NULL` is an `Option`.
* A `void *` value is the address it holds (`0` is `NULL`).
* `size_t` and `uint64_t` are naturals reduced modulo `2 ^ 64` wherever the C
  arithmetic can wrap.
* A pointer into the slot array (`Slot *slot`) is the index of the slot.
* A function that mutates `*map` and returns an `int` returns the pair of the
  return code and the new map.
* `calloc` and `strdup` may fail: each call site takes a boolean saying whether
  the allocation succeeds.
* The arguments `map`, `map->slots` and `key` of the public operations are taken
  to be non-null (a `Hashmap` and a `Key`), so of the argument guards only
  `capacity == 0` remains.
* The `while (slot->state != SLOT_EMPTY && steps < cap)` loops recurse on
  `cap - steps`, which starts at `cap`.
* The two load-factor tests of `hm_insert` are written in `double` arithmetic in
  the source; they are rendered here by the exact comparison of the ratios
  (cross-multiplied). The two agree as long as `size + 1` and `del_count` are
  below `2 ^ 50`, that is for every map of fewer than `2 ^ 50` slots.
* `needs_resize_ieee` and `hm_insert_ieee` are the same test and the same function
  in binary64 arithmetic: every conversion `(double)n` and every division rounds
  once, to nearest, ties to even. The load bound (C10) is stated on them.
-/

namespace HashmapC

/-! ## Data model (`hashmap.h`) -/

/-- The enum `SlotState`. -/
inductive SlotState where
  | SLOT_EMPTY
  | SLOT_OCCUPIED
  | SLOT_DELETED
  deriving DecidableEq

/-- A key is the byte sequence of a C string. -/
abbrev Key := List Nat

/-- The struct `Slot`. -/
structure Slot where
  key : Option Key
  value : Nat
  state : SlotState
  deriving DecidableEq

/-- The struct `Hashmap`. -/
structure Hashmap where
  slots : List Slot
  capacity : Nat
  size : Nat
  del_count : Nat
  deriving DecidableEq

/-- The largest `size_t` of the 64-bit target. -/
def SIZE_MAX : Nat := 2 ^ 64 - 1

/-- The value of `sizeof(Slot)` on the 64-bit target: two pointers and a padded enum. -/
def sizeof_Slot : Nat := 24

/-- A slot as `calloc` leaves it: all bytes zero. -/
def zero_slot : Slot := ⟨none, 0, SlotState.SLOT_EMPTY⟩

/-- Reading `slots[i]`. -/
def slot_at (slots : List Slot) (i : Nat) : Slot := slots.getD i zero_slot

/-! ## Utilities (`hashmap.c`) -/

/-- The function `next_pow2` on a 64-bit `size_t`. -/
def next_pow2 (n : Nat) : Nat :=
  if n = 0 then 1
  else
    let n := n - 1
    let n := n ||| (n >>> 1)
    let n := n ||| (n >>> 2)
    let n := n ||| (n >>> 4)
    let n := n ||| (n >>> 8)
    let n := n ||| (n >>> 16)
    let n := n ||| (n >>> 32)
    (n + 1) % 2 ^ 64

/-- The function `hash_cstr_fnv1a`, with the constants the source has. -/
def hash_cstr_fnv1a (s : Key) : Nat :=
  s.foldl (fun h c => ((h ^^^ (c % 256)) * 1099511628211) % 2 ^ 64) 1469598103934665603

/-- The function `make_slots`; `calloc_ok` says whether `calloc` returns memory. -/
def make_slots (count : Nat) (calloc_ok : Bool) : Option (List Slot) :=
  if count ≠ 0 ∧ count > SIZE_MAX / sizeof_Slot then none
  else if calloc_ok then some (List.replicate count zero_slot)
  else none

/-- The function `hm_create`; the two booleans say whether the two allocations succeed. -/
def hm_create (initial_capacity : Nat) (buf_ok calloc_ok : Bool) : Option Hashmap :=
  if buf_ok then
    let capacity := next_pow2 initial_capacity
    match make_slots capacity calloc_ok with
    | none => none
    | some slots => some ⟨slots, capacity, 0, 0⟩
  else none

/-! ## The probe-insert primitive and resize -/

/-- The loop of `slot_insert`: `slot` is the slot under test, `i` the running
index, `steps` the step counter; the first argument is `cap - steps`. -/
def slot_insert_loop (slots : List Slot) (cap : Nat) : Nat → Nat → Nat → Nat → Nat × Nat
  | 0, slot, _, steps => (slot, steps)
  | fuel + 1, slot, i, steps =>
    if (slot_at slots slot).state = SlotState.SLOT_EMPTY then (slot, steps)
    else slot_insert_loop slots cap fuel (i &&& (cap - 1)) ((i + 1) % 2 ^ 64) (steps + 1)

/-- The function `slot_insert`: return code, slot array and `*size` afterwards. -/
def slot_insert (slots : List Slot) (key : Option Key) (value : Nat) (size : Nat) (cap : Nat) :
    Int × List Slot × Nat :=
  match key with
  | none => (1, slots, size)
  | some k =>
    if cap = 0 then (1, slots, size)
    else
      let idx := hash_cstr_fnv1a k &&& (cap - 1)
      let r := slot_insert_loop slots cap cap idx idx 0
      if r.2 ≥ cap then (2, slots, size)
      else (0, slots.set r.1 ⟨some k, value, SlotState.SLOT_OCCUPIED⟩, (size + 1) % 2 ^ 64)

/-- The rehash loop of `hm_resize` over the old slots still to visit: `none` when
a `slot_insert` fails, else the new array and the running `size`. -/
def rehash (cap : Nat) : List Slot → List Slot → Nat → Option (List Slot × Nat)
  | [], new_slots, size => some (new_slots, size)
  | s :: rest, new_slots, size =>
    if s.state = SlotState.SLOT_OCCUPIED then
      let result := slot_insert new_slots s.key s.value size cap
      if result.1 ≠ 0 then none
      else rehash cap rest result.2.1 result.2.2
    else rehash cap rest new_slots size

/-- The function `hm_resize`. -/
def hm_resize (map : Hashmap) (calloc_ok : Bool) : Int × Hashmap :=
  let old_cap := map.capacity
  let old_slots := map.slots
  let cap := (map.capacity * 2) % 2 ^ 64
  if cap < map.capacity then (2, map)
  else
    match make_slots cap calloc_ok with
    | none => (2, map)
    | some new_slots =>
      match rehash cap ((List.range old_cap).map (slot_at old_slots)) new_slots 0 with
      | none => (3, map)
      | some (new_slots1, size) => (0, ⟨new_slots1, cap, size, 0⟩)

/-! ## Insert -/

/-- How the probe loop of `hm_insert` ends: by the `return 0` of the overwrite
branch at slot `i`, or by leaving the loop with `i`, `del_i` and `steps`. -/
inductive InsertProbe where
  | hit (i : Nat)
  | done (i del_i steps : Nat)
  deriving DecidableEq

/-- The probe loop of `hm_insert`; the first argument is `capacity - steps`. -/
def hm_insert_loop (slots : List Slot) (cap : Nat) (key : Key) :
    Nat → Nat → Nat → Nat → InsertProbe
  | 0, i, del_i, steps => InsertProbe.done i del_i steps
  | fuel + 1, i, del_i, steps =>
    let slot := slot_at slots i
    if slot.state = SlotState.SLOT_EMPTY then InsertProbe.done i del_i steps
    else
      let del_i1 := if slot.state = SlotState.SLOT_DELETED ∧ del_i = SIZE_MAX then i else del_i
      if slot.state = SlotState.SLOT_OCCUPIED ∧ slot.key = some key then InsertProbe.hit i
      else hm_insert_loop slots cap key fuel ((i + 1) &&& (cap - 1)) del_i1 (steps + 1)

/-- The resize test at the head of `hm_insert`. -/
def needs_resize (map : Hashmap) : Bool :=
  decide (4 * ((map.size + 1) % 2 ^ 64) > 3 * map.capacity) ||
    (decide (map.size > 0) && decide (5 * map.del_count > 4 * map.size))

/-- The part of `hm_insert` after the resize test. -/
def hm_insert_place (map : Hashmap) (key : Key) (value : Nat) (strdup_ok : Bool) :
    Int × Hashmap :=
  let idx := hash_cstr_fnv1a key &&& (map.capacity - 1)
  match hm_insert_loop map.slots map.capacity key map.capacity idx SIZE_MAX 0 with
  | InsertProbe.hit i =>
    (0, { map with slots := map.slots.set i { slot_at map.slots i with value := value } })
  | InsertProbe.done i del_i steps =>
    if steps = map.capacity ∧ del_i = SIZE_MAX then (4, map)
    else
      let slot := if del_i ≠ SIZE_MAX then del_i else i
      let del_count := if del_i ≠ SIZE_MAX then (map.del_count + (2 ^ 64 - 1)) % 2 ^ 64
        else map.del_count
      if strdup_ok then
        (0, { slots := map.slots.set slot ⟨some key, value, SlotState.SLOT_OCCUPIED⟩,
              capacity := map.capacity,
              size := (map.size + 1) % 2 ^ 64,
              del_count := del_count })
      else
        (2, { map with
              slots := map.slots.set slot { slot_at map.slots slot with key := none },
              del_count := del_count })

/-- The function `hm_insert`. -/
def hm_insert (map : Hashmap) (key : Key) (value : Nat) (calloc_ok strdup_ok : Bool) :
    Int × Hashmap :=
  if map.capacity = 0 then (1, map)
  else if needs_resize map then
    let result := hm_resize map calloc_ok
    if result.1 ≠ 0 then (1, result.2)
    else hm_insert_place result.2 key value strdup_ok
  else hm_insert_place map key value strdup_ok

/-! ## The load tests of `hm_insert` in `double` arithmetic -/

/-- Number of binary digits of `n` (0 for 0); the first argument bounds the recursion and is
at least that number. -/
def bit_length : Nat → Nat → Nat
  | 0, _ => 0
  | fuel + 1, n => if n = 0 then 0 else bit_length fuel (n / 2) + 1

/-- The integer nearest to `num / den`, a tie going to the even one: the rounding mode of
binary64 arithmetic. -/
def round_even (num den : Nat) : Nat :=
  if 2 * (num % den) < den then num / den
  else if den < 2 * (num % den) then num / den + 1
  else if (num / den) % 2 = 0 then num / den
  else num / den + 1

/-- The fraction `p * 2 ^ k / d`, numerator and denominator. -/
def scaled (p d : Nat) (k : Int) : Nat × Nat :=
  if 0 ≤ k then (p * 2 ^ k.toNat, d) else (p, d * 2 ^ (-k).toNat)

/-- The `k` for which `p * 2 ^ k / d` lies in `[2 ^ 52, 2 ^ 53)`, for `p` and `d` positive and
below `2 ^ 256`: with the first guess the scaled quotient is between `2 ^ 51` and
`2 ^ 53`. -/
def scale_exponent (p d : Nat) : Int :=
  let k0 : Int := 52 + (bit_length 256 d : Int) - (bit_length 256 p : Int)
  if (scaled p d k0).1 / (scaled p d k0).2 < 2 ^ 52 then k0 + 1 else k0

/-- The binary64 value nearest to `p / d` (ties to even), as a fraction whose denominator is
a power of two: the quotient is scaled into `[2 ^ 52, 2 ^ 53)`, rounded to an integer, which
is the 53-bit significand, and scaled back. The exponent range of binary64 is not modelled:
the quotients of two `size_t` are far inside it. -/
def round_ratio (p d : Nat) : Nat × Nat :=
  if p = 0 then (0, 1)
  else
    let k := scale_exponent p d
    let m := round_even (scaled p d k).1 (scaled p d k).2
    if 0 ≤ k then (m, 2 ^ k.toNat) else (m * 2 ^ (-k).toNat, 1)

/-- The conversion `(double)n` of a `size_t`. -/
def to_double (n : Nat) : Nat × Nat := round_ratio n 1

/-- The quotient `a / b` of two doubles, `b` not zero. -/
def div_double (a b : Nat × Nat) : Nat × Nat := round_ratio (a.1 * b.2) (a.2 * b.1)

/-- The comparison `a > b` of two doubles. -/
def gt_double (a b : Nat × Nat) : Bool := decide (b.1 * a.2 < a.1 * b.2)

/-- The resize test at the head of `hm_insert` as the source computes it, in `double`
arithmetic: `0.75` is the double 3/4 and `0.8` the double nearest to 4/5. -/
def needs_resize_ieee (map : Hashmap) : Bool :=
  gt_double (div_double (to_double ((map.size + 1) % 2 ^ 64)) (to_double map.capacity)) (3, 4) ||
    (decide (map.size > 0) &&
      gt_double (div_double (to_double map.del_count) (to_double map.size)) (round_ratio 4 5))

/-- The function `hm_insert` with the resize test in `double` arithmetic. -/
def hm_insert_ieee (map : Hashmap) (key : Key) (value : Nat) (calloc_ok strdup_ok : Bool) :
    Int × Hashmap :=
  if map.capacity = 0 then (1, map)
  else if needs_resize_ieee map then
    let result := hm_resize map calloc_ok
    if result.1 ≠ 0 then (1, result.2)
    else hm_insert_place result.2 key value strdup_ok
  else hm_insert_place map key value strdup_ok

/-! ## Search, update, delete -/

/-- The probe loop that `hm_search`, `hm_update` and `hm_delete` each spell out:
the index of the matching slot, or `none` when the loop is left. -/
def find_loop (slots : List Slot) (cap : Nat) (key : Key) : Nat → Nat → Option Nat
  | 0, _ => none
  | fuel + 1, idx =>
    let slot := slot_at slots idx
    if slot.state = SlotState.SLOT_EMPTY then none
    else if slot.state = SlotState.SLOT_OCCUPIED ∧ slot.key = some key then some idx
    else find_loop slots cap key fuel ((idx + 1) &&& (cap - 1))

/-- The function `hm_search`: the index of the returned slot, `none` for `NULL`. -/
def hm_search (map : Hashmap) (key : Key) : Option Nat :=
  if map.capacity = 0 then none
  else find_loop map.slots map.capacity key map.capacity
    (hash_cstr_fnv1a key &&& (map.capacity - 1))

/-- The function `hm_update`. -/
def hm_update (map : Hashmap) (key : Key) (value : Nat) : Int × Hashmap :=
  if map.capacity = 0 then (-1, map)
  else
    match find_loop map.slots map.capacity key map.capacity
        (hash_cstr_fnv1a key &&& (map.capacity - 1)) with
    | some idx =>
      (0, { map with slots := map.slots.set idx { slot_at map.slots idx with value := value } })
    | none => (-1, map)

/-- The function `hm_delete`. -/
def hm_delete (map : Hashmap) (key : Key) : Int × Hashmap :=
  if map.capacity = 0 then (-1, map)
  else
    match find_loop map.slots map.capacity key map.capacity
        (hash_cstr_fnv1a key &&& (map.capacity - 1)) with
    | some idx =>
      (0, { slots := map.slots.set idx ⟨none, 0, SlotState.SLOT_DELETED⟩,
            capacity := map.capacity,
            size := if map.size > 0 then map.size - 1 else map.size,
            del_count := (map.del_count + 1) % 2 ^ 64 })
    | none => (-1, map)

/-- What a caller reads through the pointer `hm_search` returns: the slot. -/
def hm_lookup (map : Hashmap) (key : Key) : Option Slot :=
  (hm_search map key).map (slot_at map.slots)

/-- The value behind the pointer `hm_search` returns, `none` for `NULL`. -/
def hm_value (map : Hashmap) (key : Key) : Option Nat :=
  (hm_lookup map key).map Slot.value

open SlotState

/-! ## Predicates and scenarios used by the proofs -/

/-- The slot visited `j` steps after slot `idx`. -/
def pos (cap idx j : Nat) : Nat := (idx + j) % cap

/-- Number of slots in a given state. -/
def count_state (st : SlotState) (l : List Slot) : Nat :=
  l.countP (fun s => decide (s.state = st))

/-- Slot `i` is not Empty. -/
def non_empty (slots : List Slot) (i : Nat) : Prop :=
  (slot_at slots i).state ≠ SLOT_EMPTY

/-- Slot `i` is Occupied and stores key `k`. -/
def holds (slots : List Slot) (i : Nat) (k : Key) : Prop :=
  (slot_at slots i).state = SLOT_OCCUPIED ∧ (slot_at slots i).key = some k

/-- The slot under test after `j` iterations of the loop of `slot_insert` started with
`slot` and running index `i`. -/
def seq (cap slot i : Nat) : Nat → Nat
  | 0 => slot
  | j + 1 => (i + j) % cap

/-- On the probe path from a key's home slot to the slot that holds it, no slot is Empty. -/
def ProbeInv (slots : List Slot) (cap : Nat) : Prop :=
  ∀ k j, j < cap → holds slots (pos cap (hash_cstr_fnv1a k % cap) j) k →
    ∀ j', j' < j → non_empty slots (pos cap (hash_cstr_fnv1a k % cap) j')

/-- No key is stored in two Occupied slots. -/
def UniqueKeys (slots : List Slot) (cap : Nat) : Prop :=
  ∀ p q k, p < cap → q < cap → holds slots p k → holds slots q k → p = q

/-- A slot has a key exactly when it is Occupied. -/
def KeyIff (slots : List Slot) (cap : Nat) : Prop :=
  ∀ p, p < cap → ((slot_at slots p).state = SLOT_OCCUPIED ↔ (slot_at slots p).key ≠ none)

/-- Well-formed slot array of `cap` slots. -/
structure SlotsWF (slots : List Slot) (cap : Nat) : Prop where
  pow2 : ∃ e, cap = 2 ^ e
  cap_le : cap ≤ SIZE_MAX / sizeof_Slot
  len : slots.length = cap
  key_iff : KeyIff slots cap
  probe : ProbeInv slots cap
  uniq : UniqueKeys slots cap

/-- Well-formed map with at least one slot. -/
structure WF (m : Hashmap) : Prop where
  slots_wf : SlotsWF m.slots m.capacity
  size_eq : m.size = count_state SLOT_OCCUPIED m.slots

/-- Key `k` is stored with value `v` in some Occupied slot. -/
def entry (slots : List Slot) (cap : Nat) (k : Key) (v : Nat) : Prop :=
  ∃ p, p < cap ∧ holds slots p k ∧ (slot_at slots p).value = v

/-- No slot is a tombstone. -/
def NoDeleted (slots : List Slot) : Prop :=
  ∀ p, (slot_at slots p).state ≠ SLOT_DELETED

/-- Some slot of the list is Occupied and stores `k` with `v`. -/
def listed (l : List Slot) (k : Key) (v : Nat) : Prop :=
  ∃ s, s ∈ l ∧ s.state = SLOT_OCCUPIED ∧ s.key = some k ∧ s.value = v

/-- The load bound that every successful insert establishes. -/
def Load (m : Hashmap) : Prop := 4 * m.size ≤ 3 * m.capacity

/-- The map on which `hm_insert` runs its probe loop: `m` itself, or `m` resized. -/
structure Prepared (m : Hashmap) (c : Bool) (m0 : Hashmap) : Prop where
  wf : WF m0
  size_eq : m0.size = m.size
  room : 4 * (m0.size + 1) ≤ 3 * m0.capacity
  entries : ∀ k v, entry m0.slots m0.capacity k v ↔ entry m.slots m.capacity k v
  origin : (needs_resize m = false ∧ m0 = m) ∨
    (needs_resize m = true ∧ (hm_resize m c).1 = 0 ∧ m0 = (hm_resize m c).2)

/-- How a call of `hm_insert` on a well-formed map within the load bound ends. -/
inductive InsertOutcome (m : Hashmap) (k : Key) (v : Nat) (c s : Bool) : Prop
  | resize_failed : needs_resize m = true → (hm_resize m c).1 ≠ 0 →
      hm_insert m k v c s = (1, m) → InsertOutcome m k v c s
  | overwrote (m0 : Hashmap) (p : Nat) : Prepared m c m0 → hm_search m0 k = some p →
      hm_insert m k v c s =
        (0, { m0 with slots := m0.slots.set p { slot_at m0.slots p with value := v } }) →
      InsertOutcome m k v c s
  | placed (m0 : Hashmap) (jq : Nat) : Prepared m c m0 → hm_search m0 k = none →
      jq < m0.capacity →
      (∀ j, j < jq →
        (slot_at m0.slots (pos m0.capacity (hash_cstr_fnv1a k % m0.capacity) j)).state
          = SLOT_OCCUPIED) →
      (slot_at m0.slots (pos m0.capacity (hash_cstr_fnv1a k % m0.capacity) jq)).state
        ≠ SLOT_OCCUPIED →
      hm_insert m k v c s =
        (if s then
          (0, ⟨m0.slots.set (pos m0.capacity (hash_cstr_fnv1a k % m0.capacity) jq)
                ⟨some k, v, SLOT_OCCUPIED⟩, m0.capacity, m0.size + 1,
              if (slot_at m0.slots (pos m0.capacity (hash_cstr_fnv1a k % m0.capacity) jq)).state
                  = SLOT_DELETED
              then (m0.del_count + (2 ^ 64 - 1)) % 2 ^ 64 else m0.del_count⟩)
        else
          (2, ⟨m0.slots, m0.capacity, m0.size,
              if (slot_at m0.slots (pos m0.capacity (hash_cstr_fnv1a k % m0.capacity) jq)).state
                  = SLOT_DELETED
              then (m0.del_count + (2 ^ 64 - 1)) % 2 ^ 64 else m0.del_count⟩)) →
      InsertOutcome m k v c s

/-- Bit `i` of `y` is set exactly when one of the `w` bits of `x` from `i` upwards is set. -/
def Smeared (x w y : Nat) : Prop :=
  ∀ i, y.testBit i = true ↔ ∃ j, j < w ∧ x.testBit (i + j) = true

/-- The maps a caller can hold: returned by `hm_create` and then passed through any
sequence of `hm_insert`, `hm_update` and `hm_delete` calls, whatever they return and
whichever allocations fail. -/
inductive Reachable : Hashmap → Prop
  | create (n : Nat) (buf_ok calloc_ok : Bool) (m : Hashmap) :
      n < 2 ^ 64 → hm_create n buf_ok calloc_ok = some m → Reachable m
  | insert (m : Hashmap) (k : Key) (v : Nat) (c s : Bool) :
      Reachable m → Reachable (hm_insert m k v c s).2
  | update (m : Hashmap) (k : Key) (v : Nat) :
      Reachable m → Reachable (hm_update m k v).2
  | delete (m : Hashmap) (k : Key) :
      Reachable m → Reachable (hm_delete m k).2

/-- The maps the public operations of the source build: as `Reachable`, with the resize test
of `hm_insert` in `double` arithmetic. -/
inductive Reachable_ieee : Hashmap → Prop
  | create (n : Nat) (buf_ok calloc_ok : Bool) (m : Hashmap) :
      n < 2 ^ 64 → hm_create n buf_ok calloc_ok = some m → Reachable_ieee m
  | insert (m : Hashmap) (k : Key) (v : Nat) (c s : Bool) :
      Reachable_ieee m → Reachable_ieee (hm_insert_ieee m k v c s).2
  | update (m : Hashmap) (k : Key) (v : Nat) :
      Reachable_ieee m → Reachable_ieee (hm_update m k v).2
  | delete (m : Hashmap) (k : Key) :
      Reachable_ieee m → Reachable_ieee (hm_delete m k).2

/-- The invariant of reachable maps: the map has no slot at all (a request above `2 ^ 63`
makes `next_pow2` wrap to 0), or it is well-formed and within the load bound. -/
def Inv (m : Hashmap) : Prop :=
  (m.capacity = 0 ∧ m.slots = [] ∧ m.size = 0) ∨ (WF m ∧ Load m)

/-- A reachable map together with the content its history of calls gives it: a successful
insert or update binds the key to the value, a successful delete unbinds it, and a call that
fails changes nothing. -/
inductive Tracks : Hashmap → (Key → Option Nat) → Prop
  | create (n : Nat) (buf_ok calloc_ok : Bool) (m : Hashmap) :
      n < 2 ^ 64 → hm_create n buf_ok calloc_ok = some m → Tracks m (fun _ => none)
  | insert (m : Hashmap) (f : Key → Option Nat) (k : Key) (v : Nat) (c s : Bool) :
      Tracks m f →
      Tracks (hm_insert m k v c s).2
        (if (hm_insert m k v c s).1 = 0 then Function.update f k (some v) else f)
  | update (m : Hashmap) (f : Key → Option Nat) (k : Key) (v : Nat) :
      Tracks m f →
      Tracks (hm_update m k v).2
        (if (hm_update m k v).1 = 0 then Function.update f k (some v) else f)
  | delete (m : Hashmap) (f : Key → Option Nat) (k : Key) :
      Tracks m f →
      Tracks (hm_delete m k).2
        (if (hm_delete m k).1 = 0 then Function.update f k none else f)

/-- The map `hm_create(16)` returns when both allocations succeed. -/
def map16 : Hashmap := ⟨List.replicate 16 zero_slot, 16, 0, 0⟩

/-- The insert loop of `test_resize_and_lookup`: the pairs are inserted one by one, each call
with its own allocation outcomes; the result is the final map when every call returned 0. -/
def insert_each (m : Hashmap) : List (Key × Nat × Bool × Bool) → Option Hashmap
  | [] => some m
  | op :: rest =>
    if (hm_insert m op.1 op.2.1 op.2.2.1 op.2.2.2).1 = 0 then
      insert_each (hm_insert m op.1 op.2.1 op.2.2.1 op.2.2.2).2 rest
    else none

/-- The decimal digits of `n` in ASCII, in front of `acc`: what `%zu` prints. -/
def dec_digits : Nat → Nat → List Nat → List Nat
  | 0, _, acc => acc
  | f + 1, n, acc =>
    if n < 10 then (48 + n) :: acc else dec_digits f (n / 10) ((48 + n % 10) :: acc)

/-- The key `snprintf(key, sizeof key, "thing_%zu", i)` builds in the tests. -/
def thing (i : Nat) : Key := [116, 104, 105, 110, 103, 95] ++ dec_digits 20 i []

/-- The number a list of ASCII digits denotes. -/
def dec_value (l : List Nat) : Nat := l.foldl (fun a d => 10 * a + (d - 48)) 0

/-- The first `n` pairs `thing_i ↦ i` of `test_resize_and_lookup`, every allocation
succeeding. -/
def things (n : Nat) : List (Key × Nat × Bool × Bool) :=
  (List.range n).map (fun i => (thing i, i, true, true))

/-- The maps of an insert-only run: well-formed, no tombstone, and a capacity that the
number of keys bounds. -/
structure Fresh (m : Hashmap) : Prop where
  wf : WF m
  load : Load m
  nodel : NoDeleted m.slots
  del0 : m.del_count = 0
  cap_bound : m.capacity ≤ max 16 (4 * m.size + 4)

/-- The map of 16 slots holding "a" in its home slot 6 and "q", whose home slot is 6 too,
in slot 7. -/
def aq_map : Hashmap := (hm_insert (hm_insert map16 [97] 1 true true).2 [113] 2 true true).2

/-- The map `hm_create(4)` returns when both allocations succeed. -/
def map4 : Hashmap := ⟨List.replicate 4 zero_slot, 4, 0, 0⟩

/-- The map of 4 slots after "a", "b" and "c" are inserted with values 1, 2 and 3. -/
def abc4_map : Hashmap :=
  (hm_insert (hm_insert (hm_insert map4 [97] 1 true true).2 [98] 2 true true).2
    [99] 3 true true).2

/-- The map of 4 slots after "a", "b" and "c" are inserted by `hm_insert_ieee`. -/
def abc4_ieee_map : Hashmap :=
  (hm_insert_ieee (hm_insert_ieee (hm_insert_ieee map4 [97] 1 true true).2 [98] 2 true true).2
    [99] 3 true true).2

/-- The map of `test_basic_insert_get` after "alice", "bob" and "carol" are inserted. -/
def abc_names_map : Hashmap :=
  (hm_insert (hm_insert (hm_insert map16 [97, 108, 105, 99, 101] 10 true true).2
    [98, 111, 98] 20 true true).2 [99, 97, 114, 111, 108] 30 true true).2

/-- The map of `test_tombstone_reuse` after "a", "b" and "c" are inserted with 1, 2, 3. -/
def abc_map : Hashmap :=
  (hm_insert (hm_insert (hm_insert map16 [97] 1 true true).2 [98] 2 true true).2
    [99] 3 true true).2

/-- The reference 64-bit FNV-1a hash, as the specification words it: start from the offset
basis 14695981039346656037 and, for each byte in order, xor the byte in and multiply by the
prime 1099511628211 modulo `2 ^ 64`. -/
def fnv1a_64_reference (s : Key) : Nat :=
  s.foldl (fun h c => ((h ^^^ (c % 256)) * 1099511628211) % 2 ^ 64) 14695981039346656037

/-- The counter and slot invariant of the data model: `size` counts the Occupied slots,
`del_count` counts the Deleted slots, the array has `capacity` slots, and a slot has a key
exactly when it is Occupied. -/
def counter_inv (m : Hashmap) : Prop :=
  m.size = count_state SLOT_OCCUPIED m.slots ∧
  m.del_count = count_state SLOT_DELETED m.slots ∧
  m.slots.length = m.capacity ∧
  ∀ s, s ∈ m.slots → (s.key ≠ none ↔ s.state = SLOT_OCCUPIED)

/-- The map of 16 slots after "a" is inserted and deleted: one tombstone, in slot 6. -/
def tomb_map : Hashmap := (hm_delete (hm_insert map16 [97] 1 true true).2 [97]).2

/-- The counter and probe invariants together, on a map of any `size_t` capacity: the
capacity is a power of two, the array has that many slots, the counters count, keys sit
exactly in Occupied slots, no key is stored twice and no probe path to a stored key crosses
an Empty slot. -/
structure Sound (m : Hashmap) : Prop where
  pow2 : ∃ e, m.capacity = 2 ^ e
  cap_lt : m.capacity < 2 ^ 64
  len : m.slots.length = m.capacity
  key_iff : KeyIff m.slots m.capacity
  probe : ProbeInv m.slots m.capacity
  uniq : UniqueKeys m.slots m.capacity
  size_eq : m.size = count_state SLOT_OCCUPIED m.slots
  del_eq : m.del_count = count_state SLOT_DELETED m.slots

/-- The map of 16 slots after "a" and "q" are inserted and "a" is deleted: a tombstone in
slot 6 and "q" behind it in slot 7. -/
def q_tomb_map : Hashmap := (hm_delete aq_map [97]).2

/-- The churn sequence on `hm_create(16)`: insert `thing_0` and `thing_1`, then `n` times
delete the older of the two live keys and insert a fresh one; every allocation succeeds. -/
def churn : Nat → Hashmap
  | 0 => (hm_insert (hm_insert map16 (thing 0) 0 true true).2 (thing 1) 1 true true).2
  | n + 1 =>
    (hm_insert (hm_delete (churn n) (thing n)).2 (thing (n + 2)) (n + 2) true true).2

/-- An array of 2 slots: slot 0 Occupied by "s", slot 1 Empty. -/
def half_full_slots : List Slot := [⟨some [115], 7, SLOT_OCCUPIED⟩, zero_slot]

/-! ## Index arithmetic -/

theorem mask_eq_mod {cap e : Nat} (h : cap = 2 ^ e) (x : Nat) : x &&& (cap - 1) = x % cap := by
  subst h
  exact Nat.and_pow_two_sub_one_eq_mod x e

theorem pos_lt {cap : Nat} (hc : 0 < cap) (idx j : Nat) : pos cap idx j < cap :=
  Nat.mod_lt _ hc

theorem pos_zero {cap idx : Nat} (h : idx < cap) : pos cap idx 0 = idx := by
  simp [pos, Nat.mod_eq_of_lt h]

theorem pos_succ (cap idx j : Nat) : pos cap ((idx + 1) % cap) j = pos cap idx (j + 1) := by
  unfold pos
  rw [Nat.add_mod, Nat.mod_mod, ← Nat.add_mod]
  congr 1
  omega

theorem pos_inj {cap idx j1 j2 : Nat} (h1 : j1 < cap) (h2 : j2 < cap)
    (h : pos cap idx j1 = pos cap idx j2) : j1 = j2 := by
  unfold pos at h
  have h3 : j1 % cap = j2 % cap := Nat.ModEq.add_left_cancel' idx h
  rwa [Nat.mod_eq_of_lt h1, Nat.mod_eq_of_lt h2] at h3

theorem pos_surj {cap idx p : Nat} (hi : idx < cap) (hp : p < cap) :
    ∃ j, j < cap ∧ pos cap idx j = p := by
  by_cases h : idx ≤ p
  · refine ⟨p - idx, by omega, ?_⟩
    unfold pos
    rw [Nat.add_sub_cancel' h, Nat.mod_eq_of_lt hp]
  · refine ⟨p + cap - idx, by omega, ?_⟩
    unfold pos
    have : idx + (p + cap - idx) = p + cap := by omega
    rw [this, Nat.add_mod_right, Nat.mod_eq_of_lt hp]

/-! ## Reading and writing slots -/

theorem slot_at_set_eq {l : List Slot} {q : Nat} (s : Slot) (h : q < l.length) :
    slot_at (l.set q s) q = s := by
  simp [slot_at, List.getD_eq_getElem?_getD, List.getElem?_set, h]

theorem slot_at_set_ne {l : List Slot} {p q : Nat} (s : Slot) (h : p ≠ q) :
    slot_at (l.set q s) p = slot_at l p := by
  simp [slot_at, List.getD_eq_getElem?_getD, List.getElem?_set, Ne.symm h]

theorem slot_at_replicate (n p : Nat) : slot_at (List.replicate n zero_slot) p = zero_slot := by
  unfold slot_at
  rw [List.getD_eq_getElem?_getD]
  by_cases h : p < n
  · simp [List.getElem?_replicate, h]
  · simp [List.getElem?_replicate, h]

theorem count_state_set (st : SlotState) (s : Slot) :
    ∀ (l : List Slot) (q : Nat), q < l.length →
      count_state st (l.set q s) + (if (slot_at l q).state = st then 1 else 0)
        = count_state st l + (if s.state = st then 1 else 0)
  | [], q, h => by simp at h
  | a :: l, 0, _ => by
    simp only [List.set_cons_zero, count_state, List.countP_cons, slot_at, List.getD_cons_zero,
      decide_eq_true_eq]
    omega
  | a :: l, q + 1, h => by
    have ih := count_state_set st s l q (by simpa using h)
    simp only [List.set_cons_succ, count_state, List.countP_cons, slot_at, List.getD_cons_succ,
      decide_eq_true_eq] at ih ⊢
    omega

theorem count_state_le (st : SlotState) (l : List Slot) : count_state st l ≤ l.length :=
  List.countP_le_length _

theorem count_state_replicate (n : Nat) (st : SlotState) (h : st ≠ SLOT_EMPTY) :
    count_state st (List.replicate n zero_slot) = 0 := by
  unfold count_state
  rw [List.countP_eq_zero]
  intro a ha
  rw [List.eq_of_mem_replicate ha]
  simp [zero_slot, Ne.symm h]

theorem count_state_pos {st : SlotState} {l : List Slot} {q : Nat} (h : q < l.length)
    (hs : (slot_at l q).state = st) : 0 < count_state st l := by
  unfold count_state
  rw [List.countP_pos_iff]
  refine ⟨l[q], List.getElem_mem h, ?_⟩
  have : slot_at l q = l[q] := by
    simp [slot_at, List.getD_eq_getElem?_getD, h]
  rw [← this]
  simpa using hs

/-! ## The probe loops -/

theorem holds_non_empty {slots : List Slot} {i : Nat} {k : Key} (h : holds slots i k) :
    non_empty slots i := by
  unfold non_empty
  rw [h.1]
  decide

theorem find_loop_spec {slots : List Slot} {cap e : Nat} (k : Key) (hpow : cap = 2 ^ e) :
    ∀ (fuel idx : Nat), idx < cap → ∀ p,
      (find_loop slots cap k fuel idx = some p ↔
        ∃ j, j < fuel ∧ pos cap idx j = p ∧ holds slots p k ∧
          ∀ j', j' < j → non_empty slots (pos cap idx j') ∧ ¬ holds slots (pos cap idx j') k)
  | 0, idx, _, p => by simp [find_loop]
  | fuel + 1, idx, hidx, p => by
    have hc : 0 < cap := by omega
    have ih := @find_loop_spec slots cap e k hpow fuel ((idx + 1) % cap) (Nat.mod_lt _ hc) p
    unfold find_loop
    simp only [mask_eq_mod hpow]
    by_cases hE : (slot_at slots idx).state = SLOT_EMPTY
    · simp only [hE, if_true]
      constructor
      · intro h; cases h
      · rintro ⟨j, _, hj, hh, hall⟩
        exfalso
        rcases Nat.eq_zero_or_pos j with h0 | h0
        · subst h0
          rw [pos_zero hidx] at hj
          subst hj
          exact holds_non_empty hh hE
        · have := (hall 0 h0).1
          rw [pos_zero hidx] at this
          exact this hE
    · simp only [hE, if_false]
      by_cases hM : (slot_at slots idx).state = SLOT_OCCUPIED ∧ (slot_at slots idx).key = some k
      · simp only [hM, and_self, if_true]
        constructor
        · intro h
          cases h
          exact ⟨0, Nat.succ_pos _, pos_zero hidx, hM, fun j' h => absurd h (Nat.not_lt_zero _)⟩
        · rintro ⟨j, _, hj, _, hall⟩
          rcases Nat.eq_zero_or_pos j with h0 | h0
          · subst h0
            rw [pos_zero hidx] at hj
            rw [hj]
          · have := (hall 0 h0).2
            rw [pos_zero hidx] at this
            exact absurd hM this
      · rw [if_neg hM, ih]
        constructor
        · rintro ⟨j, hj, hp, hh, hall⟩
          refine ⟨j + 1, Nat.succ_lt_succ hj, by rw [← pos_succ]; exact hp, hh, ?_⟩
          intro j' hj'
          rcases Nat.eq_zero_or_pos j' with h0 | h0
          · subst h0
            rw [pos_zero hidx]
            exact ⟨hE, hM⟩
          · obtain ⟨i, rfl⟩ : ∃ i, j' = i + 1 := ⟨j' - 1, by omega⟩
            rw [← pos_succ]
            exact hall i (by omega)
        · rintro ⟨j, hj, hp, hh, hall⟩
          rcases Nat.eq_zero_or_pos j with h0 | h0
          · subst h0
            rw [pos_zero hidx] at hp
            subst hp
            exact absurd hh hM
          · obtain ⟨i, rfl⟩ : ∃ i, j = i + 1 := ⟨j - 1, by omega⟩
            refine ⟨i, by omega, by rw [pos_succ]; exact hp, hh, ?_⟩
            intro j' hj'
            rw [pos_succ]
            exact hall (j' + 1) (by omega)

theorem find_loop_none {slots : List Slot} {cap e : Nat} (k : Key) (hpow : cap = 2 ^ e) :
    ∀ (fuel idx : Nat), idx < cap → find_loop slots cap k fuel idx = none →
      ∃ t, t ≤ fuel ∧ (t < fuel → (slot_at slots (pos cap idx t)).state = SLOT_EMPTY) ∧
        ∀ j, j < t → non_empty slots (pos cap idx j) ∧ ¬ holds slots (pos cap idx j) k
  | 0, idx, _, _ => ⟨0, Nat.le_refl _, fun h => absurd h (Nat.lt_irrefl _),
      fun j h => absurd h (Nat.not_lt_zero _)⟩
  | fuel + 1, idx, hidx, h => by
    have hc : 0 < cap := by omega
    unfold find_loop at h
    simp only [mask_eq_mod hpow] at h
    by_cases hE : (slot_at slots idx).state = SLOT_EMPTY
    · exact ⟨0, Nat.zero_le _, fun _ => by rw [pos_zero hidx]; exact hE,
        fun j h => absurd h (Nat.not_lt_zero _)⟩
    · simp only [hE, if_false] at h
      by_cases hM : (slot_at slots idx).state = SLOT_OCCUPIED ∧ (slot_at slots idx).key = some k
      · simp [hM] at h
      · rw [if_neg hM] at h
        obtain ⟨t, ht, hstop, hall⟩ :=
          find_loop_none k hpow fuel ((idx + 1) % cap) (Nat.mod_lt _ hc) h
        refine ⟨t + 1, Nat.succ_le_succ ht, ?_, ?_⟩
        · intro h1
          rw [← pos_succ]
          exact hstop (by omega)
        · intro j hj
          rcases Nat.eq_zero_or_pos j with h0 | h0
          · subst h0
            rw [pos_zero hidx]
            exact ⟨hE, hM⟩
          · obtain ⟨i, rfl⟩ : ∃ i, j = i + 1 := ⟨j - 1, by omega⟩
            rw [← pos_succ]
            exact hall i (by omega)

theorem hm_insert_loop_hit {slots : List Slot} {cap e : Nat} (k : Key) (hpow : cap = 2 ^ e) :
    ∀ (fuel idx d s p : Nat), find_loop slots cap k fuel idx = some p →
      hm_insert_loop slots cap k fuel idx d s = InsertProbe.hit p
  | 0, idx, d, s, p, h => by simp [find_loop] at h
  | fuel + 1, idx, d, s, p, h => by
    unfold find_loop at h
    unfold hm_insert_loop
    by_cases hE : (slot_at slots idx).state = SLOT_EMPTY
    · simp [hE] at h
    · simp only [hE, if_false] at h ⊢
      by_cases hM : (slot_at slots idx).state = SLOT_OCCUPIED ∧ (slot_at slots idx).key = some k
      · simp only [hM, and_self, if_true] at h ⊢
        cases h
        rfl
      · rw [if_neg hM] at h ⊢
        exact hm_insert_loop_hit k hpow fuel _ _ _ p h

theorem hm_insert_loop_done {slots : List Slot} {cap e : Nat} (k : Key) (hpow : cap = 2 ^ e)
    (hmax : cap ≤ SIZE_MAX) :
    ∀ (fuel idx d s : Nat), idx < cap → find_loop slots cap k fuel idx = none →
      ∃ t d', hm_insert_loop slots cap k fuel idx d s = InsertProbe.done (pos cap idx t) d' (s + t) ∧
        t ≤ fuel ∧ (t < fuel → (slot_at slots (pos cap idx t)).state = SLOT_EMPTY) ∧
        (∀ j, j < t → non_empty slots (pos cap idx j) ∧ ¬ holds slots (pos cap idx j) k) ∧
        (d ≠ SIZE_MAX → d' = d) ∧
        (d = SIZE_MAX →
          (d' = SIZE_MAX ∧ ∀ j, j < t → (slot_at slots (pos cap idx j)).state ≠ SLOT_DELETED) ∨
          (∃ jd, jd < t ∧ d' = pos cap idx jd ∧
            (slot_at slots (pos cap idx jd)).state = SLOT_DELETED ∧
            ∀ j, j < jd → (slot_at slots (pos cap idx j)).state ≠ SLOT_DELETED))
  | 0, idx, d, s, hidx, _ => by
    refine ⟨0, d, by simp [hm_insert_loop, pos_zero hidx], Nat.le_refl _,
      fun h => absurd h (Nat.lt_irrefl _), fun j h => absurd h (Nat.not_lt_zero _),
      fun _ => rfl, fun h => Or.inl ⟨h, fun j h => absurd h (Nat.not_lt_zero _)⟩⟩
  | fuel + 1, idx, d, s, hidx, h => by
    have hc : 0 < cap := by omega
    unfold find_loop at h
    unfold hm_insert_loop
    simp only [mask_eq_mod hpow] at h ⊢
    by_cases hE : (slot_at slots idx).state = SLOT_EMPTY
    · refine ⟨0, d, by simp [hE, pos_zero hidx], Nat.zero_le _,
        fun _ => by rw [pos_zero hidx]; exact hE, fun j h => absurd h (Nat.not_lt_zero _),
        fun _ => rfl, fun h => Or.inl ⟨h, fun j h => absurd h (Nat.not_lt_zero _)⟩⟩
    · simp only [hE, if_false] at h ⊢
      by_cases hM : (slot_at slots idx).state = SLOT_OCCUPIED ∧ (slot_at slots idx).key = some k
      · simp [hM] at h
      · rw [if_neg hM] at h ⊢
        obtain ⟨t, d', hrun, ht, hstop, hall, hkeep, hdel⟩ :=
          @hm_insert_loop_done slots cap e k hpow hmax fuel ((idx + 1) % cap)
            (if (slot_at slots idx).state = SLOT_DELETED ∧ d = SIZE_MAX then idx else d) (s + 1)
            (Nat.mod_lt _ hc) h
        have hshift : ∀ (P : Nat → Prop), P idx → (∀ j, j < t → P (pos cap ((idx + 1) % cap) j)) →
            ∀ j, j < t + 1 → P (pos cap idx j) := by
          intro P h0 hs j hj
          rcases Nat.eq_zero_or_pos j with hj0 | hj0
          · subst hj0
            rw [pos_zero hidx]
            exact h0
          · obtain ⟨i, rfl⟩ : ∃ i, j = i + 1 := ⟨j - 1, by omega⟩
            rw [← pos_succ]
            exact hs i (by omega)
        refine ⟨t + 1, d', ?_, Nat.succ_le_succ ht, ?_, ?_, ?_, ?_⟩
        · rw [hrun, pos_succ]
          congr 1
          omega
        · intro h1
          rw [← pos_succ]
          exact hstop (by omega)
        · exact hshift (fun q => non_empty slots q ∧ ¬ holds slots q k) ⟨hE, hM⟩ hall
        · intro hd
          rw [hkeep (by rw [if_neg (fun hh => hd hh.2)]; exact hd), if_neg (fun hh => hd hh.2)]
        · intro hd
          by_cases hD : (slot_at slots idx).state = SLOT_DELETED
          · right
            have hne : idx ≠ SIZE_MAX := by omega
            refine ⟨0, Nat.succ_pos _, ?_, by rw [pos_zero hidx]; exact hD,
              fun j h => absurd h (Nat.not_lt_zero _)⟩
            rw [hkeep (by rw [if_pos ⟨hD, hd⟩]; exact hne), if_pos ⟨hD, hd⟩, pos_zero hidx]
          · rcases hdel (by rw [if_neg (fun hh => hD hh.1)]; exact hd) with ⟨h1, h2⟩ | ⟨jd, h1, h2, h3, h4⟩
            · left
              exact ⟨h1, hshift (fun q => (slot_at slots q).state ≠ SLOT_DELETED) hD h2⟩
            · right
              refine ⟨jd + 1, Nat.succ_lt_succ h1, by rw [← pos_succ]; exact h2,
                by rw [← pos_succ]; exact h3, ?_⟩
              intro j hj
              rcases Nat.eq_zero_or_pos j with hj0 | hj0
              · subst hj0
                rw [pos_zero hidx]
                exact hD
              · obtain ⟨i, rfl⟩ : ∃ i, j = i + 1 := ⟨j - 1, by omega⟩
                rw [← pos_succ]
                exact h4 i (by omega)

theorem pow2_dvd_word {cap e : Nat} (hpow : cap = 2 ^ e) (hmax : cap ≤ SIZE_MAX) :
    cap ∣ 2 ^ 64 := by
  subst hpow
  apply Nat.pow_dvd_pow
  by_contra hlt
  have h1 : 2 ^ 64 ≤ 2 ^ e := Nat.pow_le_pow_right (by decide) (by omega)
  have h2 : SIZE_MAX < 2 ^ 64 := by decide
  omega

theorem seq_shift {cap e : Nat} (hpow : cap = 2 ^ e) (hmax : cap ≤ SIZE_MAX) (slot i j : Nat) :
    seq cap (i % cap) ((i + 1) % 2 ^ 64) j = seq cap slot i (j + 1) := by
  cases j with
  | zero => simp [seq]
  | succ j =>
    simp only [seq]
    rw [Nat.add_mod, Nat.mod_mod_of_dvd _ (pow2_dvd_word hpow hmax), ← Nat.add_mod]
    congr 1
    omega

theorem slot_insert_loop_spec {cap e : Nat} (slots : List Slot) (hpow : cap = 2 ^ e)
    (hmax : cap ≤ SIZE_MAX) :
    ∀ (fuel slot i steps : Nat), ∃ t, t ≤ fuel ∧
      slot_insert_loop slots cap fuel slot i steps = (seq cap slot i t, steps + t) ∧
      (t < fuel → (slot_at slots (seq cap slot i t)).state = SLOT_EMPTY) ∧
      ∀ j, j < t → non_empty slots (seq cap slot i j)
  | 0, slot, i, steps =>
    ⟨0, Nat.le_refl _, by simp [slot_insert_loop, seq], fun h => absurd h (Nat.lt_irrefl _),
      fun j h => absurd h (Nat.not_lt_zero _)⟩
  | fuel + 1, slot, i, steps => by
    unfold slot_insert_loop
    by_cases hE : (slot_at slots slot).state = SLOT_EMPTY
    · exact ⟨0, Nat.zero_le _, by simp [hE, seq], fun _ => hE,
        fun j h => absurd h (Nat.not_lt_zero _)⟩
    · obtain ⟨t, ht, hrun, hstop, hall⟩ :=
        slot_insert_loop_spec slots hpow hmax fuel (i % cap) ((i + 1) % 2 ^ 64) (steps + 1)
      refine ⟨t + 1, Nat.succ_le_succ ht, ?_, ?_, ?_⟩
      · rw [if_neg hE, mask_eq_mod hpow, hrun, seq_shift hpow hmax slot]
        congr 1
        omega
      · intro h1
        rw [← seq_shift hpow hmax slot]
        exact hstop (by omega)
      · intro j hj
        cases j with
        | zero => exact hE
        | succ j =>
          rw [← seq_shift hpow hmax slot]
          exact hall j (by omega)

/-- A successful `slot_insert` writes the first Empty slot of the probe sequence. -/
theorem slot_insert_ok {cap e : Nat} {slots slots1 : List Slot} {k : Option Key}
    {v size size1 : Nat} (hpow : cap = 2 ^ e) (hmax : cap ≤ SIZE_MAX)
    (h : slot_insert slots k v size cap = (0, slots1, size1)) :
    ∃ key jq, k = some key ∧ jq < cap ∧
      (slot_at slots (pos cap (hash_cstr_fnv1a key % cap) jq)).state = SLOT_EMPTY ∧
      (∀ j, j < jq → non_empty slots (pos cap (hash_cstr_fnv1a key % cap) j)) ∧
      slots1 = slots.set (pos cap (hash_cstr_fnv1a key % cap) jq)
        ⟨some key, v, SLOT_OCCUPIED⟩ ∧
      size1 = (size + 1) % 2 ^ 64 := by
  unfold slot_insert at h
  cases k with
  | none => simp at h
  | some key =>
    have hc : 0 < cap := by subst hpow; exact Nat.pow_pos (by decide)
    simp only [Nat.ne_of_gt hc, if_false, mask_eq_mod hpow] at h
    obtain ⟨t, ht, hrun, hstop, hall⟩ := slot_insert_loop_spec slots hpow hmax cap
      (hash_cstr_fnv1a key % cap) (hash_cstr_fnv1a key % cap) 0
    rw [hrun] at h
    simp only [Nat.zero_add, ge_iff_le] at h
    by_cases hle : cap ≤ t
    · simp [hle] at h
    · rw [if_neg hle] at h
      simp only [Prod.mk.injEq, true_and] at h
      have hidx : hash_cstr_fnv1a key % cap < cap := Nat.mod_lt _ hc
      have hseq : ∀ j, seq cap (hash_cstr_fnv1a key % cap) (hash_cstr_fnv1a key % cap) (j + 1) =
          pos cap (hash_cstr_fnv1a key % cap) j := fun j => rfl
      cases t with
      | zero =>
        refine ⟨key, 0, rfl, hc, ?_, fun j hj => absurd hj (Nat.not_lt_zero _), ?_, h.2.symm⟩
        · rw [pos_zero hidx]; exact hstop (by omega)
        · rw [pos_zero hidx]; exact h.1.symm
      | succ t =>
        refine ⟨key, t, rfl, by omega, ?_, ?_, h.1.symm, h.2.symm⟩
        · rw [← hseq]; exact hstop (by omega)
        · intro j hj
          rw [← hseq]
          exact hall (j + 1) (by omega)

/-! ## The invariant of the slot array -/

theorem SlotsWF.cap_pos {slots : List Slot} {cap : Nat} (h : SlotsWF slots cap) : 0 < cap := by
  obtain ⟨e, he⟩ := h.pow2
  subst he
  exact Nat.pow_pos (by decide)

theorem SlotsWF.cap_max {slots : List Slot} {cap : Nat} (h : SlotsWF slots cap) :
    cap ≤ SIZE_MAX := by
  have h1 := h.cap_le
  have h2 : SIZE_MAX / sizeof_Slot ≤ SIZE_MAX := Nat.div_le_self _ _
  omega

/-- Search is exact on a well-formed array: the loop returns slot `p` exactly when `p` is
the Occupied slot that stores the key. -/
theorem find_exact {slots : List Slot} {cap : Nat} (h : SlotsWF slots cap) (k : Key) (p : Nat) :
    find_loop slots cap k cap (hash_cstr_fnv1a k % cap) = some p ↔ p < cap ∧ holds slots p k := by
  obtain ⟨e, he⟩ := h.pow2
  have hc := h.cap_pos
  have hidx : hash_cstr_fnv1a k % cap < cap := Nat.mod_lt _ hc
  rw [find_loop_spec k he cap _ hidx p]
  constructor
  · rintro ⟨j, _, hp, hh, _⟩
    exact ⟨hp ▸ pos_lt hc _ _, hh⟩
  · rintro ⟨hp, hh⟩
    obtain ⟨j, hj, hpj⟩ := pos_surj hidx hp
    refine ⟨j, hj, hpj, hh, ?_⟩
    intro j' hj'
    refine ⟨h.probe k j hj (hpj ▸ hh) j' hj', ?_⟩
    intro hh'
    have := h.uniq _ _ k (pos_lt hc _ j') hp hh' hh
    rw [← hpj] at this
    have := pos_inj (by omega) hj this
    omega

theorem find_none_iff {slots : List Slot} {cap : Nat} (h : SlotsWF slots cap) (k : Key) :
    find_loop slots cap k cap (hash_cstr_fnv1a k % cap) = none ↔
      ∀ p, p < cap → ¬ holds slots p k := by
  constructor
  · intro hn p hp hh
    have := (find_exact h k p).2 ⟨hp, hh⟩
    rw [hn] at this
    cases this
  · intro hall
    cases hf : find_loop slots cap k cap (hash_cstr_fnv1a k % cap) with
    | none => rfl
    | some p =>
      have := (find_exact h k p).1 hf
      exact absurd this.2 (hall p this.1)

theorem holds_set {l : List Slot} {q : Nat} (s : Slot) (hq : q < l.length) (p : Nat) (k : Key) :
    holds (l.set q s) p k ↔
      (p = q ∧ s.state = SLOT_OCCUPIED ∧ s.key = some k) ∨ (p ≠ q ∧ holds l p k) := by
  unfold holds
  by_cases hpq : p = q
  · subst hpq
    rw [slot_at_set_eq s hq]
    simp
  · rw [slot_at_set_ne s hpq]
    simp [hpq]

theorem non_empty_set {l : List Slot} {q : Nat} (s : Slot) (hq : q < l.length)
    (hs : s.state ≠ SLOT_EMPTY) {p : Nat} (h : non_empty l p) : non_empty (l.set q s) p := by
  unfold non_empty at h ⊢
  by_cases hpq : p = q
  · subst hpq
    rw [slot_at_set_eq s hq]
    exact hs
  · rw [slot_at_set_ne s hpq]
    exact h

/-- Overwriting a slot by one with the same state and key keeps the array well-formed. -/
theorem SlotsWF.set_same {slots : List Slot} {cap : Nat} (h : SlotsWF slots cap) {q : Nat}
    (s : Slot) (hst : s.state = (slot_at slots q).state) (hkey : s.key = (slot_at slots q).key) :
    SlotsWF (slots.set q s) cap := by
  have hsame : ∀ p, (slot_at (slots.set q s) p).state = (slot_at slots p).state ∧
      (slot_at (slots.set q s) p).key = (slot_at slots p).key := by
    intro p
    by_cases hq : q < slots.length
    · by_cases hpq : p = q
      · subst hpq
        rw [slot_at_set_eq s hq]
        exact ⟨hst, hkey⟩
      · rw [slot_at_set_ne s hpq]
        exact ⟨rfl, rfl⟩
    · rw [List.set_eq_of_length_le (by omega)]
      exact ⟨rfl, rfl⟩
  have hholds : ∀ p k, holds (slots.set q s) p k ↔ holds slots p k := by
    intro p k
    unfold holds
    rw [(hsame p).1, (hsame p).2]
  have hne : ∀ p, non_empty (slots.set q s) p ↔ non_empty slots p := by
    intro p
    unfold non_empty
    rw [(hsame p).1]
  refine ⟨h.pow2, h.cap_le, by rw [List.length_set]; exact h.len, ?_, ?_, ?_⟩
  · intro p hp
    rw [(hsame p).1, (hsame p).2]
    exact h.key_iff p hp
  · intro k j hj hh j' hj'
    rw [hne]
    rw [hholds] at hh
    exact h.probe k j hj hh j' hj'
  · intro p q' k hp hq' h1 h2
    rw [hholds] at h1 h2
    exact h.uniq p q' k hp hq' h1 h2

/-- Turning a slot into a tombstone keeps the array well-formed. -/
theorem SlotsWF.set_deleted {slots : List Slot} {cap : Nat} (h : SlotsWF slots cap) {q : Nat}
    (hq : q < cap) : SlotsWF (slots.set q ⟨none, 0, SLOT_DELETED⟩) cap := by
  have hql : q < slots.length := by rw [h.len]; exact hq
  have hold : ∀ p k, holds (slots.set q ⟨none, 0, SLOT_DELETED⟩) p k → holds slots p k := by
    intro p k hh
    rcases (holds_set _ hql p k).1 hh with ⟨_, h1, _⟩ | ⟨_, h1⟩
    · cases h1
    · exact h1
  refine ⟨h.pow2, h.cap_le, by rw [List.length_set]; exact h.len, ?_, ?_, ?_⟩
  · intro p hp
    by_cases hpq : p = q
    · subst hpq
      rw [slot_at_set_eq _ hql]
      simp
    · rw [slot_at_set_ne _ hpq]
      exact h.key_iff p hp
  · intro k j hj hh j' hj'
    exact non_empty_set _ hql (by decide) (h.probe k j hj (hold _ _ hh) j' hj')
  · intro p q' k hp hq' h1 h2
    exact h.uniq p q' k hp hq' (hold _ _ h1) (hold _ _ h2)

/-- Writing an absent key into a slot that is not Occupied and that its probe path reaches
through non-Empty slots keeps the array well-formed. -/
theorem SlotsWF.set_placed {slots : List Slot} {cap : Nat} (h : SlotsWF slots cap) {k : Key}
    (v : Nat) {jq : Nat} (hjq : jq < cap)
    (hpath : ∀ j, j < jq → non_empty slots (pos cap (hash_cstr_fnv1a k % cap) j))
    (hfree : (slot_at slots (pos cap (hash_cstr_fnv1a k % cap) jq)).state ≠ SLOT_OCCUPIED)
    (habs : ∀ p, p < cap → ¬ holds slots p k) :
    SlotsWF (slots.set (pos cap (hash_cstr_fnv1a k % cap) jq) ⟨some k, v, SLOT_OCCUPIED⟩) cap := by
  have hc := h.cap_pos
  have hq : pos cap (hash_cstr_fnv1a k % cap) jq < cap := pos_lt hc _ _
  have hql : pos cap (hash_cstr_fnv1a k % cap) jq < slots.length := by rw [h.len]; exact hq
  refine ⟨h.pow2, h.cap_le, by rw [List.length_set]; exact h.len, ?_, ?_, ?_⟩
  · intro p hp
    by_cases hpq : p = pos cap (hash_cstr_fnv1a k % cap) jq
    · rw [hpq, slot_at_set_eq _ hql]
      simp
    · rw [slot_at_set_ne _ hpq]
      exact h.key_iff p hp
  · intro k' j hj hh j' hj'
    apply non_empty_set _ hql (fun hx => by cases hx)
    rcases (holds_set _ hql _ k').1 hh with ⟨h1, _, h3⟩ | ⟨_, h1⟩
    · simp only [Option.some.injEq] at h3
      subst h3
      have := pos_inj hj hjq h1
      subst this
      exact hpath j' hj'
    · exact h.probe k' j hj h1 j' hj'
  · intro p q' k' hp hq' h1 h2
    rcases (holds_set _ hql _ k').1 h1 with ⟨e1, _, e3⟩ | ⟨_, e1⟩
    · rcases (holds_set _ hql _ k').1 h2 with ⟨f1, _, _⟩ | ⟨_, f1⟩
      · rw [e1, f1]
      · simp only [Option.some.injEq] at e3
        subst e3
        exact absurd f1 (habs q' hq')
    · rcases (holds_set _ hql _ k').1 h2 with ⟨_, _, f3⟩ | ⟨_, f1⟩
      · simp only [Option.some.injEq] at f3
        subst f3
        exact absurd e1 (habs p hp)
      · exact h.uniq p q' k' hp hq' e1 f1

theorem SlotsWF.replicate {cap e : Nat} (hpow : cap = 2 ^ e) (hle : cap ≤ SIZE_MAX / sizeof_Slot) :
    SlotsWF (List.replicate cap zero_slot) cap := by
  have hno : ∀ p k, ¬ holds (List.replicate cap zero_slot) p k := by
    intro p k hh
    unfold holds at hh
    rw [slot_at_replicate] at hh
    exact absurd hh.1 (by decide)
  refine ⟨⟨e, hpow⟩, hle, List.length_replicate _ _, ?_, ?_, ?_⟩
  · intro p _
    rw [slot_at_replicate]
    simp [zero_slot]
  · intro k j _ hh
    exact absurd hh (hno _ _)
  · intro p q k _ _ hh
    exact absurd hh (hno _ _)

/-! ## The invariant of the map -/

theorem WF.cap_ne {m : Hashmap} (h : WF m) : m.capacity ≠ 0 :=
  Nat.ne_of_gt h.slots_wf.cap_pos

theorem WF.size_le {m : Hashmap} (h : WF m) : m.size ≤ m.capacity := by
  rw [h.size_eq, ← h.slots_wf.len]
  exact count_state_le _ _

theorem WF.find_eq {m : Hashmap} (h : WF m) (k : Key) :
    find_loop m.slots m.capacity k m.capacity (hash_cstr_fnv1a k &&& (m.capacity - 1)) =
      hm_search m k := by
  unfold hm_search
  rw [if_neg h.cap_ne]

theorem hm_search_iff {m : Hashmap} (h : WF m) (k : Key) (p : Nat) :
    hm_search m k = some p ↔ p < m.capacity ∧ holds m.slots p k := by
  obtain ⟨e, he⟩ := h.slots_wf.pow2
  unfold hm_search
  rw [if_neg h.cap_ne, mask_eq_mod he]
  exact find_exact h.slots_wf k p

theorem hm_search_none_iff {m : Hashmap} (h : WF m) (k : Key) :
    hm_search m k = none ↔ ∀ p, p < m.capacity → ¬ holds m.slots p k := by
  obtain ⟨e, he⟩ := h.slots_wf.pow2
  unfold hm_search
  rw [if_neg h.cap_ne, mask_eq_mod he]
  exact find_none_iff h.slots_wf k

theorem hm_value_iff {m : Hashmap} (h : WF m) (k : Key) (v : Nat) :
    hm_value m k = some v ↔ entry m.slots m.capacity k v := by
  unfold hm_value hm_lookup entry
  constructor
  · intro hv
    cases hs : hm_search m k with
    | none => rw [hs] at hv; simp at hv
    | some p =>
      rw [hs] at hv
      simp only [Option.map_some', Option.some.injEq] at hv
      have := (hm_search_iff h k p).1 hs
      exact ⟨p, this.1, this.2, hv⟩
  · rintro ⟨p, hp, hh, hv⟩
    rw [(hm_search_iff h k p).2 ⟨hp, hh⟩]
    simp [hv]

theorem option_ext_iff {α : Type} {a b : Option α} (h : ∀ v, a = some v ↔ b = some v) :
    a = b := by
  cases a with
  | none =>
    cases b with
    | none => rfl
    | some y => exact ((h y).2 rfl)
  | some x => exact ((h x).1 rfl).symm

/-- Two well-formed maps with the same entries answer every value query alike. -/
theorem hm_value_congr {m m1 : Hashmap} (h : WF m) (h1 : WF m1) (k : Key)
    (he : ∀ v, entry m1.slots m1.capacity k v ↔ entry m.slots m.capacity k v) :
    hm_value m1 k = hm_value m k := by
  apply option_ext_iff
  intro v
  rw [hm_value_iff h, hm_value_iff h1, he]

theorem holds_key_eq {slots : List Slot} {p : Nat} {k k1 : Key} (h : holds slots p k)
    (h1 : holds slots p k1) : k = k1 := by
  have := h.2.symm.trans h1.2
  simpa using this

/-- Entries after the value of the slot holding `k` is overwritten. -/
theorem entry_set_value {slots : List Slot} {cap : Nat} (h : SlotsWF slots cap) {p : Nat}
    {k : Key} (hp : p < cap) (hh : holds slots p k) (v : Nat) (k1 : Key) (v1 : Nat) :
    entry (slots.set p { slot_at slots p with value := v }) cap k1 v1 ↔
      (k1 = k ∧ v1 = v) ∨ (k1 ≠ k ∧ entry slots cap k1 v1) := by
  have hpl : p < slots.length := by rw [h.len]; exact hp
  unfold entry
  constructor
  · rintro ⟨q, hq, hhq, hv⟩
    rcases (holds_set _ hpl q k1).1 hhq with ⟨e1, _, e3⟩ | ⟨e1, e2⟩
    · subst e1
      rw [slot_at_set_eq _ hpl] at hv
      simp only at e3 hv
      have := hh.2.symm.trans e3
      simp only [Option.some.injEq] at this
      exact Or.inl ⟨this.symm, hv.symm⟩
    · rw [slot_at_set_ne _ e1] at hv
      by_cases hk : k1 = k
      · subst hk
        exact absurd (h.uniq q p k1 hq hp e2 hh) e1
      · exact Or.inr ⟨hk, q, hq, e2, hv⟩
  · rintro (⟨e1, e2⟩ | ⟨e1, q, hq, hhq, hv⟩)
    · subst e1 e2
      refine ⟨p, hp, (holds_set _ hpl p k1).2 (Or.inl ⟨rfl, hh.1, hh.2⟩), ?_⟩
      rw [slot_at_set_eq _ hpl]
    · have hqp : q ≠ p := by
        intro hqp
        subst hqp
        exact e1 (holds_key_eq hhq hh)
      refine ⟨q, hq, (holds_set _ hpl q k1).2 (Or.inr ⟨hqp, hhq⟩), ?_⟩
      rw [slot_at_set_ne _ hqp]
      exact hv

/-- Entries after the slot holding `k` becomes a tombstone. -/
theorem entry_set_deleted {slots : List Slot} {cap : Nat} (h : SlotsWF slots cap) {p : Nat}
    {k : Key} (hp : p < cap) (hh : holds slots p k) (k1 : Key) (v1 : Nat) :
    entry (slots.set p ⟨none, 0, SLOT_DELETED⟩) cap k1 v1 ↔ k1 ≠ k ∧ entry slots cap k1 v1 := by
  have hpl : p < slots.length := by rw [h.len]; exact hp
  unfold entry
  constructor
  · rintro ⟨q, hq, hhq, hv⟩
    rcases (holds_set _ hpl q k1).1 hhq with ⟨_, e2, _⟩ | ⟨e1, e2⟩
    · cases e2
    · rw [slot_at_set_ne _ e1] at hv
      refine ⟨?_, q, hq, e2, hv⟩
      intro hk
      subst hk
      exact e1 (h.uniq q p k1 hq hp e2 hh)
  · rintro ⟨e1, q, hq, hhq, hv⟩
    have hqp : q ≠ p := by
      intro hqp
      subst hqp
      exact e1 (holds_key_eq hhq hh)
    refine ⟨q, hq, (holds_set _ hpl q k1).2 (Or.inr ⟨hqp, hhq⟩), ?_⟩
    rw [slot_at_set_ne _ hqp]
    exact hv

/-- Entries after key `k` is written into a slot that was not Occupied. -/
theorem entry_set_placed {slots : List Slot} {cap : Nat} (h : SlotsWF slots cap) {q : Nat}
    (hq : q < cap) (hfree : (slot_at slots q).state ≠ SLOT_OCCUPIED) (k : Key) (v : Nat)
    (k1 : Key) (v1 : Nat) :
    entry (slots.set q ⟨some k, v, SLOT_OCCUPIED⟩) cap k1 v1 ↔
      (k1 = k ∧ v1 = v) ∨ entry slots cap k1 v1 := by
  have hql : q < slots.length := by rw [h.len]; exact hq
  unfold entry
  constructor
  · rintro ⟨p, hp, hhp, hv⟩
    rcases (holds_set _ hql p k1).1 hhp with ⟨e1, _, e3⟩ | ⟨e1, e2⟩
    · subst e1
      rw [slot_at_set_eq _ hql] at hv
      simp only [Option.some.injEq] at e3
      exact Or.inl ⟨e3.symm, hv.symm⟩
    · rw [slot_at_set_ne _ e1] at hv
      exact Or.inr ⟨p, hp, e2, hv⟩
  · rintro (⟨e1, e2⟩ | ⟨p, hp, hhp, hv⟩)
    · subst e1 e2
      refine ⟨q, hq, (holds_set _ hql q k1).2 (Or.inl ⟨rfl, rfl, rfl⟩), ?_⟩
      rw [slot_at_set_eq _ hql]
    · have hpq : p ≠ q := by
        intro hpq
        subst hpq
        exact hfree hhp.1
      refine ⟨p, hp, (holds_set _ hql p k1).2 (Or.inr ⟨hpq, hhp⟩), ?_⟩
      rw [slot_at_set_ne _ hpq]
      exact hv

/-! ## Update and delete on a well-formed map -/

theorem hm_update_eq (m : Hashmap) (k : Key) (v : Nat) :
    hm_update m k v =
      match hm_search m k with
      | some idx =>
        (0, { m with slots := m.slots.set idx { slot_at m.slots idx with value := v } })
      | none => (-1, m) := by
  unfold hm_update hm_search
  by_cases hc : m.capacity = 0
  · simp [hc]
  · simp only [hc, if_false]

theorem hm_delete_eq (m : Hashmap) (k : Key) :
    hm_delete m k =
      match hm_search m k with
      | some idx =>
        (0, { slots := m.slots.set idx ⟨none, 0, SLOT_DELETED⟩,
              capacity := m.capacity,
              size := if m.size > 0 then m.size - 1 else m.size,
              del_count := (m.del_count + 1) % 2 ^ 64 })
      | none => (-1, m) := by
  unfold hm_delete hm_search
  by_cases hc : m.capacity = 0
  · simp [hc]
  · simp only [hc, if_false]

theorem count_occupied_set_same (slots : List Slot) (q : Nat) (s : Slot)
    (hst : s.state = (slot_at slots q).state) :
    count_state SLOT_OCCUPIED (slots.set q s) = count_state SLOT_OCCUPIED slots := by
  by_cases hq : q < slots.length
  · have := count_state_set SLOT_OCCUPIED s slots q hq
    rw [hst] at this
    omega
  · rw [List.set_eq_of_length_le (by omega)]

theorem WF.set_value {m : Hashmap} (h : WF m) (p v : Nat) :
    WF { m with slots := m.slots.set p { slot_at m.slots p with value := v } } :=
  ⟨h.slots_wf.set_same _ rfl rfl, by
    show m.size = count_state SLOT_OCCUPIED
      (m.slots.set p { slot_at m.slots p with value := v })
    rw [count_occupied_set_same m.slots p { slot_at m.slots p with value := v } rfl]
    exact h.size_eq⟩

theorem WF.update_wf {m : Hashmap} (h : WF m) (k : Key) (v : Nat) : WF (hm_update m k v).2 := by
  rw [hm_update_eq]
  cases hm_search m k with
  | none => exact h
  | some p => exact h.set_value p v

/-- The map a successful `hm_delete` leaves, on a well-formed map. -/
theorem hm_delete_found {m : Hashmap} (h : WF m) {k : Key} {p : Nat}
    (hs : hm_search m k = some p) :
    hm_delete m k = (0, ⟨m.slots.set p ⟨none, 0, SLOT_DELETED⟩, m.capacity, m.size - 1,
      (m.del_count + 1) % 2 ^ 64⟩) ∧ 0 < m.size ∧
    WF ⟨m.slots.set p ⟨none, 0, SLOT_DELETED⟩, m.capacity, m.size - 1,
      (m.del_count + 1) % 2 ^ 64⟩ := by
  have hp := (hm_search_iff h k p).1 hs
  have hpl : p < m.slots.length := by rw [h.slots_wf.len]; exact hp.1
  have hpos : 0 < m.size := by
    rw [h.size_eq]
    exact count_state_pos hpl hp.2.1
  refine ⟨?_, hpos, h.slots_wf.set_deleted hp.1, ?_⟩
  · rw [hm_delete_eq, hs]
    simp only [hpos, if_true]
  · show m.size - 1 = count_state SLOT_OCCUPIED (m.slots.set p ⟨none, 0, SLOT_DELETED⟩)
    have := count_state_set SLOT_OCCUPIED ⟨none, 0, SLOT_DELETED⟩ m.slots p hpl
    rw [hp.2.1] at this
    simp only [if_true] at this
    have hse := h.size_eq
    have h2 : (if SLOT_DELETED = SLOT_OCCUPIED then 1 else 0) = 0 := by decide
    rw [h2] at this
    omega

theorem WF.delete_wf {m : Hashmap} (h : WF m) (k : Key) : WF (hm_delete m k).2 := by
  cases hs : hm_search m k with
  | none =>
    rw [hm_delete_eq, hs]
    exact h
  | some p =>
    rw [(hm_delete_found h hs).1]
    exact (hm_delete_found h hs).2.2

/-! ## The placement step of insert on a well-formed map -/

theorem set_slot_at_self {l : List Slot} {q : Nat} (h : q < l.length) :
    l.set q (slot_at l q) = l := by
  apply List.ext_getElem
  · simp
  · intro n h1 h2
    rw [List.getElem_set]
    split
    · next heq =>
      subst heq
      simp [slot_at, List.getD_eq_getElem?_getD, h]
    · rfl

theorem state_occupied_of {s : SlotState} (h1 : s ≠ SLOT_EMPTY) (h2 : s ≠ SLOT_DELETED) :
    s = SLOT_OCCUPIED := by
  cases s
  · exact absurd rfl h1
  · rfl
  · exact absurd rfl h2

/-- Insert of a present key overwrites the value in place. -/
theorem hm_insert_place_found {m : Hashmap} (h : WF m) {k : Key} {p : Nat}
    (hs : hm_search m k = some p) (v : Nat) (s : Bool) :
    hm_insert_place m k v s =
      (0, { m with slots := m.slots.set p { slot_at m.slots p with value := v } }) := by
  obtain ⟨e, he⟩ := h.slots_wf.pow2
  unfold hm_insert_place
  rw [← h.find_eq] at hs
  simp only [hm_insert_loop_hit k he _ _ _ _ p hs]

/-- Insert of an absent key: either every slot is Occupied and the call returns 4, or the
key goes to the first slot of its probe path that is not Occupied. -/
theorem hm_insert_place_absent {m : Hashmap} (h : WF m) {k : Key}
    (hs : hm_search m k = none) (v : Nat) (s : Bool) :
    (hm_insert_place m k v s = (4, m) ∧
      ∀ p, p < m.capacity → (slot_at m.slots p).state = SLOT_OCCUPIED) ∨
    ∃ jq, jq < m.capacity ∧
      (∀ j, j < jq →
        (slot_at m.slots (pos m.capacity (hash_cstr_fnv1a k % m.capacity) j)).state
          = SLOT_OCCUPIED) ∧
      (slot_at m.slots (pos m.capacity (hash_cstr_fnv1a k % m.capacity) jq)).state
        ≠ SLOT_OCCUPIED ∧
      hm_insert_place m k v s =
        (if s then
          (0, ⟨m.slots.set (pos m.capacity (hash_cstr_fnv1a k % m.capacity) jq)
                ⟨some k, v, SLOT_OCCUPIED⟩, m.capacity, m.size + 1,
              if (slot_at m.slots (pos m.capacity (hash_cstr_fnv1a k % m.capacity) jq)).state
                  = SLOT_DELETED
              then (m.del_count + (2 ^ 64 - 1)) % 2 ^ 64 else m.del_count⟩)
        else
          (2, ⟨m.slots, m.capacity, m.size,
              if (slot_at m.slots (pos m.capacity (hash_cstr_fnv1a k % m.capacity) jq)).state
                  = SLOT_DELETED
              then (m.del_count + (2 ^ 64 - 1)) % 2 ^ 64 else m.del_count⟩)) := by
  obtain ⟨e, he⟩ := h.slots_wf.pow2
  have hc := h.slots_wf.cap_pos
  have hmax := h.slots_wf.cap_max
  have hidx : hash_cstr_fnv1a k % m.capacity < m.capacity := Nat.mod_lt _ hc
  rw [← h.find_eq, mask_eq_mod he] at hs
  obtain ⟨t, d1, hrun, ht, hstop, hall, _, hdel⟩ :=
    hm_insert_loop_done k he hmax m.capacity _ SIZE_MAX 0 hidx hs
  -- what placing at offset `jq` yields
  have hplace : ∀ jq, jq < m.capacity →
      (slot_at m.slots (pos m.capacity (hash_cstr_fnv1a k % m.capacity) jq)).state
        ≠ SLOT_OCCUPIED →
      m.slots.set (pos m.capacity (hash_cstr_fnv1a k % m.capacity) jq)
          { slot_at m.slots (pos m.capacity (hash_cstr_fnv1a k % m.capacity) jq) with
            key := none } = m.slots ∧
        (m.size + 1) % 2 ^ 64 = m.size + 1 := by
    intro jq _ hfree
    have hq : pos m.capacity (hash_cstr_fnv1a k % m.capacity) jq < m.slots.length := by
      rw [h.slots_wf.len]; exact pos_lt hc _ _
    constructor
    · have hk : (slot_at m.slots (pos m.capacity (hash_cstr_fnv1a k % m.capacity) jq)).key
          = none := by
        by_contra hne
        exact hfree ((h.slots_wf.key_iff _ (pos_lt hc _ _)).2 hne)
      conv_rhs => rw [← set_slot_at_self hq]
      congr 1
      rw [← hk]
    · have h1 := count_state_set SLOT_OCCUPIED ⟨some k, v, SLOT_OCCUPIED⟩ m.slots _ hq
      rw [if_neg hfree] at h1
      simp only [if_true, Nat.add_zero] at h1
      have h2 := count_state_le SLOT_OCCUPIED
        (m.slots.set (pos m.capacity (hash_cstr_fnv1a k % m.capacity) jq)
          ⟨some k, v, SLOT_OCCUPIED⟩)
      rw [List.length_set, h.slots_wf.len] at h2
      have h3 := h.size_eq
      have h4 : SIZE_MAX < 2 ^ 64 := by decide
      apply Nat.mod_eq_of_lt
      omega
  unfold hm_insert_place
  simp only [mask_eq_mod he, hrun, Nat.zero_add]
  rcases hdel rfl with ⟨hd, hnodel⟩ | ⟨jd, hjd, hd, hdstate, hfirst⟩
  · subst hd
    by_cases htc : t = m.capacity
    · left
      refine ⟨by simp [htc], ?_⟩
      intro p hp
      obtain ⟨j, hj, hpj⟩ := pos_surj hidx hp
      rw [← hpj]
      exact state_occupied_of (hall j (by omega)).1 (hnodel j (by omega))
    · right
      have htlt : t < m.capacity := by omega
      have hE := hstop htlt
      have hfree : (slot_at m.slots (pos m.capacity (hash_cstr_fnv1a k % m.capacity) t)).state
          ≠ SLOT_OCCUPIED := by rw [hE]; decide
      refine ⟨t, htlt, fun j hj => state_occupied_of (hall j hj).1 (hnodel j hj), hfree, ?_⟩
      have hnd : (slot_at m.slots (pos m.capacity (hash_cstr_fnv1a k % m.capacity) t)).state
          ≠ SLOT_DELETED := by rw [hE]; decide
      obtain ⟨hset, hsz⟩ := hplace t htlt hfree
      simp only [htc, false_and, if_false, ne_eq, not_true_eq_false, hnd, hset, hsz]
  · right
    have hjdc : jd < m.capacity := by omega
    have hfree : (slot_at m.slots (pos m.capacity (hash_cstr_fnv1a k % m.capacity) jd)).state
        ≠ SLOT_OCCUPIED := by rw [hdstate]; decide
    refine ⟨jd, hjdc, fun j hj => state_occupied_of (hall j (by omega)).1 (hfirst j hj),
      hfree, ?_⟩
    have hne : d1 ≠ SIZE_MAX := by
      rw [hd]
      have := pos_lt hc (hash_cstr_fnv1a k % m.capacity) jd
      omega
    obtain ⟨hset, hsz⟩ := hplace jd hjdc hfree
    simp only [hne, and_false, if_false, ne_eq, not_false_eq_true, if_true, hsz]
    rw [hd, hset]
    simp only [hdstate, if_true]

/-! ## Resize on a well-formed map -/

theorem holds_iff_entry {slots : List Slot} {cap : Nat} (k : Key) :
    (∃ p, p < cap ∧ holds slots p k) ↔ ∃ v, entry slots cap k v := by
  constructor
  · rintro ⟨p, hp, hh⟩
    exact ⟨_, p, hp, hh, rfl⟩
  · rintro ⟨v, p, hp, hh, _⟩
    exact ⟨p, hp, hh⟩

theorem rehash_spec {cap : Nat} :
    ∀ (olds new_slots : List Slot) (size : Nat) (new1 : List Slot) (size1 : Nat),
      rehash cap olds new_slots size = some (new1, size1) →
      SlotsWF new_slots cap → NoDeleted new_slots →
      size = count_state SLOT_OCCUPIED new_slots →
      (∀ s, s ∈ olds → s.state = SLOT_OCCUPIED → s.key ≠ none) →
      olds.Pairwise (fun a b => a.state = SLOT_OCCUPIED → b.state = SLOT_OCCUPIED →
        a.key ≠ b.key) →
      (∀ k v, listed olds k v → ¬ ∃ p, p < cap ∧ holds new_slots p k) →
      SlotsWF new1 cap ∧ NoDeleted new1 ∧ size1 = count_state SLOT_OCCUPIED new1 ∧
        size1 = size + count_state SLOT_OCCUPIED olds ∧
        ∀ k v, entry new1 cap k v ↔ (entry new_slots cap k v ∨ listed olds k v)
  | [], new_slots, size, new1, size1, h, hwf, hnd, hsz, _, _, _ => by
    simp only [rehash, Option.some.injEq, Prod.mk.injEq] at h
    obtain ⟨rfl, rfl⟩ := h
    refine ⟨hwf, hnd, hsz, by simp [count_state], ?_⟩
    intro k v
    simp [listed]
  | s :: rest, new_slots, size, new1, size1, h, hwf, hnd, hsz, hkey, hpw, hfresh => by
    unfold rehash at h
    have hpw1 := List.pairwise_cons.1 hpw
    by_cases hocc : s.state = SLOT_OCCUPIED
    · simp only [hocc, if_true] at h
      by_cases hr : (slot_insert new_slots s.key s.value size cap).1 ≠ 0
      · simp [hr] at h
      · rw [if_neg hr] at h
        have hr0 : (slot_insert new_slots s.key s.value size cap).1 = 0 := by
          by_contra hne
          exact hr hne
        obtain ⟨e, he⟩ := hwf.pow2
        have hc := hwf.cap_pos
        obtain ⟨key, jq, hk, hjq, hE, hpath, hset, hsize⟩ :=
          slot_insert_ok he hwf.cap_max (Prod.ext hr0 rfl)
        have hq : pos cap (hash_cstr_fnv1a key % cap) jq < cap := pos_lt hc _ _
        have hql : pos cap (hash_cstr_fnv1a key % cap) jq < new_slots.length := by
          rw [hwf.len]; exact hq
        have hfree : (slot_at new_slots (pos cap (hash_cstr_fnv1a key % cap) jq)).state
            ≠ SLOT_OCCUPIED := by rw [hE]; decide
        have hlisted : listed (s :: rest) key s.value :=
          ⟨s, List.mem_cons_self _ _, hocc, hk, rfl⟩
        have habs : ∀ p, p < cap → ¬ holds new_slots p key :=
          fun p hp hh => hfresh key s.value hlisted ⟨p, hp, hh⟩
        have hwf1 := hwf.set_placed s.value hjq hpath hfree habs
        rw [← hset] at hwf1
        have hcount := count_state_set SLOT_OCCUPIED ⟨some key, s.value, SLOT_OCCUPIED⟩
          new_slots _ hql
        rw [if_neg hfree, ← hset] at hcount
        simp only [if_true, Nat.add_zero] at hcount
        have hle := count_state_le SLOT_OCCUPIED (slot_insert new_slots s.key s.value size cap).2.1
        rw [hwf1.len] at hle
        have hmax := hwf.cap_max
        have h4 : SIZE_MAX < 2 ^ 64 := by decide
        have hsz1 : (slot_insert new_slots s.key s.value size cap).2.2 = size + 1 := by
          rw [hsize]
          apply Nat.mod_eq_of_lt
          have hb : size + 1 ≤ cap := by rw [hsz, ← hcount]; exact hle
          omega
        have hnd1 : NoDeleted (slot_insert new_slots s.key s.value size cap).2.1 := by
          intro p
          rw [hset]
          by_cases hp : p = pos cap (hash_cstr_fnv1a key % cap) jq
          · rw [hp, slot_at_set_eq _ hql]
            exact fun hx => by cases hx
          · rw [slot_at_set_ne _ hp]
            exact hnd p
        have hent : ∀ k v, entry (slot_insert new_slots s.key s.value size cap).2.1 cap k v ↔
            (k = key ∧ v = s.value) ∨ entry new_slots cap k v := by
          intro k v
          rw [hset]
          exact entry_set_placed hwf hq hfree key s.value k v
        have hfresh1 : ∀ k v, listed rest k v →
            ¬ ∃ p, p < cap ∧ holds (slot_insert new_slots s.key s.value size cap).2.1 p k := by
          intro k v hl hex
          obtain ⟨s1, hs1, hs1o, hs1k, hs1v⟩ := hl
          obtain ⟨v1, hv1⟩ := (holds_iff_entry k).1 hex
          rcases (hent k v1).1 hv1 with ⟨e1, _⟩ | e1
          · subst e1
            exact hpw1.1 s1 hs1 hocc hs1o (hk.trans hs1k.symm)
          · exact hfresh k v ⟨s1, List.mem_cons_of_mem _ hs1, hs1o, hs1k, hs1v⟩
              ((holds_iff_entry k).2 ⟨v1, e1⟩)
        obtain ⟨r1, r2, r3, r4, r5⟩ := rehash_spec rest _ _ new1 size1 h hwf1 hnd1
          (by rw [hsz1, hcount, hsz])
          (fun s1 hs1 => hkey s1 (List.mem_cons_of_mem _ hs1)) hpw1.2 hfresh1
        refine ⟨r1, r2, r3, ?_, ?_⟩
        · rw [r4, hsz1]
          simp only [count_state, List.countP_cons, hocc, decide_True, if_true]
          omega
        · intro k v
          rw [r5, hent]
          constructor
          · rintro ((⟨e1, e2⟩ | e1) | ⟨s1, hs1, hs1r⟩)
            · subst e1 e2
              exact Or.inr hlisted
            · exact Or.inl e1
            · exact Or.inr ⟨s1, List.mem_cons_of_mem _ hs1, hs1r⟩
          · rintro (e1 | ⟨s1, hs1, hs1o, hs1k, hs1v⟩)
            · exact Or.inl (Or.inr e1)
            · rcases List.mem_cons.1 hs1 with e2 | e2
              · subst e2
                left; left
                have := hk.symm.trans hs1k
                simp only [Option.some.injEq] at this
                exact ⟨this.symm, hs1v.symm⟩
              · exact Or.inr ⟨s1, e2, hs1o, hs1k, hs1v⟩
    · rw [if_neg hocc] at h
      obtain ⟨r1, r2, r3, r4, r5⟩ := rehash_spec rest new_slots size new1 size1 h hwf hnd hsz
        (fun s1 hs1 => hkey s1 (List.mem_cons_of_mem _ hs1)) hpw1.2
        (fun k v ⟨s1, hs1, hs1r⟩ => hfresh k v ⟨s1, List.mem_cons_of_mem _ hs1, hs1r⟩)
      refine ⟨r1, r2, r3, ?_, ?_⟩
      · rw [r4]
        simp only [count_state, List.countP_cons, hocc, decide_False]
        simp
      · intro k v
        rw [r5]
        constructor
        · rintro (e1 | ⟨s1, hs1, hs1r⟩)
          · exact Or.inl e1
          · exact Or.inr ⟨s1, List.mem_cons_of_mem _ hs1, hs1r⟩
        · rintro (e1 | ⟨s1, hs1, hs1o, hs1r⟩)
          · exact Or.inl e1
          · rcases List.mem_cons.1 hs1 with e2 | e2
            · subst e2
              exact absurd hs1o hocc
            · exact Or.inr ⟨s1, e2, hs1o, hs1r⟩

theorem slot_at_eq_getElem {l : List Slot} {p : Nat} (h : p < l.length) :
    slot_at l p = l[p] := by
  simp [slot_at, List.getD_eq_getElem?_getD, h]

theorem range_map_slot_at (l : List Slot) : (List.range l.length).map (slot_at l) = l := by
  apply List.ext_getElem
  · simp
  · intro n h1 h2
    simp only [List.getElem_map, List.getElem_range]
    exact slot_at_eq_getElem h2

theorem listed_iff_entry {slots : List Slot} {cap : Nat} (hlen : slots.length = cap)
    (k : Key) (v : Nat) : listed slots k v ↔ entry slots cap k v := by
  unfold listed entry holds
  constructor
  · rintro ⟨s, hs, h1, h2, h3⟩
    obtain ⟨p, hp, rfl⟩ := List.getElem_of_mem hs
    refine ⟨p, hlen ▸ hp, ?_⟩
    rw [slot_at_eq_getElem hp]
    exact ⟨⟨h1, h2⟩, h3⟩
  · rintro ⟨p, hp, ⟨h1, h2⟩, h3⟩
    have hpl : p < slots.length := hlen ▸ hp
    rw [slot_at_eq_getElem hpl] at h1 h2 h3
    exact ⟨slots[p], List.getElem_mem hpl, h1, h2, h3⟩

theorem hm_resize_fail (m : Hashmap) (c : Bool) (h : (hm_resize m c).1 ≠ 0) :
    (hm_resize m c).2 = m := by
  unfold hm_resize at h ⊢
  simp only at h ⊢
  by_cases hlt : m.capacity * 2 % 2 ^ 64 < m.capacity
  · rw [if_pos hlt]
  · rw [if_neg hlt] at h ⊢
    cases hmk : make_slots (m.capacity * 2 % 2 ^ 64) c with
    | none => rfl
    | some new_slots =>
      rw [hmk] at h
      simp only at h ⊢
      cases hre : rehash (m.capacity * 2 % 2 ^ 64)
          (List.map (slot_at m.slots) (List.range m.capacity)) new_slots 0 with
      | none => rfl
      | some r =>
        rw [hre] at h
        exact absurd rfl h

/-- A successful `hm_resize` on a well-formed map. -/
theorem hm_resize_ok {m : Hashmap} (h : WF m) (c : Bool) (hr : (hm_resize m c).1 = 0) :
    WF (hm_resize m c).2 ∧ (hm_resize m c).2.capacity = 2 * m.capacity ∧
      (hm_resize m c).2.size = m.size ∧ (hm_resize m c).2.del_count = 0 ∧
      NoDeleted (hm_resize m c).2.slots ∧ 2 * m.capacity ≤ SIZE_MAX / sizeof_Slot ∧
      ∀ k v, entry (hm_resize m c).2.slots (hm_resize m c).2.capacity k v ↔
        entry m.slots m.capacity k v := by
  obtain ⟨e, he⟩ := h.slots_wf.pow2
  have hc := h.slots_wf.cap_pos
  have hle := h.slots_wf.cap_le
  have hlen := h.slots_wf.len
  have hdiv : SIZE_MAX / sizeof_Slot = 768614336404564650 := by decide
  rw [hdiv] at hle
  have hcap2 : (m.capacity * 2) % 2 ^ 64 = 2 * m.capacity := by
    rw [Nat.mod_eq_of_lt (by omega)]
    omega
  unfold hm_resize at hr ⊢
  simp only [hcap2] at hr ⊢
  have hnlt : ¬ 2 * m.capacity < m.capacity := by omega
  rw [if_neg hnlt] at hr ⊢
  cases hmk : make_slots (2 * m.capacity) c with
  | none =>
    rw [hmk] at hr
    simp at hr
  | some new_slots =>
    rw [hmk] at hr
    simp only at hr ⊢
    have hnew : new_slots = List.replicate (2 * m.capacity) zero_slot ∧
        2 * m.capacity ≤ SIZE_MAX / sizeof_Slot := by
      unfold make_slots at hmk
      by_cases hbig : 2 * m.capacity ≠ 0 ∧ 2 * m.capacity > SIZE_MAX / sizeof_Slot
      · rw [if_pos hbig] at hmk
        cases hmk
      · rw [if_neg hbig] at hmk
        cases c
        · simp at hmk
        · simp only [if_true, Option.some.injEq] at hmk
          refine ⟨hmk.symm, ?_⟩
          by_contra hgt
          exact hbig ⟨by omega, by omega⟩
    obtain ⟨hrep, hle2⟩ := hnew
    rw [← hlen, range_map_slot_at] at hr ⊢
    rw [hlen] at hr ⊢
    cases hre : rehash (2 * m.capacity) m.slots new_slots 0 with
    | none =>
      rw [hre] at hr
      simp at hr
    | some r =>
      obtain ⟨new1, size1⟩ := r
      simp only
      have hwfnew : SlotsWF new_slots (2 * m.capacity) := by
        rw [hrep]
        refine SlotsWF.replicate (?_ : 2 * m.capacity = 2 ^ (e + 1)) hle2
        rw [he, Nat.pow_succ]
        omega
      have hndnew : NoDeleted new_slots := by
        intro p
        rw [hrep, slot_at_replicate]
        decide
      have hnoholds : ∀ p k, ¬ holds new_slots p k := by
        intro p k hh
        unfold holds at hh
        rw [hrep, slot_at_replicate] at hh
        exact absurd hh.1 (by decide)
      have hkey : ∀ s, s ∈ m.slots → s.state = SLOT_OCCUPIED → s.key ≠ none := by
        intro s hs hocc
        obtain ⟨p, hp, rfl⟩ := List.getElem_of_mem hs
        have := (h.slots_wf.key_iff p (hlen ▸ hp)).1
        rw [slot_at_eq_getElem hp] at this
        exact this hocc
      have hpw : m.slots.Pairwise (fun a b => a.state = SLOT_OCCUPIED →
          b.state = SLOT_OCCUPIED → a.key ≠ b.key) := by
        rw [List.pairwise_iff_getElem]
        intro i j hi hj hij ha hb hab
        have hka := hkey _ (List.getElem_mem hi) ha
        obtain ⟨k, hk⟩ := Option.ne_none_iff_exists'.1 hka
        have h1 : holds m.slots i k := by
          unfold holds
          rw [slot_at_eq_getElem hi]
          exact ⟨ha, hk⟩
        have h2 : holds m.slots j k := by
          unfold holds
          rw [slot_at_eq_getElem hj]
          exact ⟨hb, hab ▸ hk⟩
        have := h.slots_wf.uniq i j k (hlen ▸ hi) (hlen ▸ hj) h1 h2
        omega
      obtain ⟨r1, r2, r3, r4, r5⟩ := rehash_spec m.slots new_slots 0 new1 size1 hre hwfnew
        hndnew (by rw [hrep, count_state_replicate _ _ (by decide)]) hkey hpw
        (fun k v _ ⟨p, _, hh⟩ => hnoholds p k hh)
      refine ⟨⟨r1, r3⟩, trivial, ?_, trivial, r2, hle2, ?_⟩
      · show size1 = m.size
        rw [r4, h.size_eq]
        omega
      · intro k v
        show entry new1 (2 * m.capacity) k v ↔ _
        rw [r5, listed_iff_entry hlen]
        constructor
        · rintro (⟨p, _, hh, _⟩ | h1)
          · exact absurd hh (hnoholds p k)
          · exact h1
        · exact Or.inr

/-! ## Insert on a well-formed map -/

theorem Prepared.value_eq {m m0 : Hashmap} {c : Bool} (hp : Prepared m c m0) (h : WF m)
    (k : Key) : hm_value m0 k = hm_value m k :=
  hm_value_congr h hp.wf k (hp.entries k)

theorem hm_value_none_iff (m : Hashmap) (k : Key) : hm_value m k = none ↔ hm_search m k = none := by
  unfold hm_value hm_lookup
  cases hm_search m k <;> simp

theorem Prepared.search_none_iff {m m0 : Hashmap} {c : Bool} (hp : Prepared m c m0) (h : WF m)
    (k : Key) : hm_search m0 k = none ↔ hm_search m k = none := by
  rw [← hm_value_none_iff, ← hm_value_none_iff, hp.value_eq h]

theorem needs_resize_false {m : Hashmap} (h : needs_resize m = false) (hs : m.size + 1 < 2 ^ 64) :
    4 * (m.size + 1) ≤ 3 * m.capacity := by
  unfold needs_resize at h
  rw [Nat.mod_eq_of_lt hs] at h
  simp only [Bool.or_eq_false_iff, decide_eq_false_iff_not] at h
  omega

/-- The resize step at the head of `hm_insert`: it fails and the call returns 1 with the map
untouched, or the probe loop runs on a prepared map. -/
theorem hm_insert_prepare {m : Hashmap} (h : WF m) (hl : Load m) (k : Key) (v : Nat)
    (c s : Bool) :
    (needs_resize m = true ∧ (hm_resize m c).1 ≠ 0 ∧ hm_insert m k v c s = (1, m)) ∨
    ∃ m0, Prepared m c m0 ∧ hm_insert m k v c s = hm_insert_place m0 k v s := by
  unfold hm_insert
  rw [if_neg h.cap_ne]
  rcases Bool.eq_false_or_eq_true (needs_resize m) with hn | hn
  · simp only [if_pos hn]
    by_cases hr : (hm_resize m c).1 ≠ 0
    · left
      rw [if_pos hr, hm_resize_fail m c hr]
      exact ⟨hn, hr, rfl⟩
    · right
      rw [if_neg hr]
      have hr0 : (hm_resize m c).1 = 0 := by
        by_contra hne
        exact hr hne
      obtain ⟨r1, r2, r3, _, _, _, r7⟩ := hm_resize_ok h c hr0
      refine ⟨(hm_resize m c).2, ⟨r1, r3, ?_, r7, Or.inr ⟨hn, hr0, rfl⟩⟩, rfl⟩
      rw [r2, r3]
      have hc := h.slots_wf.cap_pos
      unfold Load at hl
      omega
  · right
    have hnt : ¬ needs_resize m = true := by rw [hn]; decide
    refine ⟨m, ⟨h, rfl, ?_, fun _ _ => Iff.rfl, Or.inl ⟨hn, rfl⟩⟩, by rw [if_neg hnt]⟩
    have h1 := h.size_le
    have h4 := h.slots_wf.cap_le
    have hdiv : SIZE_MAX / sizeof_Slot = 768614336404564650 := by decide
    rw [hdiv] at h4
    exact needs_resize_false hn (by omega)

theorem count_state_all {st : SlotState} {l : List Slot}
    (h : ∀ p, p < l.length → (slot_at l p).state = st) : count_state st l = l.length := by
  unfold count_state
  rw [List.countP_eq_length]
  intro a ha
  obtain ⟨p, hp, rfl⟩ := List.getElem_of_mem ha
  have := h p hp
  rw [slot_at_eq_getElem hp] at this
  simpa using this

theorem hm_insert_outcome {m : Hashmap} (h : WF m) (hl : Load m) (k : Key) (v : Nat)
    (c s : Bool) : InsertOutcome m k v c s := by
  rcases hm_insert_prepare h hl k v c s with ⟨h1, h2, h3⟩ | ⟨m0, hp, heq⟩
  · exact InsertOutcome.resize_failed h1 h2 h3
  · cases hs : hm_search m0 k with
    | some p =>
      exact InsertOutcome.overwrote m0 p hp hs (heq.trans (hm_insert_place_found hp.wf hs v s))
    | none =>
      rcases hm_insert_place_absent hp.wf hs v s with ⟨_, hall⟩ | ⟨jq, h1, h2, h3, h4⟩
      · exfalso
        have hcount := count_state_all (fun p hp1 => hall p (hp.wf.slots_wf.len ▸ hp1))
        have := hp.room
        have h5 := hp.wf.size_eq
        have h6 := hp.wf.slots_wf.len
        omega
      · exact InsertOutcome.placed m0 jq hp hs h1 h2 h3 (heq.trans h4)

theorem placed_wf {m0 : Hashmap} (hwf : WF m0) {k : Key} (hs : hm_search m0 k = none)
    (v : Nat) {jq : Nat} (hjq : jq < m0.capacity)
    (hpath : ∀ j, j < jq →
      (slot_at m0.slots (pos m0.capacity (hash_cstr_fnv1a k % m0.capacity) j)).state
        = SLOT_OCCUPIED)
    (hfree : (slot_at m0.slots (pos m0.capacity (hash_cstr_fnv1a k % m0.capacity) jq)).state
      ≠ SLOT_OCCUPIED) (dc : Nat) :
    WF ⟨m0.slots.set (pos m0.capacity (hash_cstr_fnv1a k % m0.capacity) jq)
      ⟨some k, v, SLOT_OCCUPIED⟩, m0.capacity, m0.size + 1, dc⟩ := by
  have hq : pos m0.capacity (hash_cstr_fnv1a k % m0.capacity) jq < m0.slots.length := by
    rw [hwf.slots_wf.len]; exact pos_lt hwf.slots_wf.cap_pos _ _
  constructor
  · refine hwf.slots_wf.set_placed v hjq ?_ hfree ((hm_search_none_iff hwf k).1 hs)
    intro j hj
    unfold non_empty
    rw [hpath j hj]
    decide
  · show m0.size + 1 = count_state SLOT_OCCUPIED
      (m0.slots.set (pos m0.capacity (hash_cstr_fnv1a k % m0.capacity) jq)
        ⟨some k, v, SLOT_OCCUPIED⟩)
    have h1 := count_state_set SLOT_OCCUPIED ⟨some k, v, SLOT_OCCUPIED⟩ m0.slots _ hq
    rw [if_neg hfree] at h1
    simp only [if_true, Nat.add_zero] at h1
    rw [h1, hwf.size_eq]

/-- Insert keeps a well-formed map well-formed and within the load bound, whatever it
returns. -/
theorem hm_insert_wf {m : Hashmap} (h : WF m) (hl : Load m) (k : Key) (v : Nat) (c s : Bool) :
    WF (hm_insert m k v c s).2 ∧ Load (hm_insert m k v c s).2 := by
  rcases hm_insert_outcome h hl k v c s with ⟨_, _, h3⟩ | ⟨m0, p, hp, _, heq⟩ |
    ⟨m0, jq, hp, hs, hjq, hpath, hfree, heq⟩
  · rw [h3]
    exact ⟨h, hl⟩
  · rw [heq]
    refine ⟨hp.wf.set_value p v, ?_⟩
    have := hp.room
    show 4 * m0.size ≤ 3 * m0.capacity
    omega
  · rw [heq]
    cases s
    · simp only [Bool.false_eq_true, if_false]
      refine ⟨⟨hp.wf.slots_wf, hp.wf.size_eq⟩, ?_⟩
      have := hp.room
      show 4 * m0.size ≤ 3 * m0.capacity
      omega
    · simp only [if_true]
      exact ⟨placed_wf hp.wf hs v hjq hpath hfree _, hp.room⟩

/-- After a successful insert the key is found in an Occupied slot with the new value. -/
theorem hm_insert_found {m : Hashmap} (h : WF m) (hl : Load m) (k : Key) (v : Nat)
    (c s : Bool) (hr : (hm_insert m k v c s).1 = 0) :
    ∃ p, hm_search (hm_insert m k v c s).2 k = some p ∧
      slot_at (hm_insert m k v c s).2.slots p = ⟨some k, v, SLOT_OCCUPIED⟩ := by
  have hwf1 := (hm_insert_wf h hl k v c s).1
  rcases hm_insert_outcome h hl k v c s with ⟨_, _, h3⟩ | ⟨m0, p, hp, hs, heq⟩ |
    ⟨m0, jq, hp, hs, hjq, hpath, hfree, heq⟩
  · rw [h3] at hr
    cases hr
  · have hpp := (hm_search_iff hp.wf k p).1 hs
    have hpl : p < m0.slots.length := by rw [hp.wf.slots_wf.len]; exact hpp.1
    refine ⟨p, ?_, ?_⟩
    · rw [hm_search_iff hwf1]
      rw [heq]
      refine ⟨hpp.1, ?_⟩
      show holds (m0.slots.set p { slot_at m0.slots p with value := v }) p k
      exact (holds_set _ hpl p k).2 (Or.inl ⟨rfl, hpp.2.1, hpp.2.2⟩)
    · rw [heq]
      show slot_at (m0.slots.set p { slot_at m0.slots p with value := v }) p = _
      rw [slot_at_set_eq _ hpl]
      obtain ⟨h1, h2⟩ := hpp.2
      cases hsl : slot_at m0.slots p with
      | mk key value state =>
        rw [hsl] at h1 h2
        simp only at h1 h2
        rw [h1, h2]
  · cases s
    · rw [heq] at hr
      simp at hr
    · have hc := hp.wf.slots_wf.cap_pos
      have hq : pos m0.capacity (hash_cstr_fnv1a k % m0.capacity) jq < m0.capacity :=
        pos_lt hc _ _
      have hql : pos m0.capacity (hash_cstr_fnv1a k % m0.capacity) jq < m0.slots.length := by
        rw [hp.wf.slots_wf.len]; exact hq
      refine ⟨pos m0.capacity (hash_cstr_fnv1a k % m0.capacity) jq, ?_, ?_⟩
      · rw [hm_search_iff hwf1]
        rw [heq]
        simp only [if_true]
        exact ⟨hq, (holds_set _ hql _ k).2 (Or.inl ⟨rfl, rfl, rfl⟩)⟩
      · rw [heq]
        simp only [if_true]
        exact slot_at_set_eq _ hql

/-- Insert of `k` never changes what any other key maps to, whatever it returns. -/
theorem hm_insert_frame {m : Hashmap} (h : WF m) (hl : Load m) (k : Key) (v : Nat)
    (c s : Bool) {k1 : Key} (hne : k1 ≠ k) :
    hm_value (hm_insert m k v c s).2 k1 = hm_value m k1 := by
  have hwf1 := (hm_insert_wf h hl k v c s).1
  rcases hm_insert_outcome h hl k v c s with ⟨_, _, h3⟩ | ⟨m0, p, hp, hs, heq⟩ |
    ⟨m0, jq, hp, hs, hjq, hpath, hfree, heq⟩
  · rw [h3]
  · rw [← hp.value_eq h k1]
    apply hm_value_congr hp.wf hwf1
    intro v1
    rw [heq]
    have hpp := (hm_search_iff hp.wf k p).1 hs
    show entry (m0.slots.set p { slot_at m0.slots p with value := v }) m0.capacity k1 v1 ↔ _
    rw [entry_set_value hp.wf.slots_wf hpp.1 hpp.2]
    simp [hne]
  · rw [← hp.value_eq h k1]
    apply hm_value_congr hp.wf hwf1
    intro v1
    rw [heq]
    cases s
    · simp only [Bool.false_eq_true, if_false]
    · simp only [if_true]
      rw [entry_set_placed hp.wf.slots_wf (pos_lt hp.wf.slots_wf.cap_pos _ _) hfree]
      simp [hne]

/-- A failed insert changes no key's value. -/
theorem hm_insert_failed {m : Hashmap} (h : WF m) (hl : Load m) (k : Key) (v : Nat)
    (c s : Bool) (hr : (hm_insert m k v c s).1 ≠ 0) (k1 : Key) :
    hm_value (hm_insert m k v c s).2 k1 = hm_value m k1 ∧
      (hm_insert m k v c s).2.size = m.size := by
  have hwf1 := (hm_insert_wf h hl k v c s).1
  rcases hm_insert_outcome h hl k v c s with ⟨_, _, h3⟩ | ⟨m0, p, hp, hs, heq⟩ |
    ⟨m0, jq, hp, hs, hjq, hpath, hfree, heq⟩
  · rw [h3]
    exact ⟨rfl, rfl⟩
  · rw [heq] at hr
    exact absurd rfl hr
  · cases s
    · rw [← hp.value_eq h k1, ← hp.size_eq]
      refine ⟨hm_value_congr hp.wf hwf1 k1 ?_, by rw [heq]; rfl⟩
      intro v1
      rw [heq]
      simp only [Bool.false_eq_true, if_false]
    · rw [heq] at hr
      exact absurd rfl hr

/-- The size after a successful insert: one more for a new key, unchanged for a present one. -/
theorem hm_insert_size {m : Hashmap} (h : WF m) (hl : Load m) (k : Key) (v : Nat)
    (c s : Bool) (hr : (hm_insert m k v c s).1 = 0) :
    (hm_insert m k v c s).2.size = if hm_search m k = none then m.size + 1 else m.size := by
  rcases hm_insert_outcome h hl k v c s with ⟨_, _, h3⟩ | ⟨m0, p, hp, hs, heq⟩ |
    ⟨m0, jq, hp, hs, hjq, hpath, hfree, heq⟩
  · rw [h3] at hr
    cases hr
  · have hsome : hm_search m k ≠ none := by
      intro hnone
      have := (hp.search_none_iff h k).2 hnone
      rw [hs] at this
      cases this
    rw [if_neg hsome, heq, ← hp.size_eq]
  · rw [if_pos ((hp.search_none_iff h k).1 hs)]
    cases s
    · rw [heq] at hr
      simp at hr
    · rw [heq, ← hp.size_eq]
      rfl

/-! ## `next_pow2` and `hm_create` -/

theorem Smeared.init (x : Nat) : Smeared x 1 x := by
  intro i
  constructor
  · intro h
    exact ⟨0, Nat.one_pos, h⟩
  · rintro ⟨j, hj, h⟩
    have : j = 0 := by omega
    subst this
    exact h

theorem Smeared.step {x w y : Nat} (h : Smeared x w y) : Smeared x (2 * w) (y ||| (y >>> w)) := by
  intro i
  rw [Nat.testBit_or, Nat.testBit_shiftRight, Bool.or_eq_true, h i, h (w + i)]
  constructor
  · rintro (⟨j, hj, hb⟩ | ⟨j, hj, hb⟩)
    · exact ⟨j, by omega, hb⟩
    · refine ⟨w + j, by omega, ?_⟩
      have : i + (w + j) = w + i + j := by omega
      rw [this]
      exact hb
  · rintro ⟨j, hj, hb⟩
    by_cases hjw : j < w
    · exact Or.inl ⟨j, hjw, hb⟩
    · refine Or.inr ⟨j - w, by omega, ?_⟩
      have : w + i + (j - w) = i + j := by omega
      rw [this]
      exact hb

theorem Smeared.eq {x y : Nat} (hx : x < 2 ^ 64) (h : Smeared x 64 y) :
    y = 2 ^ Nat.size x - 1 := by
  apply Nat.eq_of_testBit_eq
  intro i
  rw [Nat.testBit_two_pow_sub_one]
  apply Bool.eq_iff_iff.2
  rw [h i, decide_eq_true_iff, Nat.lt_size]
  constructor
  · rintro ⟨j, _, hb⟩
    have h1 := Nat.testBit_implies_ge hb
    have h2 : 2 ^ i ≤ 2 ^ (i + j) := Nat.pow_le_pow_right (by decide) (by omega)
    omega
  · intro hle
    obtain ⟨i1, hi1, hb⟩ := Nat.ge_two_pow_implies_high_bit_true hle
    have h1 := Nat.testBit_implies_ge hb
    have h2 : i1 < 64 := by
      by_contra hge
      have : 2 ^ 64 ≤ 2 ^ i1 := Nat.pow_le_pow_right (by decide) (by omega)
      omega
    refine ⟨i1 - i, by omega, ?_⟩
    have : i + (i1 - i) = i1 := by omega
    rw [this]
    exact hb

/-- The value of `next_pow2` on a non-zero `size_t`: two to the bit length of `n - 1`,
truncated to 64 bits. -/
theorem next_pow2_eq {n : Nat} (h0 : n ≠ 0) (hn : n < 2 ^ 64) :
    next_pow2 n = 2 ^ Nat.size (n - 1) % 2 ^ 64 := by
  have s0 := Smeared.init (n - 1)
  have s1 : Smeared (n - 1) 2 _ := s0.step
  have s2 : Smeared (n - 1) 4 _ := s1.step
  have s3 : Smeared (n - 1) 8 _ := s2.step
  have s4 : Smeared (n - 1) 16 _ := s3.step
  have s5 : Smeared (n - 1) 32 _ := s4.step
  have s6 : Smeared (n - 1) 64 _ := s5.step
  have he := Smeared.eq (by omega) s6
  unfold next_pow2
  rw [if_neg h0]
  simp only
  rw [he]
  have hpos : 0 < 2 ^ Nat.size (n - 1) := Nat.pow_pos (by decide)
  rw [Nat.sub_add_cancel hpos]

theorem next_pow2_pow2 {n : Nat} (hn : n < 2 ^ 64) :
    next_pow2 n = 0 ∨ ∃ e, next_pow2 n = 2 ^ e := by
  by_cases h0 : n = 0
  · subst h0
    exact Or.inr ⟨0, rfl⟩
  · rw [next_pow2_eq h0 hn]
    by_cases hlt : Nat.size (n - 1) < 64
    · right
      refine ⟨Nat.size (n - 1), Nat.mod_eq_of_lt ?_⟩
      exact Nat.pow_lt_pow_right (by decide) hlt
    · left
      have hsz : Nat.size (n - 1) ≤ 64 := Nat.size_le.2 (by omega)
      have : Nat.size (n - 1) = 64 := by omega
      rw [this, Nat.mod_self]

/-! ## Reachable maps -/

theorem hm_create_inv {n : Nat} {b c : Bool} {m : Hashmap} (hn : n < 2 ^ 64)
    (h : hm_create n b c = some m) : Inv m := by
  unfold hm_create at h
  cases b with
  | false => simp at h
  | true =>
    simp only [if_true] at h
    cases hmk : make_slots (next_pow2 n) c with
    | none => rw [hmk] at h; cases h
    | some slots =>
      rw [hmk] at h
      simp only [Option.some.injEq] at h
      subst h
      unfold make_slots at hmk
      by_cases hbig : next_pow2 n ≠ 0 ∧ next_pow2 n > SIZE_MAX / sizeof_Slot
      · rw [if_pos hbig] at hmk
        cases hmk
      · rw [if_neg hbig] at hmk
        cases c with
        | false => simp at hmk
        | true =>
          simp only [if_true, Option.some.injEq] at hmk
          subst hmk
          rcases next_pow2_pow2 hn with h0 | ⟨e, he⟩
          · left
            simp [h0]
          · right
            have hle : next_pow2 n ≤ SIZE_MAX / sizeof_Slot := by
              by_contra hgt
              apply hbig
              refine ⟨?_, by omega⟩
              rw [he]
              exact Nat.ne_of_gt (Nat.pow_pos (by decide))
            refine ⟨⟨SlotsWF.replicate he hle, ?_⟩, ?_⟩
            · show 0 = count_state SLOT_OCCUPIED (List.replicate (next_pow2 n) zero_slot)
              rw [count_state_replicate _ _ (by decide)]
            · show 4 * 0 ≤ 3 * next_pow2 n
              omega

theorem hm_insert_degenerate {m : Hashmap} (h : m.capacity = 0) (k : Key) (v : Nat)
    (c s : Bool) : hm_insert m k v c s = (1, m) := by
  unfold hm_insert
  rw [if_pos h]

theorem hm_search_degenerate {m : Hashmap} (h : m.capacity = 0) (k : Key) :
    hm_search m k = none := by
  unfold hm_search
  rw [if_pos h]

theorem Inv.insert_inv {m : Hashmap} (h : Inv m) (k : Key) (v : Nat) (c s : Bool) :
    Inv (hm_insert m k v c s).2 := by
  rcases h with h0 | ⟨hwf, hl⟩
  · rw [hm_insert_degenerate h0.1]
    exact Or.inl h0
  · exact Or.inr (hm_insert_wf hwf hl k v c s)

theorem Inv.update_inv {m : Hashmap} (h : Inv m) (k : Key) (v : Nat) : Inv (hm_update m k v).2 := by
  rcases h with h0 | ⟨hwf, hl⟩
  · rw [hm_update_eq, hm_search_degenerate h0.1]
    exact Or.inl h0
  · refine Or.inr ⟨hwf.update_wf k v, ?_⟩
    rw [hm_update_eq]
    cases hm_search m k with
    | none => exact hl
    | some p => exact hl

theorem Inv.delete_inv {m : Hashmap} (h : Inv m) (k : Key) : Inv (hm_delete m k).2 := by
  rcases h with h0 | ⟨hwf, hl⟩
  · rw [hm_delete_eq, hm_search_degenerate h0.1]
    exact Or.inl h0
  · refine Or.inr ⟨hwf.delete_wf k, ?_⟩
    cases hs : hm_search m k with
    | none =>
      rw [hm_delete_eq, hs]
      exact hl
    | some p =>
      rw [(hm_delete_found hwf hs).1]
      unfold Load at hl ⊢
      show 4 * (m.size - 1) ≤ 3 * m.capacity
      omega

/-- Every reachable map satisfies the invariant. -/
theorem Reachable.inv {m : Hashmap} (h : Reachable m) : Inv m := by
  induction h with
  | create n b c m hn hc => exact hm_create_inv hn hc
  | insert m k v c s _ ih => exact ih.insert_inv k v c s
  | update m k v _ ih => exact ih.update_inv k v
  | delete m k _ ih => exact ih.delete_inv k

/-! ## Lookups on reachable maps -/

/-- On a well-formed map the slot `hm_search` returns is determined by the value it holds. -/
theorem hm_lookup_eq {m : Hashmap} (h : WF m) (k : Key) :
    hm_lookup m k = (hm_value m k).map (fun v => ⟨some k, v, SLOT_OCCUPIED⟩) := by
  unfold hm_value hm_lookup
  cases hs : hm_search m k with
  | none => rfl
  | some p =>
    have hp := (hm_search_iff h k p).1 hs
    obtain ⟨h1, h2⟩ := hp.2
    simp only [Option.map_some', Option.some.injEq]
    cases hsl : slot_at m.slots p with
    | mk key value state =>
      rw [hsl] at h1 h2
      simp only at h1 h2
      rw [h1, h2]

theorem hm_lookup_degenerate {m : Hashmap} (h : m.capacity = 0) (k : Key) :
    hm_lookup m k = none := by
  unfold hm_lookup
  rw [hm_search_degenerate h]
  rfl

theorem hm_lookup_of_value {m m1 : Hashmap} (h : WF m) (h1 : WF m1) {k : Key}
    (hv : hm_value m1 k = hm_value m k) : hm_lookup m1 k = hm_lookup m k := by
  rw [hm_lookup_eq h, hm_lookup_eq h1, hv]

/-- Insert of `k` leaves the slot found for any other key as it was, on every reachable map
and whatever the call returns. -/
theorem insert_lookup_frame {m : Hashmap} (hm : Inv m) (k : Key) (v : Nat) (c s : Bool)
    {k1 : Key} (hne : k1 ≠ k) :
    hm_lookup (hm_insert m k v c s).2 k1 = hm_lookup m k1 := by
  rcases hm with h0 | ⟨hwf, hl⟩
  · rw [hm_insert_degenerate h0.1]
  · exact hm_lookup_of_value hwf (hm_insert_wf hwf hl k v c s).1
      (hm_insert_frame hwf hl k v c s hne)

/-- After a successful insert the key is found in a slot that is Occupied and holds the key
and the value, on every reachable map. -/
theorem insert_lookup_self {m : Hashmap} (hm : Inv m) (k : Key) (v : Nat) (c s : Bool)
    (hr : (hm_insert m k v c s).1 = 0) :
    hm_lookup (hm_insert m k v c s).2 k = some ⟨some k, v, SLOT_OCCUPIED⟩ := by
  rcases hm with h0 | ⟨hwf, hl⟩
  · rw [hm_insert_degenerate h0.1] at hr
    cases hr
  · obtain ⟨p, hp, hslot⟩ := hm_insert_found hwf hl k v c s hr
    unfold hm_lookup
    rw [hp]
    simp [hslot]

theorem insert_size {m : Hashmap} (hm : Inv m) (k : Key) (v : Nat) (c s : Bool)
    (hr : (hm_insert m k v c s).1 = 0) :
    (hm_insert m k v c s).2.size = if hm_search m k = none then m.size + 1 else m.size := by
  rcases hm with h0 | ⟨hwf, hl⟩
  · rw [hm_insert_degenerate h0.1] at hr
    cases hr
  · exact hm_insert_size hwf hl k v c s hr

/-! ## Resize never fails in the rehash step -/

theorem exists_state_ne (st : SlotState) :
    ∀ (l : List Slot) (x : Nat), 2 ≤ count_state st l →
      ∃ p, p < l.length ∧ p ≠ x ∧ (slot_at l p).state = st
  | [], _, h => by simp [count_state] at h
  | a :: t, x, h => by
    by_cases ha : a.state = st
    · cases x with
      | zero =>
        have ht : 0 < count_state st t := by
          simp only [count_state, List.countP_cons, ha, decide_True, if_true] at h ⊢
          omega
        unfold count_state at ht
        rw [List.countP_pos_iff] at ht
        obtain ⟨b, hb, hbs⟩ := ht
        obtain ⟨p, hp, rfl⟩ := List.getElem_of_mem hb
        refine ⟨p + 1, by simpa using hp, by omega, ?_⟩
        have : slot_at (a :: t) (p + 1) = t[p] := by
          simp [slot_at, List.getD_eq_getElem?_getD, hp]
        rw [this]
        simpa using hbs
      | succ x => exact ⟨0, by simp, by omega, ha⟩
    · have ht : 2 ≤ count_state st t := by
        simp only [count_state, List.countP_cons, ha, decide_False] at h ⊢
        simpa using h
      cases x with
      | zero =>
        obtain ⟨p, hp, _, hps⟩ := exists_state_ne st t 0 ht
        exact ⟨p + 1, by simpa using hp, by omega, by simpa [slot_at] using hps⟩
      | succ x =>
        obtain ⟨p, hp, hne, hps⟩ := exists_state_ne st t x ht
        exact ⟨p + 1, by simpa using hp, by omega, by simpa [slot_at] using hps⟩

theorem count_empty_replicate (n : Nat) :
    count_state SLOT_EMPTY (List.replicate n zero_slot) = n := by
  have := @count_state_all SLOT_EMPTY (List.replicate n zero_slot)
    (fun p _ => by rw [slot_at_replicate]; rfl)
  rw [this, List.length_replicate]

/-- With two Empty slots in the array `slot_insert` finds one within its step bound. -/
theorem slot_insert_succeeds {cap e : Nat} {slots : List Slot} (hpow : cap = 2 ^ e)
    (hmax : cap ≤ SIZE_MAX) (hlen : slots.length = cap)
    (hroom : 2 ≤ count_state SLOT_EMPTY slots) (k : Key) (v size : Nat) :
    (slot_insert slots (some k) v size cap).1 = 0 := by
  have hc : 0 < cap := by subst hpow; exact Nat.pow_pos (by decide)
  have hidx : hash_cstr_fnv1a k % cap < cap := Nat.mod_lt _ hc
  unfold slot_insert
  simp only [Nat.ne_of_gt hc, if_false, mask_eq_mod hpow]
  obtain ⟨t, ht, hrun, _, hall⟩ := slot_insert_loop_spec slots hpow hmax cap
    (hash_cstr_fnv1a k % cap) (hash_cstr_fnv1a k % cap) 0
  rw [hrun]
  simp only [Nat.zero_add, ge_iff_le]
  by_cases hle : cap ≤ t
  · exfalso
    obtain ⟨p, hp, hne, hps⟩ := exists_state_ne SLOT_EMPTY slots
      (pos cap (hash_cstr_fnv1a k % cap) (cap - 1)) hroom
    obtain ⟨j, hj, hpj⟩ := pos_surj hidx (hlen ▸ hp)
    have hj1 : j ≠ cap - 1 := by
      intro hj1
      rw [hj1] at hpj
      exact hne hpj.symm
    have := hall (j + 1) (by omega)
    simp only [seq] at this
    unfold pos at hpj
    rw [hpj] at this
    exact this hps
  · rw [if_neg hle]

theorem rehash_succeeds {cap e : Nat} (hpow : cap = 2 ^ e) (hmax : cap ≤ SIZE_MAX) :
    ∀ (olds new_slots : List Slot) (size : Nat), new_slots.length = cap →
      (∀ s, s ∈ olds → s.state = SLOT_OCCUPIED → s.key ≠ none) →
      count_state SLOT_OCCUPIED olds + 1 ≤ count_state SLOT_EMPTY new_slots →
      ∃ r, rehash cap olds new_slots size = some r
  | [], new_slots, size, _, _, _ => ⟨_, rfl⟩
  | s :: rest, new_slots, size, hlen, hkey, hroom => by
    unfold rehash
    have hc : 0 < cap := by subst hpow; exact Nat.pow_pos (by decide)
    by_cases hocc : s.state = SLOT_OCCUPIED
    · rw [if_pos hocc]
      have hcount : count_state SLOT_OCCUPIED (s :: rest) =
          count_state SLOT_OCCUPIED rest + 1 := by
        simp only [count_state, List.countP_cons, hocc, decide_True, if_true]
      rw [hcount] at hroom
      obtain ⟨k, hk⟩ := Option.ne_none_iff_exists'.1 (hkey s (List.mem_cons_self _ _) hocc)
      have h0 : (slot_insert new_slots s.key s.value size cap).1 = 0 := by
        rw [hk]
        exact slot_insert_succeeds hpow hmax hlen (by omega) k _ _
      simp only [h0, ne_eq, not_true_eq_false, if_false]
      obtain ⟨key, jq, _, _, hE, _, hset, _⟩ := slot_insert_ok hpow hmax (Prod.ext h0 rfl)
      have hql : pos cap (hash_cstr_fnv1a key % cap) jq < new_slots.length := by
        rw [hlen]; exact pos_lt hc _ _
      have hcnt := count_state_set SLOT_EMPTY ⟨some key, s.value, SLOT_OCCUPIED⟩
        new_slots _ hql
      rw [if_pos hE, ← hset] at hcnt
      have h2 : (if SLOT_OCCUPIED = SLOT_EMPTY then 1 else 0) = 0 := by decide
      simp only [h2] at hcnt
      refine rehash_succeeds hpow hmax rest _ _ ?_
        (fun s1 hs1 => hkey s1 (List.mem_cons_of_mem _ hs1)) ?_
      · rw [hset, List.length_set]
        exact hlen
      · have hb : count_state SLOT_EMPTY (slot_insert new_slots s.key s.value size cap).2.1 + 1
            = count_state SLOT_EMPTY new_slots := by rw [hcnt, Nat.add_zero]
        omega
    · rw [if_neg hocc]
      have hcount : count_state SLOT_OCCUPIED (s :: rest) = count_state SLOT_OCCUPIED rest := by
        simp only [count_state, List.countP_cons, hocc, decide_False]
        simp
      rw [hcount] at hroom
      exact rehash_succeeds hpow hmax rest new_slots size hlen
        (fun s1 hs1 => hkey s1 (List.mem_cons_of_mem _ hs1)) hroom

/-- On a well-formed map `hm_resize` succeeds whenever `make_slots` returns an array. -/
theorem hm_resize_succeeds {m : Hashmap} (h : WF m) (c : Bool)
    (hmk : make_slots (2 * m.capacity) c ≠ none) : (hm_resize m c).1 = 0 := by
  obtain ⟨e, he⟩ := h.slots_wf.pow2
  have hc := h.slots_wf.cap_pos
  have hle := h.slots_wf.cap_le
  have hlen := h.slots_wf.len
  have hdiv : SIZE_MAX / sizeof_Slot = 768614336404564650 := by decide
  rw [hdiv] at hle
  have hcap2 : (m.capacity * 2) % 2 ^ 64 = 2 * m.capacity := by
    rw [Nat.mod_eq_of_lt (by omega)]
    omega
  unfold hm_resize
  simp only [hcap2]
  have hnlt : ¬ 2 * m.capacity < m.capacity := by omega
  rw [if_neg hnlt]
  cases hmk1 : make_slots (2 * m.capacity) c with
  | none => exact absurd hmk1 hmk
  | some new_slots =>
    simp only
    have hrep : new_slots = List.replicate (2 * m.capacity) zero_slot := by
      unfold make_slots at hmk1
      by_cases hbig : 2 * m.capacity ≠ 0 ∧ 2 * m.capacity > SIZE_MAX / sizeof_Slot
      · rw [if_pos hbig] at hmk1
        cases hmk1
      · rw [if_neg hbig] at hmk1
        cases c
        · simp at hmk1
        · simp only [if_true, Option.some.injEq] at hmk1
          exact hmk1.symm
    rw [← hlen, range_map_slot_at, hlen]
    have hmax2 : 2 * m.capacity ≤ SIZE_MAX := by
      have : SIZE_MAX = 18446744073709551615 := by decide
      omega
    have hkey : ∀ s, s ∈ m.slots → s.state = SLOT_OCCUPIED → s.key ≠ none := by
      intro s hs hocc
      obtain ⟨p, hp, rfl⟩ := List.getElem_of_mem hs
      have := (h.slots_wf.key_iff p (hlen ▸ hp)).1
      rw [slot_at_eq_getElem hp] at this
      exact this hocc
    obtain ⟨r, hr⟩ := rehash_succeeds (e := e + 1) (by rw [he, Nat.pow_succ]; omega) hmax2
      m.slots new_slots 0 (by rw [hrep, List.length_replicate]) hkey (by
        rw [hrep, count_empty_replicate]
        have := count_state_le SLOT_OCCUPIED m.slots
        omega)
    rw [hr]

/-! ## Delete and update on reachable maps -/

theorem hm_lookup_none_iff (m : Hashmap) (k : Key) :
    hm_lookup m k = none ↔ hm_search m k = none := by
  unfold hm_lookup
  cases hm_search m k <;> simp

/-- Delete of `k` leaves the slot found for any other key as it was. -/
theorem delete_lookup_frame {m : Hashmap} (hm : Inv m) (k : Key) {k1 : Key} (hne : k1 ≠ k) :
    hm_lookup (hm_delete m k).2 k1 = hm_lookup m k1 := by
  rcases hm with h0 | ⟨hwf, _⟩
  · rw [hm_delete_eq, hm_search_degenerate h0.1]
  · cases hs : hm_search m k with
    | none => rw [hm_delete_eq, hs]
    | some p =>
      obtain ⟨heq, _, hwf1⟩ := hm_delete_found hwf hs
      rw [heq]
      apply hm_lookup_of_value hwf hwf1
      apply hm_value_congr hwf hwf1
      intro v1
      have hp := (hm_search_iff hwf k p).1 hs
      show entry (m.slots.set p ⟨none, 0, SLOT_DELETED⟩) m.capacity k1 v1 ↔ _
      rw [entry_set_deleted hwf.slots_wf hp.1 hp.2]
      simp [hne]

/-- After a successful delete the key is not found and the size is one less. -/
theorem delete_absent {m : Hashmap} (hm : Inv m) (k : Key) (hr : (hm_delete m k).1 = 0) :
    hm_search (hm_delete m k).2 k = none ∧ (hm_delete m k).2.size + 1 = m.size ∧
      (hm_delete m k).2.del_count = (m.del_count + 1) % 2 ^ 64 ∧
      (hm_delete m k).2.capacity = m.capacity := by
  rcases hm with h0 | ⟨hwf, _⟩
  · rw [hm_delete_eq, hm_search_degenerate h0.1] at hr
    cases hr
  · cases hs : hm_search m k with
    | none =>
      rw [hm_delete_eq, hs] at hr
      cases hr
    | some p =>
      obtain ⟨heq, hpos, hwf1⟩ := hm_delete_found hwf hs
      rw [heq]
      refine ⟨?_, ?_, rfl, rfl⟩
      · rw [hm_search_none_iff hwf1]
        intro q hq hh
        have hp := (hm_search_iff hwf k p).1 hs
        have : entry (m.slots.set p ⟨none, 0, SLOT_DELETED⟩) m.capacity k
            (slot_at (m.slots.set p ⟨none, 0, SLOT_DELETED⟩) q).value := ⟨q, hq, hh, rfl⟩
        rw [entry_set_deleted hwf.slots_wf hp.1 hp.2] at this
        exact this.1 rfl
      · show m.size - 1 + 1 = m.size
        omega

/-- The return code of `hm_delete` tells whether the key was found. -/
theorem hm_delete_code (m : Hashmap) (k : Key) :
    (hm_delete m k).1 = 0 ↔ hm_search m k ≠ none := by
  rw [hm_delete_eq]
  cases hm_search m k <;> simp

/-- The return code of `hm_update` tells whether the key was found. -/
theorem hm_update_code (m : Hashmap) (k : Key) (v : Nat) :
    (hm_update m k v).1 = 0 ↔ hm_search m k ≠ none := by
  rw [hm_update_eq]
  cases hm_search m k <;> simp

/-- Update of `k` leaves the slot found for any other key as it was, and after a
successful update `k` is found with the new value. -/
theorem update_lookup {m : Hashmap} (hm : Inv m) (k : Key) (v : Nat) :
    (∀ k1, k1 ≠ k → hm_lookup (hm_update m k v).2 k1 = hm_lookup m k1) ∧
    ((hm_update m k v).1 = 0 →
      hm_lookup (hm_update m k v).2 k = some ⟨some k, v, SLOT_OCCUPIED⟩) := by
  rcases hm with h0 | ⟨hwf, _⟩
  · rw [hm_update_eq, hm_search_degenerate h0.1]
    exact ⟨fun _ _ => rfl, fun h => by cases h⟩
  · have hwf1 := hwf.update_wf k v
    rw [hm_update_eq] at hwf1 ⊢
    cases hs : hm_search m k with
    | none => exact ⟨fun _ _ => rfl, fun h => by cases h⟩
    | some p =>
      rw [hs] at hwf1
      have hp := (hm_search_iff hwf k p).1 hs
      simp only at hwf1 ⊢
      constructor
      · intro k1 hne
        apply hm_lookup_of_value hwf hwf1
        apply hm_value_congr hwf hwf1
        intro v1
        show entry (m.slots.set p { slot_at m.slots p with value := v }) m.capacity k1 v1 ↔ _
        rw [entry_set_value hwf.slots_wf hp.1 hp.2]
        simp [hne]
      · intro _
        rw [hm_lookup_eq hwf1]
        have : hm_value { m with slots := m.slots.set p { slot_at m.slots p with value := v } } k
            = some v := by
          rw [hm_value_iff hwf1]
          show entry (m.slots.set p { slot_at m.slots p with value := v }) m.capacity k v
          rw [entry_set_value hwf.slots_wf hp.1 hp.2]
          exact Or.inl ⟨rfl, rfl⟩
        rw [this]
        rfl

/-- A freshly created map holds no key. -/
theorem hm_create_empty {n : Nat} {b c : Bool} {m : Hashmap}
    (h : hm_create n b c = some m) :
    m.size = 0 ∧ m.del_count = 0 ∧ m.capacity = next_pow2 n ∧
      m.slots = List.replicate (next_pow2 n) zero_slot := by
  unfold hm_create at h
  cases b with
  | false => simp at h
  | true =>
    simp only [if_true] at h
    cases hmk : make_slots (next_pow2 n) c with
    | none => rw [hmk] at h; cases h
    | some slots =>
      rw [hmk] at h
      simp only [Option.some.injEq] at h
      subst h
      refine ⟨rfl, rfl, rfl, ?_⟩
      unfold make_slots at hmk
      split at hmk
      · cases hmk
      · split at hmk
        · simp only [Option.some.injEq] at hmk
          exact hmk.symm
        · cases hmk

theorem find_loop_replicate (n cap : Nat) (k : Key) :
    ∀ (fuel idx : Nat), find_loop (List.replicate n zero_slot) cap k fuel idx = none
  | 0, _ => rfl
  | fuel + 1, idx => by
    unfold find_loop
    simp only [slot_at_replicate]
    rfl

theorem hm_create_search {n : Nat} {b c : Bool} {m : Hashmap}
    (h : hm_create n b c = some m) (k : Key) : hm_search m k = none := by
  obtain ⟨_, _, _, hslots⟩ := hm_create_empty h
  unfold hm_search
  split
  · rfl
  · rw [hslots]
    exact find_loop_replicate _ _ _ _ _

/-! ## The content of a map along its history -/

theorem Tracks.reachable {m : Hashmap} {f : Key → Option Nat} (h : Tracks m f) :
    Reachable m := by
  induction h with
  | create n b c m hn hc => exact Reachable.create n b c m hn hc
  | insert m f k v c s _ ih => exact Reachable.insert m k v c s ih
  | update m f k v _ ih => exact Reachable.update m k v ih
  | delete m f k _ ih => exact Reachable.delete m k ih

theorem insert_failed_lookup {m : Hashmap} (hm : Inv m) (k : Key) (v : Nat) (c s : Bool)
    (hr : (hm_insert m k v c s).1 ≠ 0) (k1 : Key) :
    hm_lookup (hm_insert m k v c s).2 k1 = hm_lookup m k1 := by
  rcases hm with h0 | ⟨hwf, hl⟩
  · rw [hm_insert_degenerate h0.1]
  · exact hm_lookup_of_value hwf (hm_insert_wf hwf hl k v c s).1
      (hm_insert_failed hwf hl k v c s hr k1).1

/-- The slot `hm_search` returns for a key is the one its history binds it to. -/
theorem Tracks.lookup {m : Hashmap} {f : Key → Option Nat} (h : Tracks m f) (k1 : Key) :
    hm_lookup m k1 = (f k1).map (fun v => ⟨some k1, v, SLOT_OCCUPIED⟩) := by
  induction h with
  | create n b c m hn hc =>
    rw [(hm_lookup_none_iff m k1).2 (hm_create_search hc k1)]
    rfl
  | insert m f k v c s ht ih =>
    have hinv := ht.reachable.inv
    by_cases hr : (hm_insert m k v c s).1 = 0
    · rw [if_pos hr]
      by_cases hk : k1 = k
      · subst hk
        rw [insert_lookup_self hinv k1 v c s hr, Function.update_same]
        rfl
      · rw [insert_lookup_frame hinv k v c s hk, Function.update_noteq hk, ih]
    · rw [if_neg hr, insert_failed_lookup hinv k v c s hr, ih]
  | update m f k v ht ih =>
    have hinv := ht.reachable.inv
    by_cases hr : (hm_update m k v).1 = 0
    · rw [if_pos hr]
      by_cases hk : k1 = k
      · subst hk
        rw [(update_lookup hinv k1 v).2 hr, Function.update_same]
        rfl
      · rw [(update_lookup hinv k v).1 k1 hk, Function.update_noteq hk, ih]
    · rw [if_neg hr]
      have hnone : hm_search m k = none := by
        by_contra hne
        exact hr ((hm_update_code m k v).2 hne)
      rw [hm_update_eq, hnone]
      exact ih
  | delete m f k ht ih =>
    have hinv := ht.reachable.inv
    by_cases hr : (hm_delete m k).1 = 0
    · rw [if_pos hr]
      by_cases hk : k1 = k
      · subst hk
        rw [(hm_lookup_none_iff _ _).2 (delete_absent hinv k1 hr).1, Function.update_same]
        rfl
      · rw [delete_lookup_frame hinv k hk, Function.update_noteq hk, ih]
    · rw [if_neg hr]
      have hnone : hm_search m k = none := by
        by_contra hne
        exact hr ((hm_delete_code m k).2 hne)
      rw [hm_delete_eq, hnone]
      exact ih

/-! ## Claims -/

/-- C1. Round-trip: on every map reachable from `hm_create` through the public operations,
if `hm_insert` of key `k` with value `v` returns 0, then `hm_search` of `k` right afterwards
returns a slot of the array (not `NULL`) that is Occupied, stores a key equal to `k` and
holds `v`. The insert may have written a fresh slot, reused a tombstone, overwritten an
entry or resized first: the statement covers every path and every allocation outcome. -/
theorem C1_insert_then_search (m : Hashmap) (hm : Reachable m) (k : Key) (v : Nat)
    (calloc_ok strdup_ok : Bool) (h0 : (hm_insert m k v calloc_ok strdup_ok).1 = 0) :
    ∃ p, hm_search (hm_insert m k v calloc_ok strdup_ok).2 k = some p ∧
      p < (hm_insert m k v calloc_ok strdup_ok).2.slots.length ∧
      slot_at (hm_insert m k v calloc_ok strdup_ok).2.slots p = ⟨some k, v, SLOT_OCCUPIED⟩ := by
  rcases hm.inv with hdeg | ⟨hwf, hl⟩
  · rw [hm_insert_degenerate hdeg.1] at h0
    cases h0
  · obtain ⟨p, hp, hslot⟩ := hm_insert_found hwf hl k v calloc_ok strdup_ok h0
    have hwf1 := (hm_insert_wf hwf hl k v calloc_ok strdup_ok).1
    refine ⟨p, hp, ?_, hslot⟩
    rw [hwf1.slots_wf.len]
    exact ((hm_search_iff hwf1 k p).1 hp).1

/-- Witness of C1: inserting the key "a" into a fresh map of 16 slots. -/
theorem C1_insert_then_search_witness :
    (hm_insert map16 [97] 1 true true).1 = 0 ∧
    ∃ p, hm_search (hm_insert map16 [97] 1 true true).2 [97] = some p ∧
      p < (hm_insert map16 [97] 1 true true).2.slots.length ∧
      slot_at (hm_insert map16 [97] 1 true true).2.slots p = ⟨some [97], 1, SLOT_OCCUPIED⟩ :=
  ⟨by decide, C1_insert_then_search map16
    (Reachable.create 16 true true map16 (by decide) (by decide)) [97] 1 true true (by decide)⟩

theorem insert_each_spec :
    ∀ (ops : List (Key × Nat × Bool × Bool)) (m0 m : Hashmap), Inv m0 →
      (ops.map (fun op => op.1)).Nodup → (∀ op, op ∈ ops → hm_search m0 op.1 = none) →
      insert_each m0 ops = some m →
      m.size = m0.size + ops.length ∧
      (∀ op, op ∈ ops → hm_lookup m op.1 = some ⟨some op.1, op.2.1, SLOT_OCCUPIED⟩) ∧
      (∀ k, k ∉ ops.map (fun op => op.1) → hm_lookup m k = hm_lookup m0 k)
  | [], m0, m, _, _, _, h => by
    simp only [insert_each, Option.some.injEq] at h
    subst h
    exact ⟨rfl, fun op hop => absurd hop (List.not_mem_nil _), fun _ _ => rfl⟩
  | op :: rest, m0, m, hinv, hnd, habs, h => by
    unfold insert_each at h
    by_cases hr : (hm_insert m0 op.1 op.2.1 op.2.2.1 op.2.2.2).1 = 0
    · rw [if_pos hr] at h
      simp only [List.map_cons, List.nodup_cons] at hnd
      have hsize := insert_size hinv op.1 op.2.1 op.2.2.1 op.2.2.2 hr
      rw [if_pos (habs op (List.mem_cons_self _ _))] at hsize
      have hself := insert_lookup_self hinv op.1 op.2.1 op.2.2.1 op.2.2.2 hr
      have habs1 : ∀ op1, op1 ∈ rest →
          hm_search (hm_insert m0 op.1 op.2.1 op.2.2.1 op.2.2.2).2 op1.1 = none := by
        intro op1 hop1
        have hne : op1.1 ≠ op.1 := by
          intro heq
          exact hnd.1 (heq ▸ List.mem_map_of_mem (fun op => op.1) hop1)
        rw [← hm_lookup_none_iff, insert_lookup_frame hinv _ _ _ _ hne, hm_lookup_none_iff]
        exact habs op1 (List.mem_cons_of_mem _ hop1)
      obtain ⟨r1, r2, r3⟩ := insert_each_spec rest _ m
        (hinv.insert_inv op.1 op.2.1 op.2.2.1 op.2.2.2) hnd.2 habs1 h
      refine ⟨?_, ?_, ?_⟩
      · rw [r1, hsize, List.length_cons]
        omega
      · intro op1 hop1
        rcases List.mem_cons.1 hop1 with heq | hmem
        · subst heq
          rw [r3 op1.1 hnd.1]
          exact hself
        · exact r2 op1 hmem
      · intro k hk
        simp only [List.map_cons, List.mem_cons, not_or] at hk
        rw [r3 k hk.2]
        exact insert_lookup_frame hinv _ _ _ _ hk.1
    · rw [if_neg hr] at h
      cases h

/-- C2. Resize correctness: for every requested capacity and every list of pairwise distinct
keys with values, if inserting them one by one into the map `hm_create` returned makes every
`hm_insert` return 0 (with any number of resizes on the way), then `size` equals the number
of keys and `hm_search` of every inserted key returns an Occupied slot holding that key and
the value inserted with it. Equivalently, on every reachable map a successful `hm_insert` of
`k` leaves the slot `hm_search` finds for any other key unchanged. -/
theorem C2_inserts_keep_every_entry (n0 : Nat) (buf_ok calloc_ok : Bool) (m0 : Hashmap)
    (ops : List (Key × Nat × Bool × Bool)) (m : Hashmap) (hn0 : n0 < 2 ^ 64)
    (hcreate : hm_create n0 buf_ok calloc_ok = some m0)
    (hdistinct : (ops.map (fun op => op.1)).Nodup)
    (hrun : insert_each m0 ops = some m) :
    m.size = ops.length ∧
    (∀ op, op ∈ ops → hm_lookup m op.1 = some ⟨some op.1, op.2.1, SLOT_OCCUPIED⟩) ∧
    (∀ (m1 : Hashmap) (k : Key) (v : Nat) (c s : Bool) (k1 : Key), Reachable m1 → k1 ≠ k →
      (hm_insert m1 k v c s).1 = 0 →
      hm_lookup (hm_insert m1 k v c s).2 k1 = hm_lookup m1 k1) := by
  obtain ⟨r1, r2, _⟩ := insert_each_spec ops m0 m (hm_create_inv hn0 hcreate) hdistinct
    (fun op _ => hm_create_search hcreate op.1) hrun
  refine ⟨?_, r2, ?_⟩
  · rw [r1, (hm_create_empty hcreate).1]
    omega
  · intro m1 k v c s k1 hm1 hne _
    exact insert_lookup_frame hm1.inv k v c s hne

theorem dec_foldl (l : List Nat) (a : Nat) :
    l.foldl (fun a d => 10 * a + (d - 48)) a = a * 10 ^ l.length + dec_value l := by
  induction l generalizing a with
  | nil => simp [dec_value]
  | cons d t ih =>
    unfold dec_value
    simp only [List.foldl_cons, List.length_cons]
    rw [ih, ih (10 * 0 + (d - 48)), Nat.pow_succ]
    ring

theorem dec_value_digits :
    ∀ (f n : Nat) (acc : List Nat), n < 10 ^ f →
      dec_value (dec_digits f n acc) = n * 10 ^ acc.length + dec_value acc
  | 0, n, acc, h => by
    have : n = 0 := by simpa using h
    subst this
    simp [dec_digits]
  | f + 1, n, acc, h => by
    unfold dec_digits
    by_cases hn : n < 10
    · rw [if_pos hn]
      unfold dec_value
      simp only [List.foldl_cons]
      rw [dec_foldl]
      simp [dec_value]
    · rw [if_neg hn]
      have hdiv : n / 10 < 10 ^ f := by
        rw [Nat.div_lt_iff_lt_mul (by decide)]
        rw [Nat.pow_succ] at h
        exact h
      rw [dec_value_digits f (n / 10) _ hdiv]
      have h1 : dec_value ((48 + n % 10) :: acc) = (n % 10) * 10 ^ acc.length + dec_value acc := by
        unfold dec_value
        simp only [List.foldl_cons]
        rw [dec_foldl]
        simp [dec_value]
      rw [h1, List.length_cons, Nat.pow_succ]
      have h2 := Nat.div_add_mod n 10
      calc n / 10 * (10 ^ acc.length * 10) + (n % 10 * 10 ^ acc.length + dec_value acc)
          = (10 * (n / 10) + n % 10) * 10 ^ acc.length + dec_value acc := by ring
        _ = n * 10 ^ acc.length + dec_value acc := by rw [h2]

theorem thing_injective {i j : Nat} (hi : i < 10 ^ 20) (hj : j < 10 ^ 20)
    (h : thing i = thing j) : i = j := by
  unfold thing at h
  have h1 := List.append_cancel_left h
  have h2 := congrArg dec_value h1
  rw [dec_value_digits 20 i [] hi, dec_value_digits 20 j [] hj] at h2
  simpa [dec_value] using h2

theorem things_nodup (n : Nat) (hn : n ≤ 10 ^ 20) :
    ((things n).map (fun op => op.1)).Nodup := by
  unfold things
  rw [List.map_map]
  apply List.Nodup.map_on _ (List.nodup_range n)
  intro i hi j hj hij
  rw [List.mem_range] at hi hj
  exact thing_injective (by omega) (by omega) hij

theorem needs_resize_fresh {m : Hashmap} (h : needs_resize m = true) (hd : m.del_count = 0)
    (hs : m.size + 1 < 2 ^ 64) : 3 * m.capacity < 4 * (m.size + 1) := by
  unfold needs_resize at h
  rw [Nat.mod_eq_of_lt hs, hd] at h
  simp only [Bool.or_eq_true, decide_eq_true_eq, Bool.and_eq_true] at h
  omega

theorem Prepared.fresh {m m0 : Hashmap} {c : Bool} (hp : Prepared m c m0) (h : Fresh m) :
    NoDeleted m0.slots ∧ m0.del_count = 0 ∧
      (m0.capacity = m.capacity ∨
        (m0.capacity = 2 * m.capacity ∧ 3 * m.capacity < 4 * (m.size + 1))) := by
  rcases hp.origin with ⟨_, rfl⟩ | ⟨hn, hr0, rfl⟩
  · exact ⟨h.nodel, h.del0, Or.inl rfl⟩
  · obtain ⟨_, r2, _, r4, r5, _, _⟩ := hm_resize_ok h.wf c hr0
    refine ⟨r5, r4, Or.inr ⟨r2, needs_resize_fresh hn h.del0 ?_⟩⟩
    have h1 := h.wf.size_le
    have h4 := h.wf.slots_wf.cap_le
    have hdiv : SIZE_MAX / sizeof_Slot = 768614336404564650 := by decide
    rw [hdiv] at h4
    omega

/-- In an insert-only run with memory available every insert succeeds. -/
theorem hm_insert_fresh {m : Hashmap} (h : Fresh m)
    (hcap : 2 * m.capacity ≤ SIZE_MAX / sizeof_Slot) (k : Key) (v : Nat) :
    (hm_insert m k v true true).1 = 0 ∧ Fresh (hm_insert m k v true true).2 := by
  have hwl := hm_insert_wf h.wf h.load k v true true
  have hcb := h.cap_bound
  rcases hm_insert_outcome h.wf h.load k v true true with ⟨_, h2, _⟩ | ⟨m0, p, hp, hs, heq⟩ |
    ⟨m0, jq, hp, hs, hjq, hpath, hfree, heq⟩
  · exfalso
    apply h2
    apply hm_resize_succeeds h.wf
    unfold make_slots
    rw [if_neg (fun hbig => by omega)]
    simp
  · obtain ⟨f1, f2, f3⟩ := hp.fresh h
    have hsz := hp.size_eq
    rw [heq] at hwl ⊢
    refine ⟨rfl, hwl.1, hwl.2, ?_, f2, ?_⟩
    · intro q
      show (slot_at (m0.slots.set p { slot_at m0.slots p with value := v }) q).state ≠ _
      by_cases hq : p < m0.slots.length
      · by_cases hqp : q = p
        · rw [hqp, slot_at_set_eq _ hq]
          exact f1 p
        · rw [slot_at_set_ne _ hqp]
          exact f1 q
      · rw [List.set_eq_of_length_le (by omega)]
        exact f1 q
    · show m0.capacity ≤ max 16 (4 * m0.size + 4)
      rw [hsz]
      omega
  · obtain ⟨f1, f2, f3⟩ := hp.fresh h
    have hsz := hp.size_eq
    have hql : pos m0.capacity (hash_cstr_fnv1a k % m0.capacity) jq < m0.slots.length := by
      rw [hp.wf.slots_wf.len]; exact pos_lt hp.wf.slots_wf.cap_pos _ _
    simp only [if_true, f1 _, if_false, f2] at heq
    rw [heq] at hwl ⊢
    refine ⟨rfl, hwl.1, hwl.2, ?_, rfl, ?_⟩
    · intro q
      show (slot_at (m0.slots.set _ _) q).state ≠ _
      by_cases hqp : q = pos m0.capacity (hash_cstr_fnv1a k % m0.capacity) jq
      · rw [hqp, slot_at_set_eq _ hql]
        exact fun hx => by cases hx
      · rw [slot_at_set_ne _ hqp]
        exact f1 q
    · show m0.capacity ≤ max 16 (4 * (m0.size + 1) + 4)
      rw [hsz]
      omega

theorem insert_each_succeeds :
    ∀ (ops : List (Key × Nat × Bool × Bool)) (m0 : Hashmap), Fresh m0 →
      (∀ op, op ∈ ops → op.2.2 = (true, true)) →
      8 * (m0.size + ops.length + 1) ≤ SIZE_MAX / sizeof_Slot →
      ∃ m, insert_each m0 ops = some m
  | [], m0, _, _, _ => ⟨m0, rfl⟩
  | op :: rest, m0, h, hok, hbound => by
    have hop := hok op (List.mem_cons_self _ _)
    have hc : op.2.2.1 = true := by rw [hop]
    have hs : op.2.2.2 = true := by rw [hop]
    have hdiv : SIZE_MAX / sizeof_Slot = 768614336404564650 := by decide
    have hcb := h.cap_bound
    rw [List.length_cons, hdiv] at hbound
    obtain ⟨h0, hf⟩ := hm_insert_fresh h (by rw [hdiv]; omega) op.1 op.2.1
    unfold insert_each
    rw [hc, hs, if_pos h0]
    apply insert_each_succeeds rest _ hf (fun op1 hop1 => hok op1 (List.mem_cons_of_mem _ hop1))
    have hsz := insert_size (Or.inr ⟨h.wf, h.load⟩) op.1 op.2.1 true true h0
    rw [hdiv]
    split at hsz <;> omega

theorem map16_fresh : Fresh map16 := by
  have hinv : Inv map16 := hm_create_inv (by decide : 16 < 2 ^ 64)
    (by decide : hm_create 16 true true = some map16)
  rcases hinv with h0 | ⟨hwf, hl⟩
  · exact absurd h0.1 (by decide)
  · refine ⟨hwf, hl, ?_, rfl, by decide⟩
    intro p
    show (slot_at (List.replicate 16 zero_slot) p).state ≠ _
    rw [slot_at_replicate]
    decide

/-- Witness of C2: the 2000 keys `thing_0` .. `thing_1999` inserted into `hm_create(16)`,
every allocation succeeding: every call returns 0, the size is 2000 and `thing_i` is found
with value `i`. -/
theorem C2_inserts_keep_every_entry_witness :
    ∃ m, insert_each map16 (things 2000) = some m ∧ m.size = 2000 ∧
      ∀ i, i < 2000 → hm_lookup m (thing i) = some ⟨some (thing i), i, SLOT_OCCUPIED⟩ := by
  obtain ⟨m, hm⟩ := insert_each_succeeds (things 2000) map16 map16_fresh
    (fun op hop => by
      unfold things at hop
      rw [List.mem_map] at hop
      obtain ⟨i, _, rfl⟩ := hop
      rfl)
    (by simp only [things, List.length_map, List.length_range]; decide)
  have h := C2_inserts_keep_every_entry 16 true true map16 (things 2000) m (by decide)
    (by decide) (things_nodup 2000 (by decide)) hm
  refine ⟨m, hm, ?_, ?_⟩
  · rw [h.1]
    simp [things]
  · intro i hi
    exact h.2.1 (thing i, i, true, true)
      (List.mem_map.2 ⟨i, List.mem_range.2 hi, rfl⟩)

/-- Delete of `k` leaves the result of `hm_search` for any other key as it was. -/
theorem delete_search_frame {m : Hashmap} (hm : Inv m) (k : Key) {k1 : Key} (hne : k1 ≠ k) :
    hm_search (hm_delete m k).2 k1 = hm_search m k1 := by
  rcases hm with h0 | ⟨hwf, _⟩
  · rw [hm_delete_eq, hm_search_degenerate h0.1]
  · cases hs : hm_search m k with
    | none => rw [hm_delete_eq, hs]
    | some p =>
      obtain ⟨heq, _, hwf1⟩ := hm_delete_found hwf hs
      have hp := (hm_search_iff hwf k p).1 hs
      have hpl : p < m.slots.length := by rw [hwf.slots_wf.len]; exact hp.1
      rw [heq]
      apply option_ext_iff
      intro q
      rw [hm_search_iff hwf1, hm_search_iff hwf]
      show q < m.capacity ∧ holds (m.slots.set p ⟨none, 0, SLOT_DELETED⟩) q k1 ↔ _
      rw [holds_set _ hpl]
      constructor
      · rintro ⟨hq, ⟨_, h1, _⟩ | ⟨_, h1⟩⟩
        · cases h1
        · exact ⟨hq, h1⟩
      · rintro ⟨hq, h1⟩
        refine ⟨hq, Or.inr ⟨?_, h1⟩⟩
        intro hqp
        subst hqp
        exact hne (holds_key_eq h1 hp.2)

/-- C3. Delete-then-absent: on every reachable map and for every key `k`, if `hm_delete`
returns 0 then `hm_search` of `k` right afterwards returns `NULL`, `size` is exactly one
less than before the delete, and `del_count` is the old one incremented as a `size_t`
(`map->del_count++`): one more modulo `2 ^ 64`, so exactly one more unless the counter
stood at `SIZE_MAX`. -/
theorem C3_delete_then_absent (m : Hashmap) (hm : Reachable m) (k : Key)
    (h0 : (hm_delete m k).1 = 0) :
    hm_search (hm_delete m k).2 k = none ∧
    (hm_delete m k).2.size + 1 = m.size ∧
    (hm_delete m k).2.del_count = (m.del_count + 1) % 2 ^ 64 ∧
    (m.del_count < SIZE_MAX → (hm_delete m k).2.del_count = m.del_count + 1) := by
  obtain ⟨h1, h2, h3, _⟩ := delete_absent hm.inv k h0
  refine ⟨h1, h2, h3, fun hlt => ?_⟩
  rw [h3]
  apply Nat.mod_eq_of_lt
  unfold SIZE_MAX at hlt
  omega

/-- Witness of C3: deleting "a" from `aq_map`, which holds "a" and "q": the call returns 0,
"a" is no longer found, the size goes from 2 to 1 and `del_count` from 0 to 1. -/
theorem C3_delete_then_absent_witness :
    (hm_delete aq_map [97]).1 = 0 ∧ aq_map.size = 2 ∧ aq_map.del_count = 0 ∧
    hm_search (hm_delete aq_map [97]).2 [97] = none ∧
    (hm_delete aq_map [97]).2.size + 1 = aq_map.size ∧
    (hm_delete aq_map [97]).2.del_count = (aq_map.del_count + 1) % 2 ^ 64 ∧
    (aq_map.del_count < SIZE_MAX → (hm_delete aq_map [97]).2.del_count = aq_map.del_count + 1) :=
  ⟨by decide, by decide, by decide, C3_delete_then_absent aq_map
    (Reachable.insert _ _ _ _ _ (Reachable.insert _ _ _ _ _
      (Reachable.create 16 true true map16 (by decide) (by decide))))
    [97] (by decide)⟩

/-- C4. Deletion does not break the probe chains of other keys: on every reachable map and
for all keys `k1 ≠ k`, `hm_search` of `k1` returns the same slot after `hm_delete` of `k` as
before it (found or not found), and that slot holds what it held; a key whose probe path
passes through the slot that became Deleted is therefore still found. -/
theorem C4_delete_keeps_other_keys (m : Hashmap) (hm : Reachable m) (k k1 : Key)
    (hne : k1 ≠ k) :
    hm_search (hm_delete m k).2 k1 = hm_search m k1 ∧
    hm_lookup (hm_delete m k).2 k1 = hm_lookup m k1 :=
  ⟨delete_search_frame hm.inv k hne, delete_lookup_frame hm.inv k hne⟩

/-- Witness of C4: "q" was stored one step past the home slot it shares with "a"; after
"a" is deleted the search for "q" walks over the tombstone and still returns slot 7. -/
theorem C4_delete_keeps_other_keys_witness :
    hash_cstr_fnv1a [97] % 16 = 6 ∧ hash_cstr_fnv1a [113] % 16 = 6 ∧
    (hm_delete aq_map [97]).1 = 0 ∧
    (slot_at (hm_delete aq_map [97]).2.slots 6).state = SLOT_DELETED ∧
    hm_search aq_map [113] = some 7 ∧
    hm_search (hm_delete aq_map [97]).2 [113] = hm_search aq_map [113] ∧
    hm_lookup (hm_delete aq_map [97]).2 [113] = hm_lookup aq_map [113] :=
  ⟨by decide, by decide, by decide, by decide, by decide,
    C4_delete_keeps_other_keys aq_map
      (Reachable.insert _ _ _ _ _ (Reachable.insert _ _ _ _ _
        (Reachable.create 16 true true map16 (by decide) (by decide))))
      [97] [113] (by decide)⟩

/-- Counterexample to C5 as stated: `abc4_map` holds 3 keys in 4 slots, so an insert of the
present key "a" first resizes; when the new array cannot be allocated the call returns 1,
not 0, and "a" keeps its old value. -/
theorem C5_overwrite_without_memory :
    Reachable abc4_map ∧ hm_value abc4_map [97] = some 1 ∧
    (hm_insert abc4_map [97] 5 false true).1 = 1 ∧
    hm_value (hm_insert abc4_map [97] 5 false true).2 [97] = some 1 := by
  refine ⟨?_, by decide, by decide, by decide⟩
  exact Reachable.insert _ _ _ _ _ (Reachable.insert _ _ _ _ _ (Reachable.insert _ _ _ _ _
    (Reachable.create 4 true true map4 (by decide) (by decide))))

theorem hm_resize_no_memory {m : Hashmap} (h : WF m) (c : Bool)
    (hmk : make_slots (2 * m.capacity) c = none) : (hm_resize m c).1 ≠ 0 := by
  have hle := h.slots_wf.cap_le
  have hdiv : SIZE_MAX / sizeof_Slot = 768614336404564650 := by decide
  rw [hdiv] at hle
  have hcap2 : (m.capacity * 2) % 2 ^ 64 = 2 * m.capacity := by
    rw [Nat.mod_eq_of_lt (by omega)]
    omega
  unfold hm_resize
  simp only [hcap2, hmk]
  split
  · exact fun hx => by cases hx
  · exact fun hx => by cases hx

/-- C5 (amended). Overwrite-on-insert: on every reachable map in which `k` maps to `v1`,
`hm_insert` of `k` with `v2` returns 0, leaves `size` unchanged, makes `hm_search` of `k`
return an Occupied slot holding `k` and `v2`, and leaves `k` in one slot only, also when the
call resizes first; the one exception is a call whose resize test fires while the new slot
array cannot be allocated: that call returns 1 and leaves the map as it was. -/
theorem C5_overwrite_on_insert (m : Hashmap) (hm : Reachable m) (k : Key) (v1 v2 : Nat)
    (calloc_ok strdup_ok : Bool) (hpresent : hm_value m k = some v1) :
    ((needs_resize m = true → make_slots (2 * m.capacity) calloc_ok ≠ none) →
      (hm_insert m k v2 calloc_ok strdup_ok).1 = 0 ∧
      (hm_insert m k v2 calloc_ok strdup_ok).2.size = m.size ∧
      hm_lookup (hm_insert m k v2 calloc_ok strdup_ok).2 k
        = some ⟨some k, v2, SLOT_OCCUPIED⟩ ∧
      ∀ p q, p < (hm_insert m k v2 calloc_ok strdup_ok).2.slots.length →
        q < (hm_insert m k v2 calloc_ok strdup_ok).2.slots.length →
        holds (hm_insert m k v2 calloc_ok strdup_ok).2.slots p k →
        holds (hm_insert m k v2 calloc_ok strdup_ok).2.slots q k → p = q) ∧
    (needs_resize m = true → make_slots (2 * m.capacity) calloc_ok = none →
      hm_insert m k v2 calloc_ok strdup_ok = (1, m)) := by
  have hsome : hm_search m k ≠ none := by
    intro hnone
    rw [(hm_value_none_iff m k).2 hnone] at hpresent
    cases hpresent
  rcases hm.inv with hdeg | ⟨hwf, hl⟩
  · exact absurd (hm_search_degenerate hdeg.1 k) hsome
  · have hwf1 := (hm_insert_wf hwf hl k v2 calloc_ok strdup_ok).1
    constructor
    · intro hmem
      have h0 : (hm_insert m k v2 calloc_ok strdup_ok).1 = 0 := by
        rcases hm_insert_outcome hwf hl k v2 calloc_ok strdup_ok with ⟨h1, h2, _⟩ |
          ⟨m0, p, _, _, heq⟩ | ⟨m0, jq, hp, hs, _, _, _, _⟩
        · exact absurd (hm_resize_succeeds hwf calloc_ok (hmem h1)) h2
        · rw [heq]
        · exact absurd ((hp.search_none_iff hwf k).1 hs) hsome
      refine ⟨h0, ?_, insert_lookup_self hm.inv k v2 calloc_ok strdup_ok h0, ?_⟩
      · rw [hm_insert_size hwf hl k v2 calloc_ok strdup_ok h0, if_neg hsome]
      · intro p q hp hq
        rw [hwf1.slots_wf.len] at hp hq
        exact hwf1.slots_wf.uniq p q k hp hq
    · intro hn hmk
      rcases hm_insert_outcome hwf hl k v2 calloc_ok strdup_ok with ⟨_, _, h3⟩ |
        ⟨m0, p, hp, _, _⟩ | ⟨m0, jq, hp, _, _, _, _, _⟩
      · exact h3
      · rcases hp.origin with ⟨hf, _⟩ | ⟨_, hr0, _⟩
        · rw [hn] at hf
          cases hf
        · exact absurd hr0 (hm_resize_no_memory hwf calloc_ok hmk)
      · rcases hp.origin with ⟨hf, _⟩ | ⟨_, hr0, _⟩
        · rw [hn] at hf
          cases hf
        · exact absurd hr0 (hm_resize_no_memory hwf calloc_ok hmk)

/-- Witness of C5: overwriting "a" in `abc4_map` with memory available resizes to 8 slots,
returns 0, keeps the size 3 and binds "a" to the new value. -/
theorem C5_overwrite_on_insert_witness :
    hm_value abc4_map [97] = some 1 ∧ needs_resize abc4_map = true ∧
    (hm_insert abc4_map [97] 5 true true).2.capacity = 8 ∧
    (hm_insert abc4_map [97] 5 true true).1 = 0 ∧
    (hm_insert abc4_map [97] 5 true true).2.size = abc4_map.size ∧
    hm_lookup (hm_insert abc4_map [97] 5 true true).2 [97]
      = some ⟨some [97], 5, SLOT_OCCUPIED⟩ :=
  have h := (C5_overwrite_on_insert abc4_map
    (Reachable.insert _ _ _ _ _ (Reachable.insert _ _ _ _ _ (Reachable.insert _ _ _ _ _
      (Reachable.create 4 true true map4 (by decide) (by decide)))))
    [97] 1 5 true true (by decide)).1 (fun _ => by decide)
  ⟨by decide, by decide, by decide, h.1, h.2.1, h.2.2.1⟩

/-- The slot-level reading of "stored in an Occupied slot", for slots of the array itself. -/
theorem Inv.search_iff {m : Hashmap} (hm : Inv m) (k : Key) (p : Nat) :
    hm_search m k = some p ↔ p < m.slots.length ∧ holds m.slots p k := by
  rcases hm with hdeg | ⟨hwf, _⟩
  · rw [hm_search_degenerate hdeg.1, hdeg.2.1]
    simp
  · rw [hm_search_iff hwf, hwf.slots_wf.len]

/-- C6. Search is exact: on every reachable map and for every key `k`, `hm_search` returns
slot `p` exactly when `p` is a slot of the array that is Occupied and stores a key equal to
`k` (so it returns a slot if and only if some such slot exists); and for a key that the
history of the map never inserted, or deleted without inserting it again, it returns
`NULL`. -/
theorem C6_search_exact (m : Hashmap) (hm : Reachable m) (k : Key) :
    (∀ p, hm_search m k = some p ↔
      p < m.slots.length ∧ (slot_at m.slots p).state = SLOT_OCCUPIED ∧
        (slot_at m.slots p).key = some k) ∧
    ((hm_search m k ≠ none) ↔
      ∃ p, p < m.slots.length ∧ (slot_at m.slots p).state = SLOT_OCCUPIED ∧
        (slot_at m.slots p).key = some k) ∧
    (∀ f, Tracks m f → f k = none → hm_search m k = none) := by
  refine ⟨fun p => hm.inv.search_iff k p, ?_, ?_⟩
  · constructor
    · intro hne
      obtain ⟨p, hp⟩ := Option.ne_none_iff_exists'.1 hne
      exact ⟨p, (hm.inv.search_iff k p).1 hp⟩
    · rintro ⟨p, hp⟩ hnone
      rw [(hm.inv.search_iff k p).2 hp] at hnone
      cases hnone
  · intro f hf hk
    rw [← hm_lookup_none_iff, hf.lookup k, hk]
    rfl

/-- Witness of C6: after "alice", "bob" and "carol" are inserted, the key "nope", which the
history never bound, is not found, and "bob" is found in the one slot that stores it. -/
theorem C6_search_exact_witness :
    hm_search abc_names_map [110, 111, 112, 101] = none ∧
    hm_search abc_names_map [98, 111, 98] = some 2 ∧
    (2 < abc_names_map.slots.length ∧ (slot_at abc_names_map.slots 2).state = SLOT_OCCUPIED ∧
      (slot_at abc_names_map.slots 2).key = some [98, 111, 98]) :=
  have hreach : Reachable abc_names_map :=
    Reachable.insert _ _ _ _ _ (Reachable.insert _ _ _ _ _ (Reachable.insert _ _ _ _ _
      (Reachable.create 16 true true map16 (by decide) (by decide))))
  ⟨by decide, by decide,
    ((C6_search_exact abc_names_map hreach [98, 111, 98]).1 2).1 (by decide)⟩

/-- C7. Update of a present key: on every reachable map, for every key `k` stored in an
Occupied slot and every value `v`, `hm_update` returns 0; afterwards `hm_search` of `k`
returns an Occupied slot holding `k` and `v`; `size`, `del_count`, `capacity`, the length of
the array, the state and key of every slot, and the slot found for every other key are
unchanged. -/
theorem C7_update_present (m : Hashmap) (hm : Reachable m) (k : Key) (v : Nat)
    (hpresent : ∃ p, p < m.slots.length ∧ (slot_at m.slots p).state = SLOT_OCCUPIED ∧
      (slot_at m.slots p).key = some k) :
    (hm_update m k v).1 = 0 ∧
    hm_lookup (hm_update m k v).2 k = some ⟨some k, v, SLOT_OCCUPIED⟩ ∧
    (hm_update m k v).2.size = m.size ∧
    (hm_update m k v).2.del_count = m.del_count ∧
    (hm_update m k v).2.capacity = m.capacity ∧
    (hm_update m k v).2.slots.length = m.slots.length ∧
    (∀ p, (slot_at (hm_update m k v).2.slots p).state = (slot_at m.slots p).state ∧
      (slot_at (hm_update m k v).2.slots p).key = (slot_at m.slots p).key) ∧
    (∀ k1, k1 ≠ k → hm_lookup (hm_update m k v).2 k1 = hm_lookup m k1) := by
  obtain ⟨p, hp⟩ := hpresent
  have hs := (hm.inv.search_iff k p).2 hp
  have hcode : (hm_update m k v).1 = 0 := (hm_update_code m k v).2 (by rw [hs]; simp)
  refine ⟨hcode, (update_lookup hm.inv k v).2 hcode, ?_, ?_, ?_, ?_, ?_,
    (update_lookup hm.inv k v).1⟩
  · rw [hm_update_eq, hs]
  · rw [hm_update_eq, hs]
  · rw [hm_update_eq, hs]
  · rw [hm_update_eq, hs]
    exact List.length_set _ _ _
  · intro q
    rw [hm_update_eq, hs]
    show (slot_at (m.slots.set p { slot_at m.slots p with value := v }) q).state = _ ∧
      (slot_at (m.slots.set p { slot_at m.slots p with value := v }) q).key = _
    by_cases hqp : q = p
    · rw [hqp, slot_at_set_eq _ hp.1]
      exact ⟨rfl, rfl⟩
    · rw [slot_at_set_ne _ hqp]
      exact ⟨rfl, rfl⟩

/-- Witness of C7: `test_update` on the map holding "a" and "q": "a" gets the value 42 and
"q" keeps its slot. -/
theorem C7_update_present_witness :
    (hm_update aq_map [97] 42).1 = 0 ∧
    hm_lookup (hm_update aq_map [97] 42).2 [97] = some ⟨some [97], 42, SLOT_OCCUPIED⟩ ∧
    (hm_update aq_map [97] 42).2.size = aq_map.size ∧
    hm_lookup (hm_update aq_map [97] 42).2 [113] = hm_lookup aq_map [113] :=
  have h := C7_update_present aq_map
    (Reachable.insert _ _ _ _ _ (Reachable.insert _ _ _ _ _
      (Reachable.create 16 true true map16 (by decide) (by decide))))
    [97] 42 ⟨6, by decide, by decide, by decide⟩
  ⟨h.1, h.2.1, h.2.2.1, h.2.2.2.2.2.2.2 [113] (by decide)⟩

/-- C8. Update-only: on every reachable map, for every key `k` that no Occupied slot
stores, `hm_update` returns -1 and leaves the whole map as it was, so `k` is not inserted
(`hm_search` still returns `NULL`) and `size` is unchanged. -/
theorem C8_update_absent (m : Hashmap) (hm : Reachable m) (k : Key) (v : Nat)
    (habsent : ∀ p, p < m.slots.length →
      ¬ ((slot_at m.slots p).state = SLOT_OCCUPIED ∧ (slot_at m.slots p).key = some k)) :
    hm_update m k v = (-1, m) ∧ hm_search (hm_update m k v).2 k = none ∧
      (hm_update m k v).2.size = m.size := by
  have hs : hm_search m k = none := by
    cases hsk : hm_search m k with
    | none => rfl
    | some p =>
      have := (hm.inv.search_iff k p).1 hsk
      exact absurd this.2 (habsent p this.1)
  have heq : hm_update m k v = (-1, m) := by rw [hm_update_eq, hs]
  rw [heq]
  exact ⟨rfl, hs, rfl⟩

/-- Witness of C8: updating the absent key "b" in the map holding "a" and "q". -/
theorem C8_update_absent_witness :
    hm_update aq_map [98] 7 = (-1, aq_map) ∧ hm_search (hm_update aq_map [98] 7).2 [98] = none ∧
      (hm_update aq_map [98] 7).2.size = aq_map.size :=
  C8_update_absent aq_map
    (Reachable.insert _ _ _ _ _ (Reachable.insert _ _ _ _ _
      (Reachable.create 16 true true map16 (by decide) (by decide))))
    [98] 7 (by decide)

/-- C9. Tombstone reuse accounting: on every reachable map, for every key `k` and every
absent key `k1 ≠ k`, if `hm_delete` of `k` returns 0 and the `hm_insert` of `k1` with `v`
that follows returns 0, then `size` is what it was before the delete, `k1` is found in an
Occupied slot with `v`, `k` is not found, and every other key is found (or not) in a slot
holding what it held before. -/
theorem C9_delete_then_insert (m : Hashmap) (hm : Reachable m) (k k1 : Key) (v : Nat)
    (calloc_ok strdup_ok : Bool) (hne : k1 ≠ k) (habsent : hm_search m k1 = none)
    (hdel : (hm_delete m k).1 = 0)
    (hins : (hm_insert (hm_delete m k).2 k1 v calloc_ok strdup_ok).1 = 0) :
    (hm_insert (hm_delete m k).2 k1 v calloc_ok strdup_ok).2.size = m.size ∧
    hm_lookup (hm_insert (hm_delete m k).2 k1 v calloc_ok strdup_ok).2 k1
      = some ⟨some k1, v, SLOT_OCCUPIED⟩ ∧
    hm_lookup (hm_insert (hm_delete m k).2 k1 v calloc_ok strdup_ok).2 k = none ∧
    (∀ k2, k2 ≠ k → k2 ≠ k1 →
      hm_lookup (hm_insert (hm_delete m k).2 k1 v calloc_ok strdup_ok).2 k2
        = hm_lookup m k2) := by
  have hinv := hm.inv
  have hinv1 := hinv.delete_inv k
  obtain ⟨d1, d2, _, _⟩ := delete_absent hinv k hdel
  have habs1 : hm_search (hm_delete m k).2 k1 = none := by
    rw [delete_search_frame hinv k hne]
    exact habsent
  refine ⟨?_, insert_lookup_self hinv1 k1 v calloc_ok strdup_ok hins, ?_, ?_⟩
  · rw [insert_size hinv1 k1 v calloc_ok strdup_ok hins, if_pos habs1]
    exact d2
  · rw [insert_lookup_frame hinv1 k1 v calloc_ok strdup_ok (Ne.symm hne), hm_lookup_none_iff]
    exact d1
  · intro k2 h2 h21
    rw [insert_lookup_frame hinv1 k1 v calloc_ok strdup_ok h21]
    exact delete_lookup_frame hinv k h2

/-- Witness of C9: `test_tombstone_reuse`. After a:1, b:2, c:3 the size is 3; deleting "b"
gives size 2; inserting d:4 gives size 3 again, with a=1, c=3, d=4 and "b" not found. -/
theorem C9_delete_then_insert_witness :
    abc_map.size = 3 ∧ (hm_delete abc_map [98]).1 = 0 ∧ (hm_delete abc_map [98]).2.size = 2 ∧
    (hm_insert (hm_delete abc_map [98]).2 [100] 4 true true).1 = 0 ∧
    (hm_insert (hm_delete abc_map [98]).2 [100] 4 true true).2.size = 3 ∧
    hm_value (hm_insert (hm_delete abc_map [98]).2 [100] 4 true true).2 [97] = some 1 ∧
    hm_value (hm_insert (hm_delete abc_map [98]).2 [100] 4 true true).2 [99] = some 3 ∧
    hm_value (hm_insert (hm_delete abc_map [98]).2 [100] 4 true true).2 [100] = some 4 ∧
    hm_lookup (hm_insert (hm_delete abc_map [98]).2 [100] 4 true true).2 [98] = none :=
  have h := C9_delete_then_insert abc_map
    (Reachable.insert _ _ _ _ _ (Reachable.insert _ _ _ _ _ (Reachable.insert _ _ _ _ _
      (Reachable.create 16 true true map16 (by decide) (by decide)))))
    [98] [100] 4 true true (by decide) (by decide) (by decide) (by decide)
  ⟨by decide, by decide, by decide, by decide, h.1, by decide, by decide, by decide, h.2.2.1⟩

/-- C11 counterexample. For the request `2 ^ 63 + 1` no power of two of 64 bits is large
enough: `next_pow2` wraps to 0, which is neither a power of two nor at least the request,
and `hm_create` returns a map of capacity 0 when `calloc(0, ...)` returns a pointer. -/
theorem C11_next_pow2_wraps :
    next_pow2 (2 ^ 63 + 1) = 0 ∧ (2 ^ 63 + 1 < 2 ^ 64) ∧
    hm_create (2 ^ 63 + 1) true true = some ⟨[], 0, 0, 0⟩ := by
  refine ⟨by decide, by decide, by decide⟩

/-- C11 (amended). Capacity normalization: for every request `n ≤ 2 ^ 63`, `next_pow2 n` is
a power of two, is at least `n` and is below every other power of two that is at least `n`;
`next_pow2 0 = 1`; and whenever `hm_create n` returns a map, its capacity is that value (a
power of two, at least 1), its size and `del_count` are 0, and its array has `capacity`
slots, every one Empty with no key and no value. -/
theorem C11_capacity_normalization (n : Nat) (hn : n ≤ 2 ^ 63) :
    (∃ e, next_pow2 n = 2 ^ e) ∧ n ≤ next_pow2 n ∧ 1 ≤ next_pow2 n ∧
    (∀ e, n ≤ 2 ^ e → next_pow2 n ≤ 2 ^ e) ∧
    next_pow2 0 = 1 ∧
    (∀ (buf_ok calloc_ok : Bool) (m : Hashmap), hm_create n buf_ok calloc_ok = some m →
      m.capacity = next_pow2 n ∧ m.size = 0 ∧ m.del_count = 0 ∧
      m.slots.length = m.capacity ∧ ∀ p, slot_at m.slots p = zero_slot) := by
  have hcreate : ∀ (buf_ok calloc_ok : Bool) (m : Hashmap),
      hm_create n buf_ok calloc_ok = some m →
      m.capacity = next_pow2 n ∧ m.size = 0 ∧ m.del_count = 0 ∧
      m.slots.length = m.capacity ∧ ∀ p, slot_at m.slots p = zero_slot := by
    intro b c m hm
    obtain ⟨h1, h2, h3, h4⟩ := hm_create_empty hm
    refine ⟨h3, h1, h2, by rw [h4, h3, List.length_replicate], ?_⟩
    intro p
    rw [h4]
    exact slot_at_replicate _ _
  by_cases h0 : n = 0
  · subst h0
    refine ⟨⟨0, rfl⟩, by decide, by decide, ?_, rfl, hcreate⟩
    intro e _
    show 1 ≤ 2 ^ e
    exact Nat.pow_pos (by decide)
  · have hsz : Nat.size (n - 1) ≤ 63 := Nat.size_le.2 (by omega)
    have hlt : 2 ^ Nat.size (n - 1) < 2 ^ 64 :=
      Nat.pow_lt_pow_right (by decide) (by omega)
    have heq : next_pow2 n = 2 ^ Nat.size (n - 1) := by
      rw [next_pow2_eq h0 (by omega), Nat.mod_eq_of_lt hlt]
    have hself := Nat.lt_size_self (n - 1)
    refine ⟨⟨_, heq⟩, by rw [heq]; omega, by rw [heq]; exact Nat.pow_pos (by decide), ?_,
      rfl, hcreate⟩
    intro e he
    rw [heq]
    apply Nat.pow_le_pow_right (by decide)
    exact Nat.size_le.2 (by omega)

/-- Witness of C11: the request 200 of `main.c` gives 256 slots. -/
theorem C11_capacity_normalization_witness :
    (200 ≤ 2 ^ 63) ∧ next_pow2 200 = 256 ∧
    (∀ (buf_ok calloc_ok : Bool) (m : Hashmap), hm_create 200 buf_ok calloc_ok = some m →
      m.capacity = next_pow2 200 ∧ m.size = 0 ∧ m.del_count = 0 ∧
      m.slots.length = m.capacity ∧ ∀ p, slot_at m.slots p = zero_slot) :=
  ⟨by decide, by decide, (C11_capacity_normalization 200 (by decide)).2.2.2.2.2⟩

/-- C12 (code bug). The reference 64-bit FNV-1a hash starts from the offset basis
14695981039346656037; `hash_cstr_fnv1a` starts from 1469598103934665603, the same digits
without the last one, so already the empty key hashes to another value, and so does "a". -/
theorem C12_hash_offset_basis_differs :
    hash_cstr_fnv1a [] = 1469598103934665603 ∧
    fnv1a_64_reference [] = 14695981039346656037 ∧
    fnv1a_64_reference [] = 0xcbf29ce484222325 ∧
    hash_cstr_fnv1a [] ≠ fnv1a_64_reference [] ∧
    hash_cstr_fnv1a [97] = 4953267810257967366 ∧
    fnv1a_64_reference [97] = 12638187200555641996 ∧
    hash_cstr_fnv1a [97] ≠ fnv1a_64_reference [97] := by
  refine ⟨by decide, by decide, by decide, by decide, by decide, by decide, by decide⟩

/-- C13 (code bug). The counter and slot invariant holds on `tomb_map`, but the call
`hm_insert("a")` whose key copy fails returns 2 and breaks it: `del_count` is 0 afterwards
while the array still has its one Deleted slot. -/
theorem C13_counter_inv_broken_by_failed_insert :
    Reachable tomb_map ∧ counter_inv tomb_map ∧
    (hm_insert tomb_map [97] 1 true false).1 = 2 ∧
    (hm_insert tomb_map [97] 1 true false).2.del_count = 0 ∧
    count_state SLOT_DELETED (hm_insert tomb_map [97] 1 true false).2.slots = 1 ∧
    ¬ counter_inv (hm_insert tomb_map [97] 1 true false).2 := by
  refine ⟨?_, ?_, by decide, by decide, by decide, ?_⟩
  · exact Reachable.delete _ _ (Reachable.insert _ _ _ _ _
      (Reachable.create 16 true true map16 (by decide) (by decide)))
  · unfold counter_inv
    decide
  · unfold counter_inv
    decide

/-- C14 (code bug). On `tomb_map` the key "a" is absent, no resize is due and the slot the
probe chooses is the tombstone in slot 6. When the key copy fails, `hm_insert` returns 2 and
leaves the slots and `size` untouched, but `del_count` has gone from 1 to 0: the call had an
effect. -/
theorem C14_failed_key_copy_changes_del_count :
    Reachable tomb_map ∧ hm_search tomb_map [97] = none ∧ needs_resize tomb_map = false ∧
    hash_cstr_fnv1a [97] % 16 = 6 ∧ (slot_at tomb_map.slots 6).state = SLOT_DELETED ∧
    (hm_insert tomb_map [97] 1 true false).1 = 2 ∧
    (hm_insert tomb_map [97] 1 true false).2.slots = tomb_map.slots ∧
    (hm_insert tomb_map [97] 1 true false).2.size = tomb_map.size ∧
    tomb_map.del_count = 1 ∧
    (hm_insert tomb_map [97] 1 true false).2.del_count = 0 := by
  refine ⟨?_, by decide, by decide, by decide, by decide, by decide, by decide, by decide,
    by decide, by decide⟩
  exact Reachable.delete _ _ (Reachable.insert _ _ _ _ _
    (Reachable.create 16 true true map16 (by decide) (by decide)))

theorem Sound.wf {m : Hashmap} (h : Sound m) (hle : m.capacity ≤ SIZE_MAX / sizeof_Slot) :
    WF m :=
  ⟨⟨h.pow2, hle, h.len, h.key_iff, h.probe, h.uniq⟩, h.size_eq⟩

theorem WF.sound {m : Hashmap} (h : WF m)
    (hd : m.del_count = count_state SLOT_DELETED m.slots) : Sound m := by
  refine ⟨h.slots_wf.pow2, ?_, h.slots_wf.len, h.slots_wf.key_iff, h.slots_wf.probe,
    h.slots_wf.uniq, h.size_eq, hd⟩
  have h1 := h.slots_wf.cap_max
  have h2 : SIZE_MAX < 2 ^ 64 := by decide
  omega

theorem make_slots_too_many {count : Nat} (c : Bool) (h0 : count ≠ 0)
    (h : SIZE_MAX / sizeof_Slot < count) : make_slots count c = none := by
  unfold make_slots
  rw [if_pos ⟨h0, h⟩]

/-- A map too large to be doubled: `hm_resize` returns 2 and leaves it as it was. -/
theorem hm_resize_too_large {m : Hashmap} (c : Bool) (hlt : m.capacity < 2 ^ 64)
    (hbig : SIZE_MAX / sizeof_Slot < m.capacity) : hm_resize m c = (2, m) := by
  have hdiv : SIZE_MAX / sizeof_Slot = 768614336404564650 := by decide
  rw [hdiv] at hbig
  unfold hm_resize
  simp only
  by_cases hov : m.capacity * 2 % 2 ^ 64 < m.capacity
  · rw [if_pos hov]
  · rw [if_neg hov]
    have hsmall : m.capacity < 2 ^ 63 := by
      by_contra hge
      apply hov
      omega
    have hmod : m.capacity * 2 % 2 ^ 64 = m.capacity * 2 := Nat.mod_eq_of_lt (by omega)
    rw [hmod, make_slots_too_many c (by omega) (by rw [hdiv]; omega)]

/-- On a well-formed map `hm_resize` returns 0 or 2. -/
theorem hm_resize_code {m : Hashmap} (h : WF m) (c : Bool) :
    ((hm_resize m c).1 = 0 ∧ make_slots (2 * m.capacity) c ≠ none) ∨
    ((hm_resize m c).1 = 2 ∧ make_slots (2 * m.capacity) c = none) := by
  cases hmk : make_slots (2 * m.capacity) c with
  | some new_slots =>
    left
    exact ⟨hm_resize_succeeds h c (by rw [hmk]; exact fun hx => by cases hx),
      fun hx => by cases hx⟩
  | none =>
    right
    refine ⟨?_, rfl⟩
    have hle := h.slots_wf.cap_le
    have hdiv : SIZE_MAX / sizeof_Slot = 768614336404564650 := by decide
    rw [hdiv] at hle
    have hcap2 : (m.capacity * 2) % 2 ^ 64 = 2 * m.capacity := by
      rw [Nat.mod_eq_of_lt (by omega)]
      omega
    unfold hm_resize
    simp only [hcap2, hmk]
    split <;> rfl

/-- C15. Resize is all-or-nothing: on every map that satisfies the counter and probe
invariants, `hm_resize` either returns 0 with the capacity exactly doubled, `size`
unchanged, `del_count` 0, no Deleted slot in the new array, every key answered by
`hm_search` as before, every previously Occupied key found in an Occupied slot with its
previous value and stored in one slot only; or it returns non-zero with the whole map
untouched. It returns non-zero exactly when doubling the capacity overflows `size_t`
(capacity at least `2 ^ 63`) or `make_slots` cannot provide the new array, and it never
returns the rehash failure code 3. -/
theorem C15_resize_all_or_nothing (m : Hashmap) (hm : Sound m) (calloc_ok : Bool) :
    (((hm_resize m calloc_ok).1 = 0 ∧
        (hm_resize m calloc_ok).2.capacity = 2 * m.capacity ∧
        (hm_resize m calloc_ok).2.size = m.size ∧
        (hm_resize m calloc_ok).2.del_count = 0 ∧
        (hm_resize m calloc_ok).2.slots.length = (hm_resize m calloc_ok).2.capacity ∧
        (∀ p, (slot_at (hm_resize m calloc_ok).2.slots p).state ≠ SLOT_DELETED) ∧
        (∀ k, hm_lookup (hm_resize m calloc_ok).2 k = hm_lookup m k) ∧
        (∀ k p, p < m.capacity → holds m.slots p k →
          hm_lookup (hm_resize m calloc_ok).2 k
            = some ⟨some k, (slot_at m.slots p).value, SLOT_OCCUPIED⟩) ∧
        (∀ p q k, p < (hm_resize m calloc_ok).2.capacity →
          q < (hm_resize m calloc_ok).2.capacity →
          holds (hm_resize m calloc_ok).2.slots p k →
          holds (hm_resize m calloc_ok).2.slots q k → p = q)) ∨
      ((hm_resize m calloc_ok).1 ≠ 0 ∧ (hm_resize m calloc_ok).2 = m)) ∧
    ((hm_resize m calloc_ok).1 ≠ 0 ↔
      (2 ^ 63 ≤ m.capacity ∨ make_slots (2 * m.capacity) calloc_ok = none)) ∧
    (hm_resize m calloc_ok).1 ≠ 3 := by
  have hdiv : SIZE_MAX / sizeof_Slot = 768614336404564650 := by decide
  by_cases hle : m.capacity ≤ SIZE_MAX / sizeof_Slot
  · have hwf := hm.wf hle
    have hsmall : ¬ 2 ^ 63 ≤ m.capacity := by rw [hdiv] at hle; omega
    rcases hm_resize_code hwf calloc_ok with ⟨h0, hmk⟩ | ⟨h2, hmk⟩
    · refine ⟨Or.inl ?_, ?_, by rw [h0]; decide⟩
      · obtain ⟨r1, r2, r3, r4, r5, _, r7⟩ := hm_resize_ok hwf calloc_ok h0
        have hval : ∀ k, hm_lookup (hm_resize m calloc_ok).2 k = hm_lookup m k :=
          fun k => hm_lookup_of_value hwf r1 (hm_value_congr hwf r1 k (r7 k))
        refine ⟨h0, r2, r3, r4, r1.slots_wf.len, r5, hval, ?_, r1.slots_wf.uniq⟩
        intro k p hp hh
        rw [hval k, hm_lookup_eq hwf, (hm_value_iff hwf k _).2 ⟨p, hp, hh, rfl⟩]
        rfl
      · rw [h0]
        constructor
        · intro hx
          exact absurd rfl hx
        · rintro (hx | hx)
          · exact absurd hx hsmall
          · exact absurd hx hmk
    · refine ⟨Or.inr ⟨by rw [h2]; decide, hm_resize_fail m calloc_ok (by rw [h2]; decide)⟩,
        ?_, by rw [h2]; decide⟩
      rw [h2]
      exact ⟨fun _ => Or.inr hmk, fun _ => by decide⟩
  · have hbig : SIZE_MAX / sizeof_Slot < m.capacity := by omega
    have heq := hm_resize_too_large calloc_ok hm.cap_lt hbig
    rw [heq]
    have hne0 : ((2 : Int), m).1 ≠ 0 := by show (2 : Int) ≠ 0; decide
    have hne3 : ((2 : Int), m).1 ≠ 3 := by show (2 : Int) ≠ 3; decide
    refine ⟨Or.inr ⟨hne0, rfl⟩, ?_, hne3⟩
    refine ⟨fun _ => ?_, fun _ => hne0⟩
    by_cases h63 : 2 ^ 63 ≤ m.capacity
    · exact Or.inl h63
    · right
      rw [hdiv] at hbig
      exact make_slots_too_many calloc_ok (by omega) (by rw [hdiv]; omega)

/-- Witness of C15: resizing `q_tomb_map` with memory gives 32 slots, size 1, `del_count` 0
and "q" answered as before; without memory the map is returned untouched. -/
theorem C15_resize_all_or_nothing_witness :
    (hm_resize q_tomb_map true).1 = 0 ∧
    (hm_resize q_tomb_map true).2.capacity = 32 ∧
    (hm_resize q_tomb_map true).2.size = q_tomb_map.size ∧
    (hm_resize q_tomb_map true).2.del_count = 0 ∧
    hm_lookup (hm_resize q_tomb_map true).2 [113] = hm_lookup q_tomb_map [113] ∧
    (hm_resize q_tomb_map false).1 ≠ 0 ∧
    (hm_resize q_tomb_map false).2 = q_tomb_map := by
  have hreach : Reachable q_tomb_map :=
    Reachable.delete _ _ (Reachable.insert _ _ _ _ _ (Reachable.insert _ _ _ _ _
      (Reachable.create 16 true true map16 (by decide) (by decide))))
  have hsound : Sound q_tomb_map := by
    rcases hreach.inv with hdeg | ⟨hwf, _⟩
    · exact absurd hdeg.1 (by decide)
    · exact hwf.sound (by decide)
  have h1 := C15_resize_all_or_nothing q_tomb_map hsound true
  have h2 := C15_resize_all_or_nothing q_tomb_map hsound false
  rcases h1.1 with ⟨a0, a1, a2, a3, _, _, a6, _, _⟩ | ⟨hne, _⟩
  · rcases h2.1 with ⟨b0, _⟩ | ⟨b0, b1⟩
    · exact absurd b0 (h2.2.1.2 (Or.inr (by decide)))
    · exact ⟨a0, by rw [a1]; decide, a2, a3, a6 [113], b0, b1⟩
  · exact absurd (by decide) hne

theorem needs_resize_iff {m : Hashmap} (hs : m.size + 1 < 2 ^ 64) :
    needs_resize m = true ↔
      (4 * (m.size + 1) > 3 * m.capacity ∨ (m.size > 0 ∧ 5 * m.del_count > 4 * m.size)) := by
  unfold needs_resize
  rw [Nat.mod_eq_of_lt hs]
  simp only [Bool.or_eq_true, decide_eq_true_eq, Bool.and_eq_true]

theorem WF.size_succ_lt {m : Hashmap} (h : WF m) : m.size + 1 < 2 ^ 64 := by
  have h1 := h.size_le
  have h4 := h.slots_wf.cap_le
  have hdiv : SIZE_MAX / sizeof_Slot = 768614336404564650 := by decide
  rw [hdiv] at h4
  omega

/-- The capacity after an insert that returned 0: doubled when the resize test fired, kept
otherwise. -/
theorem hm_insert_capacity {m : Hashmap} (h : WF m) (hl : Load m) (k : Key) (v : Nat)
    (c s : Bool) (hr : (hm_insert m k v c s).1 = 0) :
    (hm_insert m k v c s).2.capacity =
      if needs_resize m = true then 2 * m.capacity else m.capacity := by
  have horigin : ∀ m0, Prepared m c m0 →
      m0.capacity = if needs_resize m = true then 2 * m.capacity else m.capacity := by
    intro m0 hp
    rcases hp.origin with ⟨hn, rfl⟩ | ⟨hn, hr0, rfl⟩
    · rw [hn]
      rfl
    · rw [if_pos hn]
      exact (hm_resize_ok h c hr0).2.1
  rcases hm_insert_outcome h hl k v c s with ⟨_, _, h3⟩ | ⟨m0, p, hp, hs, heq⟩ |
    ⟨m0, jq, hp, hs, hjq, hpath, hfree, heq⟩
  · rw [h3] at hr
    cases hr
  · rw [heq]
    exact horigin m0 hp
  · rw [heq]
    cases s
    · rw [heq] at hr
      simp at hr
    · exact horigin m0 hp

/-- C16. Resize trigger policy: on every reachable map and for every key, present or not,
an `hm_insert` that returns 0 leaves the capacity at twice the previous capacity if before
the call `4 * (size + 1) > 3 * capacity` or (`size > 0` and `5 * del_count > 4 * size`),
and leaves the capacity unchanged otherwise. -/
theorem C16_resize_trigger (m : Hashmap) (hm : Reachable m) (k : Key) (v : Nat)
    (calloc_ok strdup_ok : Bool) (h0 : (hm_insert m k v calloc_ok strdup_ok).1 = 0) :
    (hm_insert m k v calloc_ok strdup_ok).2.capacity =
      if 4 * (m.size + 1) > 3 * m.capacity ∨ (m.size > 0 ∧ 5 * m.del_count > 4 * m.size)
      then 2 * m.capacity else m.capacity := by
  rcases hm.inv with hdeg | ⟨hwf, hl⟩
  · rw [hm_insert_degenerate hdeg.1] at h0
    cases h0
  · rw [hm_insert_capacity hwf hl k v calloc_ok strdup_ok h0]
    by_cases hn : needs_resize m = true
    · rw [if_pos hn, if_pos ((needs_resize_iff hwf.size_succ_lt).1 hn)]
    · rw [if_neg hn, if_neg (fun hx => hn ((needs_resize_iff hwf.size_succ_lt).2 hx))]

/-- Witness of C16: overwriting the present key "q" in `q_tomb_map` (size 1, one
tombstone) fires the tombstone test and doubles the 16 slots, while overwriting "a" in
`aq_map` (size 2, no tombstone) leaves them 16. -/
theorem C16_resize_trigger_witness :
    hm_search q_tomb_map [113] = some 7 ∧ q_tomb_map.size = 1 ∧ q_tomb_map.del_count = 1 ∧
    (hm_insert q_tomb_map [113] 9 true true).1 = 0 ∧
    (hm_insert q_tomb_map [113] 9 true true).2.capacity = 32 ∧
    (hm_insert aq_map [97] 9 true true).1 = 0 ∧
    (hm_insert aq_map [97] 9 true true).2.capacity = 16 := by
  have haq : Reachable aq_map :=
    Reachable.insert _ _ _ _ _ (Reachable.insert _ _ _ _ _
      (Reachable.create 16 true true map16 (by decide) (by decide)))
  have h1 := C16_resize_trigger q_tomb_map (Reachable.delete _ _ haq) [113] 9 true true
    (by decide)
  have h2 := C16_resize_trigger aq_map haq [97] 9 true true (by decide)
  refine ⟨by decide, by decide, by decide, by decide, ?_, by decide, ?_⟩
  · rw [h1]
    decide
  · rw [h2]
    decide

/-- An insert of an absent key that returns 0 without resizing: the key goes to the first
slot of its probe path that is not Occupied, and `del_count` is decremented modulo
`2 ^ 64` exactly when that slot is a tombstone. -/
theorem hm_insert_no_resize {m : Hashmap} (h : WF m) {k : Key} (habsent : hm_search m k = none)
    (hno : needs_resize m = false) (v : Nat) (c s : Bool)
    (hr : (hm_insert m k v c s).1 = 0) :
    ∃ jq, jq < m.capacity ∧
      (∀ j, j < jq →
        (slot_at m.slots (pos m.capacity (hash_cstr_fnv1a k % m.capacity) j)).state
          = SLOT_OCCUPIED) ∧
      (slot_at m.slots (pos m.capacity (hash_cstr_fnv1a k % m.capacity) jq)).state
        ≠ SLOT_OCCUPIED ∧
      hm_insert m k v c s =
        (0, ⟨m.slots.set (pos m.capacity (hash_cstr_fnv1a k % m.capacity) jq)
              ⟨some k, v, SLOT_OCCUPIED⟩, m.capacity, m.size + 1,
            if (slot_at m.slots (pos m.capacity (hash_cstr_fnv1a k % m.capacity) jq)).state
                = SLOT_DELETED
            then (m.del_count + (2 ^ 64 - 1)) % 2 ^ 64 else m.del_count⟩) := by
  have heq : hm_insert m k v c s = hm_insert_place m k v s := by
    unfold hm_insert
    rw [if_neg h.cap_ne, hno]
    simp
  rw [heq] at hr ⊢
  rcases hm_insert_place_absent h habsent v s with ⟨h4, _⟩ | ⟨jq, h1, h2, h3, h5⟩
  · rw [h4] at hr
    have : ((4 : Int), m).1 ≠ 0 := by show (4 : Int) ≠ 0; decide
    exact absurd hr this
  · cases s
    · rw [h5] at hr
      simp at hr
    · simp only [if_true] at h5
      exact ⟨jq, h1, h2, h3, h5⟩

/-- C17 counterexample. On `tomb_map` the key "a" is absent, no resize is due and the probe
walk meets the tombstone in its home slot 6; when the key copy fails `hm_insert` stores
nothing there and does not increment `size`. -/
theorem C17_nothing_stored_without_memory :
    Reachable tomb_map ∧ hm_search tomb_map [97] = none ∧ needs_resize tomb_map = false ∧
    hash_cstr_fnv1a [97] &&& (tomb_map.capacity - 1) = 6 ∧
    (slot_at tomb_map.slots 6).state = SLOT_DELETED ∧
    (hm_insert tomb_map [97] 1 true false).1 = 2 ∧
    (slot_at (hm_insert tomb_map [97] 1 true false).2.slots 6).state = SLOT_DELETED ∧
    hm_search (hm_insert tomb_map [97] 1 true false).2 [97] = none ∧
    (hm_insert tomb_map [97] 1 true false).2.size = tomb_map.size := by
  refine ⟨?_, by decide, by decide, by decide, by decide, by decide, by decide, by decide,
    by decide⟩
  exact Reachable.delete _ _ (Reachable.insert _ _ _ _ _
    (Reachable.create 16 true true map16 (by decide) (by decide)))

/-- C17 (amended). Tombstone placement: on every reachable map, for every absent key `k`
whose insert does not trigger a resize and returns 0, walking from the home index
`hash & (capacity - 1)` by `+1` modulo `capacity`: the walk reaches a slot that is Deleted
or Empty after Occupied slots only; if it meets a Deleted slot before any Empty slot, the
first such Deleted slot receives `k` and the value and becomes Occupied, `size` grows by 1,
every Empty slot stays Empty, and `del_count` drops by 1 provided it counted the Deleted
slots before the call; if the first slot that is not Occupied is Empty, that slot receives
`k`, `size` grows by 1 and `del_count` is unchanged. -/
theorem C17_tombstone_placement (m : Hashmap) (hm : Reachable m) (k : Key) (v : Nat)
    (calloc_ok strdup_ok : Bool) (habsent : hm_search m k = none)
    (hno : needs_resize m = false) (h0 : (hm_insert m k v calloc_ok strdup_ok).1 = 0) :
    (∃ jq, jq < m.capacity ∧
      (∀ j, j < jq →
        (slot_at m.slots (pos m.capacity (hash_cstr_fnv1a k &&& (m.capacity - 1)) j)).state
          = SLOT_OCCUPIED) ∧
      ((slot_at m.slots (pos m.capacity (hash_cstr_fnv1a k &&& (m.capacity - 1)) jq)).state
          = SLOT_DELETED ∨
        (slot_at m.slots (pos m.capacity (hash_cstr_fnv1a k &&& (m.capacity - 1)) jq)).state
          = SLOT_EMPTY)) ∧
    (∀ jd, jd < m.capacity →
      (slot_at m.slots (pos m.capacity (hash_cstr_fnv1a k &&& (m.capacity - 1)) jd)).state
        = SLOT_DELETED →
      (∀ j, j < jd →
        (slot_at m.slots (pos m.capacity (hash_cstr_fnv1a k &&& (m.capacity - 1)) j)).state
          ≠ SLOT_EMPTY ∧
        (slot_at m.slots (pos m.capacity (hash_cstr_fnv1a k &&& (m.capacity - 1)) j)).state
          ≠ SLOT_DELETED) →
      (hm_insert m k v calloc_ok strdup_ok).2.slots =
        m.slots.set (pos m.capacity (hash_cstr_fnv1a k &&& (m.capacity - 1)) jd)
          ⟨some k, v, SLOT_OCCUPIED⟩ ∧
      (hm_insert m k v calloc_ok strdup_ok).2.size = m.size + 1 ∧
      (hm_insert m k v calloc_ok strdup_ok).2.capacity = m.capacity ∧
      (m.del_count = count_state SLOT_DELETED m.slots →
        (hm_insert m k v calloc_ok strdup_ok).2.del_count + 1 = m.del_count) ∧
      (∀ p, (slot_at m.slots p).state = SLOT_EMPTY →
        (slot_at (hm_insert m k v calloc_ok strdup_ok).2.slots p).state = SLOT_EMPTY)) ∧
    (∀ je, je < m.capacity →
      (slot_at m.slots (pos m.capacity (hash_cstr_fnv1a k &&& (m.capacity - 1)) je)).state
        = SLOT_EMPTY →
      (∀ j, j < je →
        (slot_at m.slots (pos m.capacity (hash_cstr_fnv1a k &&& (m.capacity - 1)) j)).state
          ≠ SLOT_EMPTY ∧
        (slot_at m.slots (pos m.capacity (hash_cstr_fnv1a k &&& (m.capacity - 1)) j)).state
          ≠ SLOT_DELETED) →
      (hm_insert m k v calloc_ok strdup_ok).2.slots =
        m.slots.set (pos m.capacity (hash_cstr_fnv1a k &&& (m.capacity - 1)) je)
          ⟨some k, v, SLOT_OCCUPIED⟩ ∧
      (hm_insert m k v calloc_ok strdup_ok).2.size = m.size + 1 ∧
      (hm_insert m k v calloc_ok strdup_ok).2.capacity = m.capacity ∧
      (hm_insert m k v calloc_ok strdup_ok).2.del_count = m.del_count) := by
  rcases hm.inv with hdeg | ⟨hwf, hl⟩
  · rw [hm_insert_degenerate hdeg.1] at h0
    cases h0
  · obtain ⟨e, he⟩ := hwf.slots_wf.pow2
    have hc := hwf.slots_wf.cap_pos
    rw [mask_eq_mod he]
    obtain ⟨jq, hjq, hocc, hfree, heq⟩ :=
      hm_insert_no_resize hwf habsent hno v calloc_ok strdup_ok h0
    -- any offset that is the first one not Occupied is `jq`
    have hfirst : ∀ j1, j1 < m.capacity →
        (slot_at m.slots (pos m.capacity (hash_cstr_fnv1a k % m.capacity) j1)).state
          ≠ SLOT_OCCUPIED →
        (∀ j, j < j1 →
          (slot_at m.slots (pos m.capacity (hash_cstr_fnv1a k % m.capacity) j)).state
            ≠ SLOT_EMPTY ∧
          (slot_at m.slots (pos m.capacity (hash_cstr_fnv1a k % m.capacity) j)).state
            ≠ SLOT_DELETED) → j1 = jq := by
      intro j1 _ hj1 hbefore
      rcases Nat.lt_trichotomy j1 jq with hlt | heq1 | hgt
      · exact absurd (hocc j1 hlt) hj1
      · exact heq1
      · exact absurd (state_occupied_of (hbefore jq hgt).1 (hbefore jq hgt).2) hfree
    refine ⟨⟨jq, hjq, hocc, ?_⟩, ?_, ?_⟩
    · cases hst : (slot_at m.slots (pos m.capacity (hash_cstr_fnv1a k % m.capacity) jq)).state
      · exact Or.inr rfl
      · exact absurd hst hfree
      · exact Or.inl rfl
    · intro jd hjd hdel hbefore
      have hj := hfirst jd hjd (by rw [hdel]; decide) hbefore
      subst hj
      have hql : pos m.capacity (hash_cstr_fnv1a k % m.capacity) jd < m.slots.length := by
        rw [hwf.slots_wf.len]; exact pos_lt hc _ _
      rw [heq]
      refine ⟨rfl, rfl, rfl, ?_, ?_⟩
      · intro hcount
        show (if _ then _ else _) + 1 = _
        rw [if_pos hdel]
        have hpos := count_state_pos hql hdel
        have hle := count_state_le SLOT_DELETED m.slots
        have hmax := hwf.slots_wf.cap_max
        have hlen := hwf.slots_wf.len
        have h4 : SIZE_MAX = 2 ^ 64 - 1 := rfl
        omega
      · intro p hp
        show (slot_at (m.slots.set _ _) p).state = _
        have hpq : p ≠ pos m.capacity (hash_cstr_fnv1a k % m.capacity) jd := by
          intro hpq
          rw [hpq, hdel] at hp
          cases hp
        rw [slot_at_set_ne _ hpq]
        exact hp
    · intro je hje hemp hbefore
      have hj := hfirst je hje (by rw [hemp]; decide) hbefore
      subst hj
      rw [heq]
      refine ⟨rfl, rfl, rfl, ?_⟩
      show (if _ then _ else _) = _
      rw [if_neg (by rw [hemp]; decide)]

/-- Witness of C17: inserting "a" into `tomb_map` with memory available puts it into the
tombstone of its home slot 6, `size` goes from 0 to 1 and `del_count` from 1 to 0. -/
theorem C17_tombstone_placement_witness :
    hm_search tomb_map [97] = none ∧ needs_resize tomb_map = false ∧
    (hm_insert tomb_map [97] 5 true true).1 = 0 ∧
    pos tomb_map.capacity (hash_cstr_fnv1a [97] &&& (tomb_map.capacity - 1)) 0 = 6 ∧
    (slot_at tomb_map.slots 6).state = SLOT_DELETED ∧
    (hm_insert tomb_map [97] 5 true true).2.slots =
      tomb_map.slots.set
        (pos tomb_map.capacity (hash_cstr_fnv1a [97] &&& (tomb_map.capacity - 1)) 0)
        ⟨some [97], 5, SLOT_OCCUPIED⟩ ∧
    (hm_insert tomb_map [97] 5 true true).2.size = tomb_map.size + 1 ∧
    (hm_insert tomb_map [97] 5 true true).2.del_count + 1 = tomb_map.del_count := by
  have hreach : Reachable tomb_map :=
    Reachable.delete _ _ (Reachable.insert _ _ _ _ _
      (Reachable.create 16 true true map16 (by decide) (by decide)))
  have h := (C17_tombstone_placement tomb_map hreach [97] 5 true true (by decide)
    (by decide) (by decide)).2.1 0 (by decide) (by decide)
    (fun j hj => absurd hj (Nat.not_lt_zero j))
  exact ⟨by decide, by decide, by decide, by decide, by decide, h.1, h.2.1,
    h.2.2.2.1 (by decide)⟩

theorem prepared_of_origin {m m0 : Hashmap} (h : WF m) (hl : Load m) (c : Bool)
    (horigin : (needs_resize m = false ∧ m0 = m) ∨
      (needs_resize m = true ∧ (hm_resize m c).1 = 0 ∧ m0 = (hm_resize m c).2)) :
    Prepared m c m0 := by
  rcases hm_insert_prepare h hl [] 0 c true with ⟨h1, h2, _⟩ | ⟨m1, hp, _⟩
  · rcases horigin with ⟨hn, _⟩ | ⟨_, hr0, _⟩
    · rw [h1] at hn
      cases hn
    · exact absurd hr0 h2
  · have : m1 = m0 := by
      rcases hp.origin with ⟨hn1, e1⟩ | ⟨hn1, _, e1⟩ <;>
        rcases horigin with ⟨hn, e0⟩ | ⟨hn, _, e0⟩
      · rw [e1, e0]
      · rw [hn1] at hn
        cases hn
      · rw [hn1] at hn
        cases hn
      · rw [e1, e0]
    rw [← this]
    exact hp

/-- The return codes of `hm_insert` on a reachable map. -/
theorem hm_insert_codes {m : Hashmap} (hm : Inv m) (k : Key) (v : Nat) (c s : Bool) :
    (hm_insert m k v c s).1 = 0 ∨ (hm_insert m k v c s).1 = 1 ∨
      (hm_insert m k v c s).1 = 2 := by
  rcases hm with hdeg | ⟨hwf, hl⟩
  · rw [hm_insert_degenerate hdeg.1]
    exact Or.inr (Or.inl rfl)
  · rcases hm_insert_outcome hwf hl k v c s with ⟨_, _, h3⟩ | ⟨m0, p, _, _, heq⟩ |
      ⟨m0, jq, _, _, _, _, _, heq⟩
    · rw [h3]
      exact Or.inr (Or.inl rfl)
    · rw [heq]
      exact Or.inl rfl
    · rw [heq]
      cases s
      · exact Or.inr (Or.inr rfl)
      · exact Or.inl rfl

/-- On a prepared map the probe loop of `hm_insert` ends at a matching key, at an Empty
slot, or with a Deleted slot recorded, within `capacity` steps. -/
theorem hm_insert_loop_finds {m0 : Hashmap} (hwf : WF m0)
    (hroom : 4 * (m0.size + 1) ≤ 3 * m0.capacity) (k : Key) :
    (∃ p, hm_insert_loop m0.slots m0.capacity k m0.capacity
        (hash_cstr_fnv1a k &&& (m0.capacity - 1)) SIZE_MAX 0 = InsertProbe.hit p ∧
      p < m0.capacity ∧ holds m0.slots p k) ∨
    (∃ i d steps, hm_insert_loop m0.slots m0.capacity k m0.capacity
        (hash_cstr_fnv1a k &&& (m0.capacity - 1)) SIZE_MAX 0 = InsertProbe.done i d steps ∧
      steps ≤ m0.capacity ∧ ¬ (steps = m0.capacity ∧ d = SIZE_MAX) ∧
      ((steps < m0.capacity ∧ i < m0.capacity ∧ (slot_at m0.slots i).state = SLOT_EMPTY) ∨
        (d < m0.capacity ∧ (slot_at m0.slots d).state = SLOT_DELETED))) := by
  obtain ⟨e, he⟩ := hwf.slots_wf.pow2
  have hc := hwf.slots_wf.cap_pos
  have hmax := hwf.slots_wf.cap_max
  have hidx : hash_cstr_fnv1a k % m0.capacity < m0.capacity := Nat.mod_lt _ hc
  cases hs : hm_search m0 k with
  | some p =>
    left
    have hp := (hm_search_iff hwf k p).1 hs
    rw [← hwf.find_eq] at hs
    exact ⟨p, hm_insert_loop_hit k he _ _ _ _ p hs, hp.1, hp.2⟩
  | none =>
    right
    rw [← hwf.find_eq, mask_eq_mod he] at hs
    obtain ⟨t, d1, hrun, ht, hstop, hall, _, hdel⟩ :=
      hm_insert_loop_done k he hmax m0.capacity _ SIZE_MAX 0 hidx hs
    rw [mask_eq_mod he, hrun, Nat.zero_add]
    refine ⟨_, d1, t, rfl, ht, ?_⟩
    rcases hdel rfl with ⟨hd, hnodel⟩ | ⟨jd, hjd, hd, hdstate, _⟩
    · have htlt : t < m0.capacity := by
        by_contra hge
        have htc : t = m0.capacity := by omega
        have hallocc : ∀ p, p < m0.slots.length →
            (slot_at m0.slots p).state = SLOT_OCCUPIED := by
          intro p hp
          rw [hwf.slots_wf.len] at hp
          obtain ⟨j, hj, hpj⟩ := pos_surj hidx hp
          rw [← hpj]
          exact state_occupied_of (hall j (by omega)).1 (hnodel j (by omega))
        have hcount := count_state_all hallocc
        have h5 := hwf.size_eq
        have h6 := hwf.slots_wf.len
        omega
      exact ⟨fun hx => by omega, Or.inl ⟨htlt, pos_lt hc _ _, hstop htlt⟩⟩
    · have hne : d1 ≠ SIZE_MAX := by
        rw [hd]
        have := pos_lt hc (hash_cstr_fnv1a k % m0.capacity) jd
        omega
      refine ⟨fun hx => hne hx.2, Or.inr ⟨?_, ?_⟩⟩
      · rw [hd]
        exact pos_lt hc _ _
      · rw [hd]
        exact hdstate

/-- C18. Table-full is prevented by the resize policy: on every reachable map and for every
key, `hm_insert` never returns the table-full code 4 (it returns 0, 1 or 2); and whenever
the resize test does not fire, or fires and the resize succeeds, the probe loop on the map
it then walks ends within `capacity` steps at a slot holding the key, at an Empty slot, or
with a Deleted slot recorded for reuse. -/
theorem C18_table_full_never (m : Hashmap) (hm : Reachable m) (k : Key) (v : Nat)
    (calloc_ok strdup_ok : Bool) :
    (hm_insert m k v calloc_ok strdup_ok).1 ≠ 4 ∧
    ((hm_insert m k v calloc_ok strdup_ok).1 = 0 ∨
      (hm_insert m k v calloc_ok strdup_ok).1 = 1 ∨
      (hm_insert m k v calloc_ok strdup_ok).1 = 2) ∧
    (∀ m0, m.capacity ≠ 0 →
      ((needs_resize m = false ∧ m0 = m) ∨
        (needs_resize m = true ∧ (hm_resize m calloc_ok).1 = 0 ∧
          m0 = (hm_resize m calloc_ok).2)) →
      (∃ p, hm_insert_loop m0.slots m0.capacity k m0.capacity
          (hash_cstr_fnv1a k &&& (m0.capacity - 1)) SIZE_MAX 0 = InsertProbe.hit p ∧
        p < m0.capacity ∧ (slot_at m0.slots p).state = SLOT_OCCUPIED ∧
        (slot_at m0.slots p).key = some k) ∨
      (∃ i d steps, hm_insert_loop m0.slots m0.capacity k m0.capacity
          (hash_cstr_fnv1a k &&& (m0.capacity - 1)) SIZE_MAX 0
            = InsertProbe.done i d steps ∧
        steps ≤ m0.capacity ∧ ¬ (steps = m0.capacity ∧ d = SIZE_MAX) ∧
        ((steps < m0.capacity ∧ i < m0.capacity ∧
            (slot_at m0.slots i).state = SLOT_EMPTY) ∨
          (d < m0.capacity ∧ (slot_at m0.slots d).state = SLOT_DELETED)))) := by
  have hcodes := hm_insert_codes hm.inv k v calloc_ok strdup_ok
  refine ⟨?_, hcodes, ?_⟩
  · rcases hcodes with h | h | h <;> rw [h] <;> decide
  · intro m0 hcap horigin
    rcases hm.inv with hdeg | ⟨hwf, hl⟩
    · exact absurd hdeg.1 hcap
    · have hp := prepared_of_origin hwf hl calloc_ok horigin
      exact hm_insert_loop_finds hp.wf hp.room k

/-- Witness of C18: the fourth key on `abc4_map` (3 keys in 4 slots) resizes first and then
finds an Empty slot: the call returns 0, not 4. -/
theorem C18_table_full_never_witness :
    needs_resize abc4_map = true ∧ (hm_insert abc4_map [100] 4 true true).1 = 0 ∧
    (hm_insert abc4_map [100] 4 true true).1 ≠ 4 ∧
    (hm_insert abc4_map [100] 4 false true).1 = 1 :=
  ⟨by decide, by decide,
    (C18_table_full_never abc4_map
      (Reachable.insert _ _ _ _ _ (Reachable.insert _ _ _ _ _ (Reachable.insert _ _ _ _ _
        (Reachable.create 4 true true map4 (by decide) (by decide)))))
      [100] 4 true true).1, by decide⟩

/-- With memory available for a due resize, and for the key copy of an absent key,
`hm_insert` returns 0. -/
theorem hm_insert_succeeds {m : Hashmap} (h : WF m) (hl : Load m) (k : Key) (v : Nat)
    (c s : Bool) (hmem : needs_resize m = true → make_slots (2 * m.capacity) c ≠ none)
    (hcopy : hm_search m k = none → s = true) : (hm_insert m k v c s).1 = 0 := by
  rcases hm_insert_outcome h hl k v c s with ⟨h1, h2, _⟩ | ⟨m0, p, _, _, heq⟩ |
    ⟨m0, jq, hp, hs, _, _, _, heq⟩
  · exact absurd (hm_resize_succeeds h c (hmem h1)) h2
  · rw [heq]
  · rw [heq, hcopy ((hp.search_none_iff h k).1 hs)]
    rfl

/-- After an insert that resized and returned 0, `del_count` is 0. -/
theorem hm_insert_del_count_resized {m : Hashmap} (h : WF m) (hl : Load m) (k : Key) (v : Nat)
    (c s : Bool) (hn : needs_resize m = true) (hr : (hm_insert m k v c s).1 = 0) :
    (hm_insert m k v c s).2.del_count = 0 := by
  have horigin : ∀ m0, Prepared m c m0 → NoDeleted m0.slots ∧ m0.del_count = 0 := by
    intro m0 hp
    rcases hp.origin with ⟨hf, _⟩ | ⟨_, hr0, rfl⟩
    · rw [hn] at hf
      cases hf
    · obtain ⟨_, _, _, r4, r5, _, _⟩ := hm_resize_ok h c hr0
      exact ⟨r5, r4⟩
  rcases hm_insert_outcome h hl k v c s with ⟨_, _, h3⟩ | ⟨m0, p, hp, _, heq⟩ |
    ⟨m0, jq, hp, _, _, _, _, heq⟩
  · rw [h3] at hr
    cases hr
  · rw [heq]
    exact (horigin m0 hp).2
  · obtain ⟨f1, f2⟩ := horigin m0 hp
    simp only [f1 _, if_false, f2] at heq
    rw [heq]
    cases s <;> rfl

/-- C19 counterexample. No reachable map has capacity `16 * 2 ^ 56`: `make_slots` refuses
every array of more than `SIZE_MAX / sizeof(Slot)` slots, so the churn sequence cannot
double the capacity 56 times. -/
theorem C19_capacity_is_bounded :
    ¬ ∃ m, Reachable m ∧ m.capacity = 16 * 2 ^ 56 := by
  rintro ⟨m, hm, hcap⟩
  rcases hm.inv with hdeg | ⟨hwf, _⟩
  · rw [hdeg.1] at hcap
    exact absurd hcap (by decide)
  · have hle := hwf.slots_wf.cap_le
    have hdiv : SIZE_MAX / sizeof_Slot = 768614336404564650 := by decide
    rw [hdiv, hcap] at hle
    exact absurd hle (by decide)

/-- The state of the churn sequence after `n` rounds, while the arrays can be allocated. -/
theorem churn_spec : ∀ n, n ≤ 55 →
    Reachable (churn n) ∧ (churn n).capacity = 16 * 2 ^ n ∧ (churn n).size = 2 ∧
    (churn n).del_count = 0 ∧ hm_search (churn n) (thing n) ≠ none ∧
    hm_search (churn n) (thing (n + 1)) ≠ none ∧
    (∀ i, n + 1 < i → i < 10 ^ 20 → hm_search (churn n) (thing i) = none)
  | 0, _ => by
    have h16 : Reachable map16 := Reachable.create 16 true true map16 (by decide) (by decide)
    have h1 : Reachable (hm_insert map16 (thing 0) 0 true true).2 :=
      Reachable.insert _ _ _ _ _ h16
    refine ⟨Reachable.insert _ _ _ _ _ h1, by decide, by decide, by decide, by decide,
      by decide, ?_⟩
    intro i hi hlt
    have hne0 : thing i ≠ thing 0 := fun hx => by
      have := thing_injective hlt (by decide) hx
      omega
    have hne1 : thing i ≠ thing 1 := fun hx => by
      have := thing_injective hlt (by decide) hx
      omega
    show hm_search (hm_insert (hm_insert map16 (thing 0) 0 true true).2
      (thing 1) 1 true true).2 (thing i) = none
    rw [← hm_lookup_none_iff, insert_lookup_frame h1.inv _ _ _ _ hne1,
      insert_lookup_frame h16.inv _ _ _ _ hne0, hm_lookup_none_iff]
    exact hm_create_search (by decide : hm_create 16 true true = some map16) _
  | n + 1, hn => by
    obtain ⟨hreach, hcap, hsize, hdel, hpres0, hpres1, habs⟩ := churn_spec n (by omega)
    have hinv := hreach.inv
    have hdcode : (hm_delete (churn n) (thing n)).1 = 0 := (hm_delete_code _ _).2 hpres0
    obtain ⟨_, d2, d3, d4⟩ := delete_absent hinv (thing n) hdcode
    have hreach1 : Reachable (hm_delete (churn n) (thing n)).2 := Reachable.delete _ _ hreach
    have hinv1 := hreach1.inv
    have hneA : thing (n + 2) ≠ thing n := fun hx => by
      have := thing_injective (by omega) (by omega) hx
      omega
    have hneB : thing (n + 1) ≠ thing n := fun hx => by
      have := thing_injective (by omega) (by omega) hx
      omega
    have hneC : thing (n + 1) ≠ thing (n + 2) := fun hx => by
      have := thing_injective (by omega) (by omega) hx
      omega
    have habs1 : hm_search (hm_delete (churn n) (thing n)).2 (thing (n + 2)) = none := by
      rw [delete_search_frame hinv _ hneA]
      exact habs (n + 2) (by omega) (by omega)
    have hsz1 : (hm_delete (churn n) (thing n)).2.size = 1 := by omega
    have hdc1 : (hm_delete (churn n) (thing n)).2.del_count = 1 := by
      rw [d3, hdel]
      rfl
    rcases hinv1 with hdeg | ⟨hwf1, hl1⟩
    · rw [hdeg.2.2] at hsz1
      cases hsz1
    · have hneeds : needs_resize (hm_delete (churn n) (thing n)).2 = true := by
        rw [needs_resize_iff hwf1.size_succ_lt, hsz1, hdc1]
        exact Or.inr (by decide)
      have hpow : (16 : Nat) * 2 ^ n ≤ 16 * 2 ^ 54 :=
        Nat.mul_le_mul_left 16 (Nat.pow_le_pow_right (by decide) (by omega))
      have hmem : make_slots (2 * (hm_delete (churn n) (thing n)).2.capacity) true ≠ none := by
        rw [d4, hcap]
        unfold make_slots
        have hdiv : SIZE_MAX / sizeof_Slot = 768614336404564650 := by decide
        rw [hdiv, if_neg (fun hbig => by omega)]
        simp
      have hcode := hm_insert_succeeds hwf1 hl1 (thing (n + 2)) (n + 2) true true
        (fun _ => hmem) (fun _ => rfl)
      have hcapn := hm_insert_capacity hwf1 hl1 (thing (n + 2)) (n + 2) true true hcode
      rw [if_pos hneeds, d4, hcap] at hcapn
      have hsizen := hm_insert_size hwf1 hl1 (thing (n + 2)) (n + 2) true true hcode
      rw [if_pos habs1, hsz1] at hsizen
      have hdeln := hm_insert_del_count_resized hwf1 hl1 (thing (n + 2)) (n + 2) true true
        hneeds hcode
      have hself := insert_lookup_self (Or.inr ⟨hwf1, hl1⟩) (thing (n + 2)) (n + 2) true true
        hcode
      refine ⟨Reachable.insert _ _ _ _ _ hreach1, ?_, hsizen, hdeln, ?_, ?_, ?_⟩
      · show (hm_insert (hm_delete (churn n) (thing n)).2 (thing (n + 2)) (n + 2)
          true true).2.capacity = _
        rw [hcapn, Nat.pow_succ]
        ring
      · show hm_search (hm_insert (hm_delete (churn n) (thing n)).2 (thing (n + 2)) (n + 2)
          true true).2 (thing (n + 1)) ≠ none
        rw [Ne, ← hm_lookup_none_iff,
          insert_lookup_frame (Or.inr ⟨hwf1, hl1⟩) _ _ _ _ hneC, hm_lookup_none_iff,
          delete_search_frame hinv _ hneB]
        exact hpres1
      · show hm_search (hm_insert (hm_delete (churn n) (thing n)).2 (thing (n + 2)) (n + 2)
          true true).2 (thing (n + 2)) ≠ none
        rw [Ne, ← hm_lookup_none_iff, hself]
        exact fun hx => by cases hx
      · intro i hi hlt
        have hne2 : thing i ≠ thing (n + 2) := fun hx => by
          have := thing_injective hlt (by omega) hx
          omega
        have hne0 : thing i ≠ thing n := fun hx => by
          have := thing_injective hlt (by omega) hx
          omega
        show hm_search (hm_insert (hm_delete (churn n) (thing n)).2 (thing (n + 2)) (n + 2)
          true true).2 (thing i) = none
        rw [← hm_lookup_none_iff, insert_lookup_frame (Or.inr ⟨hwf1, hl1⟩) _ _ _ _ hne2,
          hm_lookup_none_iff, delete_search_frame hinv _ hne0]
        exact habs i (by omega) hlt

/-- C19 (amended). Capacity is not bounded by the live size under delete/insert churn: on
every reachable map with `size = 1`, `del_count = 1` and capacity below `2 ^ 63`, an
`hm_insert` of an absent key that returns 0 doubles the capacity; hence for every `n ≤ 55`
the churn sequence on `hm_create(16)` (insert two keys, then `n` times delete one key and
insert a fresh key, all allocations succeeding) consists of calls that all return 0, never
holds more than 2 live keys and ends with capacity `16 * 2 ^ n`. -/
theorem C19_churn_doubles_capacity (n : Nat) (hn : n ≤ 55) :
    (∀ (m : Hashmap) (k : Key) (v : Nat) (c s : Bool), Reachable m → m.size = 1 →
      m.del_count = 1 → m.capacity < 2 ^ 63 → hm_search m k = none →
      (hm_insert m k v c s).1 = 0 → (hm_insert m k v c s).2.capacity = 2 * m.capacity) ∧
    (map16.size = 0 ∧ (hm_insert map16 (thing 0) 0 true true).1 = 0 ∧
      (hm_insert map16 (thing 0) 0 true true).2.size = 1 ∧
      (hm_insert (hm_insert map16 (thing 0) 0 true true).2 (thing 1) 1 true true).1 = 0) ∧
    (∀ j, j ≤ n → (churn j).size = 2 ∧ (hm_delete (churn j) (thing j)).1 = 0 ∧
      (hm_delete (churn j) (thing j)).2.size = 1 ∧
      (j < n → (hm_insert (hm_delete (churn j) (thing j)).2 (thing (j + 2)) (j + 2)
        true true).1 = 0)) ∧
    Reachable (churn n) ∧ (churn n).capacity = 16 * 2 ^ n := by
  refine ⟨?_, ⟨by decide, by decide, by decide, by decide⟩, ?_, (churn_spec n hn).1,
    (churn_spec n hn).2.1⟩
  · intro m k v c s hm hsize hdel _ _ h0
    rcases hm.inv with hdeg | ⟨hwf, hl⟩
    · rw [hm_insert_degenerate hdeg.1] at h0
      cases h0
    · rw [hm_insert_capacity hwf hl k v c s h0]
      have hneeds : needs_resize m = true := by
        rw [needs_resize_iff hwf.size_succ_lt, hsize, hdel]
        exact Or.inr (by decide)
      rw [if_pos hneeds]
  · intro j hj
    obtain ⟨hreach, _, hsize, _, hpres0, _, _⟩ := churn_spec j (by omega)
    have hdcode : (hm_delete (churn j) (thing j)).1 = 0 := (hm_delete_code _ _).2 hpres0
    obtain ⟨_, d2, _, _⟩ := delete_absent hreach.inv (thing j) hdcode
    have hsz1 : (hm_delete (churn j) (thing j)).2.size = 1 := by omega
    refine ⟨hsize, hdcode, hsz1, ?_⟩
    intro hjn
    by_contra hfail
    have hnext := (churn_spec (j + 1) (by omega)).2.2.1
    have hinv1 := (Reachable.delete (churn j) (thing j) hreach).inv
    rcases hinv1 with hdeg | ⟨hwf1, hl1⟩
    · rw [hdeg.2.2] at hsz1
      cases hsz1
    · have hkeep := (hm_insert_failed hwf1 hl1 (thing (j + 2)) (j + 2) true true hfail
        (thing 0)).2
      have hnext1 : (hm_insert (hm_delete (churn j) (thing j)).2 (thing (j + 2)) (j + 2)
          true true).2.size = 2 := hnext
      omega

/-- Witness of C19: two rounds of churn on `hm_create(16)` end with 64 slots and 2 keys. -/
theorem C19_churn_doubles_capacity_witness :
    (2 ≤ 55) ∧ Reachable (churn 2) ∧ (churn 2).capacity = 64 ∧ (churn 2).size = 2 := by
  have h := C19_churn_doubles_capacity 2 (by decide)
  refine ⟨by decide, h.2.2.2.1, ?_, (h.2.2.1 2 (Nat.le_refl 2)).1⟩
  rw [h.2.2.2.2]
  decide

/-- C20 (code bug). On an array of 2 slots whose slot 1 is Empty, `slot_insert` of the key
"c" (home index 0) returns the table-full code 2 and writes nothing: its loop indexes with
`i++`, so it tests the home slot twice and gives up after `cap - 1` distinct slots. The
probe loop of `hm_insert`, which advances before it indexes, ends at the Empty slot 1 of the
same array after one step. -/
theorem C20_slot_insert_misses_last_slot :
    hash_cstr_fnv1a [99] &&& (2 - 1) = 0 ∧
    (slot_at half_full_slots 1).state = SLOT_EMPTY ∧
    slot_insert_loop half_full_slots 2 2 0 0 0 = (1, 2) ∧
    slot_insert half_full_slots (some [99]) 3 1 2 = (2, half_full_slots, 1) ∧
    hm_insert_loop half_full_slots 2 [99] 2 0 SIZE_MAX 0 = InsertProbe.done 1 SIZE_MAX 1 := by
  refine ⟨by decide, by decide, by decide, by decide, by decide⟩

/-! ## The load bound and the `double` arithmetic of the resize test (C10) -/

/-- Sample roundings: the doubles `0.8`, `0.1` and `1/3`, and conversions of integers around
`2 ^ 53`, where the spacing of doubles becomes 2. -/
theorem round_ratio_examples :
    round_ratio 4 5 = (7205759403792794, 2 ^ 53) ∧
    round_ratio 1 10 = (7205759403792794, 2 ^ 56) ∧
    round_ratio 1 3 = (6004799503160661, 2 ^ 54) ∧
    to_double 0 = (0, 1) ∧
    to_double 1 = (2 ^ 52, 2 ^ 52) ∧
    to_double (2 ^ 53 - 1) = (2 ^ 53 - 1, 1) ∧
    to_double (2 ^ 53 + 1) = (2 ^ 53, 1) ∧
    to_double (2 ^ 53 + 3) = (2 ^ 53 + 4, 1) ∧
    to_double (2 ^ 54) = (2 ^ 54, 1) ∧
    to_double (3 * 2 ^ 52 + 1) = (3 * 2 ^ 52, 1) ∧
    to_double (2 ^ 64 - 1) = (2 ^ 64, 1) := by decide

theorem bit_length_zero (fuel : Nat) : bit_length fuel 0 = 0 := by
  cases fuel <;> simp [bit_length]

theorem bit_length_eq : ∀ (fuel n c : Nat), n < 2 ^ fuel → 2 ^ c ≤ n → n < 2 ^ (c + 1) →
    bit_length fuel n = c + 1
  | 0, n, c, h, h1, _ => by
    have := Nat.pow_pos (n := c) (by decide : 0 < 2)
    simp at h
    omega
  | fuel + 1, n, c, h, h1, h2 => by
    have hc := Nat.pow_pos (n := c) (by decide : 0 < 2)
    unfold bit_length
    rw [if_neg (by omega)]
    cases c with
    | zero =>
      have : n = 1 := by simp at h1 h2; omega
      subst this
      simp [bit_length_zero]
    | succ c =>
      rw [bit_length_eq fuel (n / 2) c]
      · rw [Nat.pow_succ] at h; omega
      · rw [Nat.pow_succ] at h1; omega
      · have h3 : (2 : Nat) ^ (c + 1 + 1) = 2 ^ (c + 1) * 2 := pow_succ 2 (c + 1)
        omega

theorem scale_exponent_exact {p d m k : Nat} (hp : p < 2 ^ 256) (hd : d < 2 ^ 256)
    (hd0 : 0 < d) (hm1 : 2 ^ 52 ≤ m) (hm2 : m < 2 ^ 53) (h : p * 2 ^ k = m * d) :
    scale_exponent p d = (k : Int) := by
  have hk := Nat.pow_pos (n := k) (by decide : 0 < 2)
  have hp0 : p ≠ 0 := by
    rintro rfl
    have : 0 < m * d := Nat.mul_pos (by omega) hd0
    omega
  have hd1 : d ≠ 0 := by omega
  have ha1 := Nat.pow_log_le_self 2 hp0
  have ha2 : p < 2 ^ (Nat.log 2 p + 1) := Nat.lt_pow_succ_log_self (by decide : 1 < 2) p
  have hb1 := Nat.pow_log_le_self 2 hd1
  have hb2 : d < 2 ^ (Nat.log 2 d + 1) := Nat.lt_pow_succ_log_self (by decide : 1 < 2) d
  generalize Nat.log 2 p = a at ha1 ha2
  generalize Nat.log 2 d = b at hb1 hb2
  have hbp : bit_length 256 p = a + 1 := bit_length_eq 256 p a hp ha1 ha2
  have hbd : bit_length 256 d = b + 1 := bit_length_eq 256 d b hd hb1 hb2
  -- k is the first guess or one more
  have hlo : 52 + b < a + 1 + k := by
    apply (Nat.pow_lt_pow_iff_right (by decide : 1 < 2)).1
    calc 2 ^ (52 + b) = 2 ^ 52 * 2 ^ b := by rw [pow_add]
      _ ≤ m * d := Nat.mul_le_mul hm1 hb1
      _ = p * 2 ^ k := h.symm
      _ < 2 ^ (a + 1) * 2 ^ k := Nat.mul_lt_mul_of_pos_right ha2 hk
      _ = 2 ^ (a + 1 + k) := by rw [← pow_add]
  have hhi : a + k < 53 + (b + 1) := by
    apply (Nat.pow_lt_pow_iff_right (by decide : 1 < 2)).1
    calc 2 ^ (a + k) = 2 ^ a * 2 ^ k := by rw [pow_add]
      _ ≤ p * 2 ^ k := Nat.mul_le_mul_right _ ha1
      _ = m * d := h
      _ < 2 ^ 53 * 2 ^ (b + 1) := Nat.mul_lt_mul'' hm2 hb2
      _ = 2 ^ (53 + (b + 1)) := by rw [← pow_add]
  unfold scale_exponent
  rw [hbp, hbd]
  simp only []
  by_cases hk0 : a + k = 52 + b
  · -- the first guess
    have hk1 : (52 + ((b + 1 : Nat) : Int) - ((a + 1 : Nat) : Int)) = (k : Int) := by
      push_cast; omega
    rw [hk1]
    have hs : scaled p d (k : Int) = (p * 2 ^ k, d) := by
      unfold scaled
      rw [if_pos (Int.natCast_nonneg k)]
      rfl
    rw [hs]
    show (if p * 2 ^ k / d < 2 ^ 52 then (k : Int) + 1 else (k : Int)) = k
    rw [h, Nat.mul_div_cancel _ hd0, if_neg (by omega)]
  · have hk2 : a + k = 53 + b := by omega
    by_cases hkz : k = 0
    · subst hkz
      have hk1 : (52 + ((b + 1 : Nat) : Int) - ((a + 1 : Nat) : Int)) = -1 := by
        push_cast; omega
      rw [hk1]
      have hs : scaled p d (-1) = (p, d * 2) := by
        unfold scaled
        rw [if_neg (by decide)]
        rfl
      rw [hs]
      show (if p / (d * 2) < 2 ^ 52 then (-1 : Int) + 1 else (-1 : Int)) = ((0 : Nat) : Int)
      rw [if_pos]
      · rfl
      · rw [Nat.div_lt_iff_lt_mul (by omega)]
        simp only [pow_zero, mul_one] at h
        rw [h]
        nlinarith
    · obtain ⟨j, rfl⟩ : ∃ j, k = j + 1 := ⟨k - 1, by omega⟩
      have hk1 : (52 + ((b + 1 : Nat) : Int) - ((a + 1 : Nat) : Int)) = (j : Int) := by
        push_cast; omega
      rw [hk1]
      have hs : scaled p d (j : Int) = (p * 2 ^ j, d) := by
        unfold scaled
        rw [if_pos (Int.natCast_nonneg j)]
        rfl
      rw [hs]
      show (if p * 2 ^ j / d < 2 ^ 52 then (j : Int) + 1 else (j : Int)) = ((j + 1 : Nat) : Int)
      rw [if_pos]
      · push_cast; rfl
      · rw [Nat.div_lt_iff_lt_mul hd0]
        rw [pow_succ] at h
        nlinarith

/-- A quotient that is itself a double is not changed by the rounding. -/
theorem round_ratio_exact {p d m k : Nat} (hp : p < 2 ^ 256) (hd : d < 2 ^ 256)
    (hd0 : 0 < d) (hm1 : 2 ^ 52 ≤ m) (hm2 : m < 2 ^ 53) (h : p * 2 ^ k = m * d) :
    round_ratio p d = (m, 2 ^ k) := by
  have hp0 : p ≠ 0 := by
    rintro rfl
    have : 0 < m * d := Nat.mul_pos (by omega) hd0
    omega
  unfold round_ratio
  rw [if_neg hp0, scale_exponent_exact hp hd hd0 hm1 hm2 h]
  have hs : scaled p d (k : Int) = (p * 2 ^ k, d) := by
    unfold scaled
    rw [if_pos (Int.natCast_nonneg k)]
    rfl
  simp only [hs]
  rw [if_pos (Int.natCast_nonneg k)]
  have hr : round_even (p * 2 ^ k) d = m := by
    unfold round_even
    rw [h, Nat.mul_mod_left, Nat.mul_div_cancel _ hd0, if_pos (by omega)]
  rw [hr]
  rfl

/-- The conversion of an integer below `2 ^ 53` is exact. -/
theorem to_double_small {n : Nat} (h0 : 0 < n) (h : n < 2 ^ 53) :
    ∃ j, j ≤ 52 ∧ to_double n = (n * 2 ^ j, 2 ^ j) ∧ 2 ^ 52 ≤ n * 2 ^ j ∧ n * 2 ^ j < 2 ^ 53 := by
  have hn0 : n ≠ 0 := by omega
  have ha1 := Nat.pow_log_le_self 2 hn0
  have ha2 : n < 2 ^ (Nat.log 2 n + 1) := Nat.lt_pow_succ_log_self (by decide : 1 < 2) n
  generalize Nat.log 2 n = a at ha1 ha2
  have ha : a ≤ 52 := by
    have : 2 ^ a < 2 ^ 53 := lt_of_le_of_lt ha1 h
    have := (Nat.pow_lt_pow_iff_right (by decide : 1 < 2)).1 this
    omega
  have hj := Nat.pow_pos (n := 52 - a) (by decide : 0 < 2)
  have e1 : 2 ^ a * 2 ^ (52 - a) = 2 ^ 52 := by rw [← pow_add]; congr 1; omega
  have e2 : 2 ^ (a + 1) * 2 ^ (52 - a) = 2 ^ 53 := by rw [← pow_add]; congr 1; omega
  have b1 : 2 ^ 52 ≤ n * 2 ^ (52 - a) := by
    rw [← e1]; exact Nat.mul_le_mul_right _ ha1
  have b2 : n * 2 ^ (52 - a) < 2 ^ 53 := by
    rw [← e2]; exact Nat.mul_lt_mul_of_pos_right ha2 hj
  refine ⟨52 - a, by omega, ?_, b1, b2⟩
  unfold to_double
  apply round_ratio_exact (lt_trans h (by decide)) (by decide) (by decide) b1 b2
  rw [Nat.mul_one]

/-- The first load test in `double` arithmetic is the exact comparison while `size + 1` is
below `2 ^ 53` and the capacity is a power of two whose conversion is exact. -/
theorem first_test_exact {s cap j : Nat} (hs0 : 0 < s) (hs : s < 2 ^ 53) (hj : j ≤ 64)
    (hcap : cap ≤ 2 ^ 64) (hpow : ∃ e, cap = 2 ^ e)
    (hc : to_double cap = (cap * 2 ^ j, 2 ^ j)) :
    gt_double (div_double (to_double s) (to_double cap)) (3, 4) = decide (3 * cap < 4 * s) := by
  obtain ⟨i, hi, hts, b1, b2⟩ := to_double_small hs0 hs
  obtain ⟨e, rfl⟩ := hpow
  have hi2 : (2 : Nat) ^ i ≤ 2 ^ 52 := Nat.pow_le_pow_right (by decide) hi
  have hj2 : (2 : Nat) ^ j ≤ 2 ^ 64 := Nat.pow_le_pow_right (by decide) hj
  have hipos := Nat.pow_pos (n := i) (by decide : 0 < 2)
  have hjpos := Nat.pow_pos (n := j) (by decide : 0 < 2)
  have hepos := Nat.pow_pos (n := e) (by decide : 0 < 2)
  have hdiv : div_double (to_double s) (to_double (2 ^ e)) = (s * 2 ^ i, 2 ^ (i + e)) := by
    rw [hts, hc]
    unfold div_double
    apply round_ratio_exact _ _ _ b1 b2
    · show s * 2 ^ i * 2 ^ j * 2 ^ (i + e) = s * 2 ^ i * (2 ^ i * (2 ^ e * 2 ^ j))
      rw [pow_add]; ring
    · show s * 2 ^ i * 2 ^ j < 2 ^ 256
      calc s * 2 ^ i * 2 ^ j < 2 ^ 53 * 2 ^ 64 :=
            Nat.mul_lt_mul_of_lt_of_le b2 hj2 (by decide)
        _ < 2 ^ 256 := by decide
    · show 2 ^ i * (2 ^ e * 2 ^ j) < 2 ^ 256
      calc 2 ^ i * (2 ^ e * 2 ^ j) ≤ 2 ^ 52 * (2 ^ 64 * 2 ^ 64) :=
            Nat.mul_le_mul hi2 (Nat.mul_le_mul hcap hj2)
        _ < 2 ^ 256 := by decide
    · show 0 < 2 ^ i * (2 ^ e * 2 ^ j)
      positivity
  rw [hdiv]
  unfold gt_double
  apply decide_eq_decide.2
  show 3 * 2 ^ (i + e) < s * 2 ^ i * 4 ↔ 3 * 2 ^ e < 4 * s
  rw [pow_add]
  constructor
  · intro h
    by_contra hn
    have : 4 * s ≤ 3 * 2 ^ e := by omega
    have := Nat.mul_le_mul_left (2 ^ i) this
    nlinarith
  · intro h
    have := Nat.mul_lt_mul_of_pos_left h hipos
    nlinarith

/-- The second load test does not fire while `del_count` is 0. -/
theorem second_test_zero (x y : Nat × Nat) :
    gt_double (div_double (to_double 0) x) y = false := by
  have h0 : to_double 0 = (0, 1) := rfl
  rw [h0]
  unfold div_double
  simp only [Nat.zero_mul]
  have h1 : round_ratio 0 (1 * x.1) = (0, 1) := by
    unfold round_ratio
    rw [if_pos rfl]
  rw [h1]
  unfold gt_double
  simp

/-- On a map of fewer than `2 ^ 53` slots within the load bound, the first test of
`needs_resize_ieee` is the first test of `needs_resize`. -/
theorem needs_resize_ieee_small {m : Hashmap} (hpow : ∃ e, m.capacity = 2 ^ e)
    (hcap : m.capacity < 2 ^ 53) (hs : m.size + 1 < 2 ^ 53) :
    needs_resize_ieee m =
      (decide (3 * m.capacity < 4 * (m.size + 1)) ||
        (decide (m.size > 0) &&
          gt_double (div_double (to_double m.del_count) (to_double m.size))
            (round_ratio 4 5))) := by
  have hc0 : 0 < m.capacity := by
    obtain ⟨e, he⟩ := hpow
    rw [he]
    exact Nat.pow_pos (by decide)
  obtain ⟨j, hj, hc, _, _⟩ := to_double_small hc0 hcap
  unfold needs_resize_ieee
  rw [Nat.mod_eq_of_lt (lt_trans hs (by decide)),
    first_test_exact (Nat.succ_pos _) hs (by omega) (le_of_lt (lt_trans hcap (by decide)))
      hpow hc]

/-- The conversion of an integer of 54 bits keeps 53 of them: the nearest even integer, of
two equally near the one whose half is even. -/
theorem to_double_54_bits {n : Nat} (h1 : 2 ^ 53 ≤ n) (h2 : n < 2 ^ 54) :
    to_double n = (round_even n 2 * 2, 1) := by
  have hb : bit_length 256 n = 54 := bit_length_eq 256 n 53 (lt_trans h2 (by decide)) h1 h2
  have hb1 : bit_length 256 1 = 1 := by decide
  have hs : scaled n 1 (-1) = (n, 2) := by
    unfold scaled
    rw [if_neg (by decide)]
    rfl
  have hk : scale_exponent n 1 = -1 := by
    unfold scale_exponent
    rw [hb, hb1]
    show (if (scaled n 1 (-1)).1 / (scaled n 1 (-1)).2 < 2 ^ 52 then (-1 : Int) + 1
      else (-1 : Int)) = -1
    rw [hs, if_neg]
    show ¬ n / 2 < 2 ^ 52
    omega
  unfold to_double round_ratio
  rw [if_neg (by omega), hk]
  simp only [hs]
  rw [if_neg (by decide)]
  rfl

theorem round_even_two {n : Nat} (h1 : 2 ^ 53 ≤ n) (h2 : n ≤ 3 * 2 ^ 52) :
    2 ^ 52 ≤ round_even n 2 ∧ round_even n 2 ≤ 3 * 2 ^ 51 := by
  unfold round_even
  split_ifs <;> omega

/-- In `2 ^ 54` slots the first load test does not fire while `size + 1` is at most three
quarters of the capacity: the conversion of `size + 1` may round, but not beyond
`3 * 2 ^ 52`, which is a double. -/
theorem first_test_2_54 {s : Nat} (hs0 : 0 < s) (hs : s ≤ 3 * 2 ^ 52) :
    gt_double (div_double (to_double s) (to_double (2 ^ 54))) (3, 4) = false := by
  by_cases hsmall : s < 2 ^ 53
  · rw [@first_test_exact s (2 ^ 54) 0 hs0 hsmall (by decide) (by decide) ⟨54, rfl⟩
      (by decide)]
    exact decide_eq_false (by omega)
  · have hc : to_double (2 ^ 54) = (2 ^ 54, 1) := by decide
    obtain ⟨b1, b2⟩ := round_even_two (n := s) (by omega) hs
    rw [to_double_54_bits (by omega) (by omega), hc]
    have hdiv : div_double (round_even s 2 * 2, 1) (2 ^ 54, 1) = (round_even s 2, 2 ^ 53) := by
      unfold div_double
      apply round_ratio_exact _ _ _ b1 (by omega)
      · show round_even s 2 * 2 * 1 * 2 ^ 53 = round_even s 2 * (1 * 2 ^ 54)
        ring
      · show round_even s 2 * 2 * 1 < 2 ^ 256
        have : (2 : Nat) ^ 56 < 2 ^ 256 := by decide
        omega
      · show 1 * 2 ^ 54 < 2 ^ 256
        decide
      · show 0 < 1 * 2 ^ 54
        decide
    rw [hdiv]
    unfold gt_double
    apply decide_eq_false
    show ¬ 3 * 2 ^ 53 < round_even s 2 * 4
    omega

/-- On a map of `2 ^ 54` slots whose `del_count` is 0, `needs_resize_ieee` does not fire
while `size + 1` is at most three quarters of the capacity. -/
theorem needs_resize_ieee_2_54 {m : Hashmap} (hcap : m.capacity = 2 ^ 54)
    (hd : m.del_count = 0) (hs : m.size + 1 ≤ 3 * 2 ^ 52) :
    needs_resize_ieee m = false := by
  unfold needs_resize_ieee
  rw [Nat.mod_eq_of_lt (lt_of_le_of_lt hs (by decide)), hd, second_test_zero, hcap,
    first_test_2_54 (Nat.succ_pos _) hs]
  simp

/-- With `3 * 2 ^ 52` keys in `2 ^ 54` slots the conversion `(double)(size + 1)` rounds
`3 * 2 ^ 52 + 1` down to `3 * 2 ^ 52`, the quotient is exactly 0.75 and the test does not
fire, although `size + 1` is more than three quarters of the capacity. -/
theorem needs_resize_ieee_misses {m : Hashmap} (hcap : m.capacity = 2 ^ 54)
    (hd : m.del_count = 0) (hs : m.size = 3 * 2 ^ 52) :
    needs_resize_ieee m = false ∧ 3 * m.capacity < 4 * (m.size + 1) := by
  constructor
  · unfold needs_resize_ieee
    rw [hd, second_test_zero, hcap, hs]
    decide
  · rw [hcap, hs]
    decide

/-! ## `hm_insert` with the tests in `double` arithmetic -/

theorem hm_insert_ieee_eq {m : Hashmap} (h : needs_resize_ieee m = needs_resize m) (k : Key)
    (v : Nat) (c s : Bool) : hm_insert_ieee m k v c s = hm_insert m k v c s := by
  unfold hm_insert_ieee hm_insert
  rw [h]

theorem hm_insert_ieee_place {m : Hashmap} (hc : m.capacity ≠ 0)
    (h : needs_resize_ieee m = false) (k : Key) (v : Nat) (c s : Bool) :
    hm_insert_ieee m k v c s = hm_insert_place m k v s := by
  unfold hm_insert_ieee
  rw [if_neg hc, h]
  rfl

theorem hm_insert_place_eq {m : Hashmap} (hc : m.capacity ≠ 0)
    (h : needs_resize m = false) (k : Key) (v : Nat) (c s : Bool) :
    hm_insert m k v c s = hm_insert_place m k v s := by
  unfold hm_insert
  rw [if_neg hc, h]
  rfl

/-- The part of `hm_insert` after the resize test reads `del_count` only to decrement it. -/
theorem hm_insert_place_del_count (m : Hashmap) (d : Nat) (k : Key) (v : Nat) (s : Bool) :
    (hm_insert_place { m with del_count := d } k v s).1 = (hm_insert_place m k v s).1 ∧
    (hm_insert_place { m with del_count := d } k v s).2.slots
      = (hm_insert_place m k v s).2.slots ∧
    (hm_insert_place { m with del_count := d } k v s).2.capacity
      = (hm_insert_place m k v s).2.capacity ∧
    (hm_insert_place { m with del_count := d } k v s).2.size
      = (hm_insert_place m k v s).2.size := by
  unfold hm_insert_place
  simp only []
  cases hm_insert_loop m.slots m.capacity k m.capacity
      (hash_cstr_fnv1a k &&& (m.capacity - 1)) SIZE_MAX 0 with
  | hit i => exact ⟨rfl, rfl, rfl, rfl⟩
  | done i del_i steps =>
    simp only []
    by_cases h1 : steps = m.capacity ∧ del_i = SIZE_MAX
    · rw [if_pos h1, if_pos h1]
      exact ⟨rfl, rfl, rfl, rfl⟩
    · rw [if_neg h1, if_neg h1]
      cases s
      · simp
      · simp

theorem hm_insert_place_capacity (m : Hashmap) (k : Key) (v : Nat) (s : Bool) :
    (hm_insert_place m k v s).2.capacity = m.capacity := by
  unfold hm_insert_place
  simp only []
  cases hm_insert_loop m.slots m.capacity k m.capacity
      (hash_cstr_fnv1a k &&& (m.capacity - 1)) SIZE_MAX 0 with
  | hit i => rfl
  | done i del_i steps =>
    simp only []
    by_cases h1 : steps = m.capacity ∧ del_i = SIZE_MAX
    · rw [if_pos h1]
    · rw [if_neg h1]
      cases s
      · rfl
      · rfl

theorem hm_resize_capacity_le (m : Hashmap) (c : Bool) :
    m.capacity ≤ (hm_resize m c).2.capacity := by
  unfold hm_resize
  simp only []
  by_cases h1 : m.capacity * 2 % 2 ^ 64 < m.capacity
  · rw [if_pos h1]
  · rw [if_neg h1]
    cases make_slots (m.capacity * 2 % 2 ^ 64) c with
    | none => exact le_refl _
    | some ns =>
      simp only []
      cases rehash (m.capacity * 2 % 2 ^ 64) ((List.range m.capacity).map (slot_at m.slots))
          ns 0 with
      | none => exact le_refl _
      | some r =>
        show m.capacity ≤ m.capacity * 2 % 2 ^ 64
        omega

/-- No call of `hm_insert` makes the capacity smaller. -/
theorem hm_insert_ieee_capacity_le (m : Hashmap) (k : Key) (v : Nat) (c s : Bool) :
    m.capacity ≤ (hm_insert_ieee m k v c s).2.capacity := by
  unfold hm_insert_ieee
  by_cases h0 : m.capacity = 0
  · rw [if_pos h0]
  · rw [if_neg h0]
    cases needs_resize_ieee m with
    | false =>
      show m.capacity ≤ (hm_insert_place m k v s).2.capacity
      rw [hm_insert_place_capacity]
    | true =>
      show m.capacity ≤ (if (hm_resize m c).1 ≠ 0 then ((1 : Int), (hm_resize m c).2)
        else hm_insert_place (hm_resize m c).2 k v s).2.capacity
      by_cases hr : (hm_resize m c).1 ≠ 0
      · rw [if_pos hr]
        exact hm_resize_capacity_le m c
      · rw [if_neg hr, hm_insert_place_capacity]
        exact hm_resize_capacity_le m c

theorem hm_update_capacity (m : Hashmap) (k : Key) (v : Nat) :
    (hm_update m k v).2.capacity = m.capacity := by
  rw [hm_update_eq]
  cases hm_search m k <;> rfl

theorem hm_delete_capacity (m : Hashmap) (k : Key) :
    (hm_delete m k).2.capacity = m.capacity := by
  rw [hm_delete_eq]
  cases hm_search m k <;> rfl

/-- Below `2 ^ 53` slots `hm_insert_ieee` keeps the invariant of reachable maps, whatever
it returns and whatever the second test answers. -/
theorem Inv.insert_ieee_inv {m : Hashmap} (h : Inv m) (hcap : m.capacity < 2 ^ 53) (k : Key)
    (v : Nat) (c s : Bool) : Inv (hm_insert_ieee m k v c s).2 := by
  rcases h with h0 | ⟨hwf, hl⟩
  · unfold hm_insert_ieee
    rw [if_pos h0.1]
    exact Or.inl h0
  · have hc0 := hwf.cap_ne
    have hsz := hwf.size_succ_lt
    have hcp := hwf.slots_wf.cap_pos
    unfold Load at hl
    rcases Bool.eq_false_or_eq_true (needs_resize_ieee m) with ht | ht
    · -- the source resizes
      have heq : hm_insert_ieee m k v c s =
          if (hm_resize m c).1 ≠ 0 then ((1 : Int), (hm_resize m c).2)
          else hm_insert_place (hm_resize m c).2 k v s := by
        unfold hm_insert_ieee
        rw [if_neg hc0, ht]
        rfl
      rw [heq]
      by_cases hr : (hm_resize m c).1 ≠ 0
      · rw [if_pos hr]
        show Inv (hm_resize m c).2
        rw [hm_resize_fail m c hr]
        exact Or.inr ⟨hwf, hl⟩
      · rw [if_neg hr]
        have hr0 : (hm_resize m c).1 = 0 := not_not.1 hr
        obtain ⟨w1, w2, w3, w4, _, _, _⟩ := hm_resize_ok hwf c hr0
        have hl1 : Load (hm_resize m c).2 := by
          unfold Load
          rw [w2, w3]
          omega
        have hno : needs_resize (hm_resize m c).2 = false := by
          apply Bool.eq_false_iff.2
          intro hx
          rw [needs_resize_iff w1.size_succ_lt, w2, w3, w4] at hx
          omega
        rw [← hm_insert_place_eq w1.cap_ne hno k v c s]
        exact Or.inr (hm_insert_wf w1 hl1 k v c s)
    · -- the source does not resize: neither does the first exact test
      rw [hm_insert_ieee_place hc0 ht]
      have hfirst : ¬ 3 * m.capacity < 4 * (m.size + 1) := by
        intro hx
        rw [needs_resize_ieee_small hwf.slots_wf.pow2 hcap (by omega), decide_eq_true hx]
          at ht
        cases ht
      have hwf1 : WF { m with del_count := 0 } := ⟨hwf.slots_wf, hwf.size_eq⟩
      have hl1 : Load { m with del_count := 0 } := hl
      have hno : needs_resize { m with del_count := 0 } = false := by
        apply Bool.eq_false_iff.2
        intro hx
        rw [needs_resize_iff (m := { m with del_count := 0 }) hsz] at hx
        rcases hx with hx | ⟨_, hx⟩
        · exact hfirst hx
        · exact absurd hx (by show ¬ (4 * m.size < 5 * 0); omega)
      have hw := hm_insert_wf hwf1 hl1 k v c s
      rw [hm_insert_place_eq hwf1.cap_ne hno k v c s] at hw
      obtain ⟨_, e1, e2, e3⟩ := hm_insert_place_del_count m 0 k v s
      refine Or.inr ⟨⟨?_, ?_⟩, ?_⟩
      · rw [← e1, ← e2]
        exact hw.1.slots_wf
      · rw [← e1, ← e3]
        exact hw.1.size_eq
      · unfold Load
        rw [← e2, ← e3]
        exact hw.2

/-- Every map of fewer than `2 ^ 53` slots that the operations of the source build
satisfies the invariant. -/
theorem Reachable_ieee.inv_small {m : Hashmap} (h : Reachable_ieee m) :
    m.capacity < 2 ^ 53 → Inv m := by
  induction h with
  | create n b c m hn hc => exact fun _ => hm_create_inv hn hc
  | insert m k v c s _ ih =>
    intro hcap
    have hm := lt_of_le_of_lt (hm_insert_ieee_capacity_le m k v c s) hcap
    exact (ih hm).insert_ieee_inv hm k v c s
  | update m k v _ ih =>
    intro hcap
    rw [hm_update_capacity] at hcap
    exact (ih hcap).update_inv k v
  | delete m k _ ih =>
    intro hcap
    rw [hm_delete_capacity] at hcap
    exact (ih hcap).delete_inv k

/-- C10 (amended). Load-factor bound: on every map of fewer than `2 ^ 53` slots reachable
from `hm_create` through the public operations, right after any `hm_insert` that returns 0,
`size / capacity` does not exceed 0.75, that is `4 * size ≤ 3 * capacity`. The insert is
`hm_insert_ieee`, with the load tests in `double` arithmetic as the source has them: below
`2 ^ 53` the conversions of `size + 1` and of the capacity are exact, and so is their
quotient by a power of two. -/
theorem C10_load_bound_after_insert (m : Hashmap) (hm : Reachable_ieee m)
    (hcap : m.capacity < 2 ^ 53) (k : Key) (v : Nat) (calloc_ok strdup_ok : Bool)
    (h0 : (hm_insert_ieee m k v calloc_ok strdup_ok).1 = 0) :
    4 * (hm_insert_ieee m k v calloc_ok strdup_ok).2.size
      ≤ 3 * (hm_insert_ieee m k v calloc_ok strdup_ok).2.capacity := by
  rcases hm.inv_small hcap with hdeg | ⟨hwf, hl⟩
  · unfold hm_insert_ieee at h0
    rw [if_pos hdeg.1] at h0
    cases h0
  · rcases Inv.insert_ieee_inv (Or.inr ⟨hwf, hl⟩) hcap k v calloc_ok strdup_ok with
      hdeg | ⟨_, hl1⟩
    · rw [hdeg.2.2]
      exact Nat.zero_le _
    · exact hl1

set_option maxRecDepth 4000 in
/-- Witness of C10: the fourth key in `abc4_ieee_map` makes the 4 slots 8 before it is
stored. -/
theorem C10_load_bound_after_insert_witness :
    abc4_ieee_map.capacity < 2 ^ 53 ∧
    (hm_insert_ieee abc4_ieee_map [100] 4 true true).1 = 0 ∧
    (hm_insert_ieee abc4_ieee_map [100] 4 true true).2.size = 4 ∧
    (hm_insert_ieee abc4_ieee_map [100] 4 true true).2.capacity = 8 ∧
    4 * (hm_insert_ieee abc4_ieee_map [100] 4 true true).2.size
      ≤ 3 * (hm_insert_ieee abc4_ieee_map [100] 4 true true).2.capacity :=
  ⟨by decide, by decide, by decide, by decide, C10_load_bound_after_insert abc4_ieee_map
    (Reachable_ieee.insert _ _ _ _ _ (Reachable_ieee.insert _ _ _ _ _
      (Reachable_ieee.insert _ _ _ _ _
        (Reachable_ieee.create 4 true true map4 (by decide) (by decide)))))
    (by decide) [100] 4 true true (by decide)⟩

theorem hm_search_none_of_value {m : Hashmap} {k : Key} (h : hm_value m k = none) :
    hm_search m k = none := by
  unfold hm_value hm_lookup at h
  simpa using h

/-- The run that fills `hm_create(2 ^ 54)` with the keys `thing_0`, `thing_1`, ...: after
`i` of them, `i` at most `3 * 2 ^ 52`, no resize has happened. -/
theorem fill_2_54 : ∀ i, i ≤ 3 * 2 ^ 52 →
    ∃ m, Reachable_ieee m ∧ WF m ∧ m.capacity = 2 ^ 54 ∧ m.size = i ∧ m.del_count = 0 ∧
      NoDeleted m.slots ∧ ∀ j, i ≤ j → j < 10 ^ 20 → hm_value m (thing j) = none
  | 0, _ => by
    have hnp : next_pow2 (2 ^ 54) = 2 ^ 54 := by decide
    have hc : hm_create (2 ^ 54) true true
        = some ⟨List.replicate (2 ^ 54) zero_slot, 2 ^ 54, 0, 0⟩ := by
      unfold hm_create
      rw [if_pos rfl]
      simp only [hnp]
      unfold make_slots
      rw [if_neg (by decide), if_pos rfl]
    refine ⟨_, Reachable_ieee.create (2 ^ 54) true true _ (by decide) hc, ?_, rfl, rfl, rfl,
      ?_, ?_⟩
    · rcases hm_create_inv (by decide) hc with hdeg | ⟨hwf, _⟩
      · exact absurd hdeg.1 (by decide)
      · exact hwf
    · intro p
      show (slot_at (List.replicate (2 ^ 54) zero_slot) p).state ≠ _
      rw [slot_at_replicate]
      decide
    · intro j _ _
      unfold hm_value hm_lookup
      rw [hm_create_search hc]
      rfl
  | i + 1, hi => by
    obtain ⟨m, hr, hwf, hcap, hsz, hd, hnd, habs⟩ := fill_2_54 i (by omega)
    have hl : Load m := by
      unfold Load
      rw [hcap, hsz]
      omega
    have hk : hm_search m (thing i) = none :=
      hm_search_none_of_value (habs i (le_refl _) (by omega))
    have hni : needs_resize_ieee m = false :=
      needs_resize_ieee_2_54 hcap hd (by omega)
    have hno : needs_resize m = false := by
      apply Bool.eq_false_iff.2
      intro hx
      rw [needs_resize_iff hwf.size_succ_lt, hcap, hsz, hd] at hx
      omega
    have heq : hm_insert_ieee m (thing i) i true true = hm_insert m (thing i) i true true :=
      hm_insert_ieee_eq (hni.trans hno.symm) _ _ _ _
    have h0 : (hm_insert m (thing i) i true true).1 = 0 :=
      hm_insert_succeeds hwf hl _ _ _ _ (fun hx => by rw [hno] at hx; cases hx) (fun _ => rfl)
    obtain ⟨jq, hjq, _, _, hres⟩ := hm_insert_no_resize hwf hk hno i true true h0
    rw [if_neg (hnd _)] at hres
    have hql : pos m.capacity (hash_cstr_fnv1a (thing i) % m.capacity) jq < m.slots.length := by
      rw [hwf.slots_wf.len]; exact pos_lt hwf.slots_wf.cap_pos _ _
    refine ⟨(hm_insert_ieee m (thing i) i true true).2, Reachable_ieee.insert _ _ _ _ _ hr,
      ?_, ?_, ?_, ?_, ?_, ?_⟩
    · rw [heq]
      exact (hm_insert_wf hwf hl _ _ _ _).1
    · rw [heq, hres]
      exact hcap
    · rw [heq, hres]
      show m.size + 1 = i + 1
      rw [hsz]
    · rw [heq, hres]
      exact hd
    · rw [heq, hres]
      intro q
      show (slot_at (m.slots.set _ _) q).state ≠ _
      by_cases hqp : q = pos m.capacity (hash_cstr_fnv1a (thing i) % m.capacity) jq
      · rw [hqp, slot_at_set_eq _ hql]
        exact fun hx => by cases hx
      · rw [slot_at_set_ne _ hqp]
        exact hnd q
    · intro j hj hj2
      rw [heq, hm_insert_frame hwf hl _ _ _ _
        (fun hx => by have := thing_injective hj2 (by omega) hx; omega)]
      exact habs j (by omega) hj2

/-- C10 counterexample. In `hm_create(2 ^ 54)` filled with `3 * 2 ^ 52` keys, three quarters
of the slots, the next key makes `size + 1 = 3 * 2 ^ 52 + 1`, which `(double)` rounds to
`3 * 2 ^ 52`: the quotient is exactly 0.75, the test `> 0.75` does not fire, no resize
happens, the insert returns 0 and leaves `4 * size > 3 * capacity`. -/
theorem C10_load_bound_fails_at_2_54 :
    ∃ m, Reachable_ieee m ∧ m.capacity = 2 ^ 54 ∧ m.size = 3 * 2 ^ 52 ∧
      (hm_insert_ieee m (thing (3 * 2 ^ 52)) 0 true true).1 = 0 ∧
      3 * (hm_insert_ieee m (thing (3 * 2 ^ 52)) 0 true true).2.capacity
        < 4 * (hm_insert_ieee m (thing (3 * 2 ^ 52)) 0 true true).2.size := by
  obtain ⟨m, hr, hwf, hcap, hsz, hd, _, habs⟩ := fill_2_54 (3 * 2 ^ 52) (le_refl _)
  refine ⟨m, hr, hcap, hsz, ?_⟩
  have hk : hm_search m (thing (3 * 2 ^ 52)) = none :=
    hm_search_none_of_value (habs _ (le_refl _) (by decide))
  rw [hm_insert_ieee_place hwf.cap_ne (needs_resize_ieee_misses hcap hd hsz).1]
  rcases hm_insert_place_absent hwf hk 0 true with ⟨_, hall⟩ | ⟨jq, _, _, _, hres⟩
  · exfalso
    have hcount := count_state_all (fun p hp1 => hall p (hwf.slots_wf.len ▸ hp1))
    have h5 := hwf.size_eq
    have h6 := hwf.slots_wf.len
    rw [hcount, h6, hcap, hsz] at h5
    exact absurd h5 (by decide)
  · rw [if_pos rfl] at hres
    rw [hres]
    refine ⟨rfl, ?_⟩
    show 3 * m.capacity < 4 * (m.size + 1)
    rw [hcap, hsz]
    decide

end HashmapC
